import Mathlib

/-!
Verification development for the memory-disambiguation pipeline simulator
(`lsq.py`, `predictor.py`, `synchronization.py`, `pipeline.py`).

The Python sources are shallowly embedded as executable Lean definitions:

* Python `dict`s become insertion-ordered association lists (`alGet?`, `alSet`,
  `alDel`, and `memGet`/`memSet` for the byte-addressable memory map); an
  assignment to an existing key updates it in place, a new key is appended,
  matching CPython iteration order.
* Python object mutation becomes explicit state passing: every method returns
  the updated object together with its result.
* Machine integers stay `Int`/`Nat` (CPython integers are unbounded, so no
  wrap-around is modelled).
* `StoreSetPredictor.free_store_sets` is a CPython `set` of small ints
  (`0..max_store_sets-1`); for that value range CPython's `set.pop` returns the
  least element and iteration is in ascending order, so the pool is modelled as
  an ascending sorted list with `pop` taking the head.
-/

namespace MemDisamb

/-- Association-list lookup, mirroring `dict.get(k)`. Every dict the model
builds has unique keys, so first-match lookup is dict lookup. -/
def alGet? {α : Type} : List (Nat × α) → Nat → Option α
  | [], _ => none
  | kv :: t, k => if kv.1 = k then some kv.2 else alGet? t k

/-- Association-list update, mirroring `d[k] = v`: an existing key is updated
in place, a fresh key is appended (CPython dict insertion order). -/
def alSet {α : Type} : List (Nat × α) → Nat → α → List (Nat × α)
  | [], k, v => [(k, v)]
  | kv :: t, k, v => if kv.1 = k then (k, v) :: t else kv :: alSet t k v

/-- Association-list deletion, mirroring `del d[k]`. -/
def alDel {α : Type} : List (Nat × α) → Nat → List (Nat × α)
  | [], _ => []
  | kv :: t, k => if kv.1 = k then t else kv :: alDel t k

/-- The pipeline's byte-addressable memory, `self.memory: Dict[int, int]`. -/
abbrev Memory : Type := List (Int × Int)

/-- `self.memory.get(a, 0)`. -/
def memGet : Memory → Int → Int
  | [], _ => 0
  | kv :: t, a => if kv.1 = a then kv.2 else memGet t a

/-- `self.memory[a] = v`. -/
def memSet : Memory → Int → Int → Memory
  | [], a, v => [(a, v)]
  | kv :: t, a, v => if kv.1 = a then (a, v) :: t else kv :: memSet t a v

/-- Memory-op kind (`lsq.MemOpType`). -/
inductive MemOpType where
  | LOAD
  | STORE
  | ATOMIC
deriving DecidableEq, Repr

/-- One slot of the load/store queue (`lsq.LSQEntry`). -/
structure LSQEntry where
  seq_num : Nat
  pc : Nat
  op_type : MemOpType
  size : Nat
  address : Option Int := none
  data : Option Int := none
  address_valid : Bool := false
  data_valid : Bool := false
  speculative : Bool := false
  completed : Bool := false
  committed : Bool := false
deriving DecidableEq, Repr

/-- The load/store queue ring (`lsq.LoadStoreQueue`). `entries` has length
`capacity`; `head`, `tail` and `size` are the ring pointers. -/
structure LoadStoreQueue where
  capacity : Nat
  entries : List (Option LSQEntry)
  head : Nat
  tail : Nat
  size : Nat
deriving DecidableEq, Repr

/-- `LoadStoreQueue.__init__`. -/
def LoadStoreQueue.init (capacity : Nat) : LoadStoreQueue :=
  ⟨capacity, List.replicate capacity none, 0, 0, 0⟩

/-- `LoadStoreQueue.is_full`. -/
def LoadStoreQueue.is_full (q : LoadStoreQueue) : Bool :=
  q.capacity ≤ q.size

/-- `LoadStoreQueue.is_empty`. -/
def LoadStoreQueue.is_empty (q : LoadStoreQueue) : Bool :=
  q.size == 0

/-- `LoadStoreQueue.allocate`. -/
def LoadStoreQueue.allocate (q : LoadStoreQueue) (seq_num pc : Nat)
    (op_type : MemOpType) (size : Nat) : LoadStoreQueue × Option Nat :=
  if q.is_full then (q, none)
  else
    let entry : LSQEntry := { seq_num := seq_num, pc := pc, op_type := op_type, size := size }
    let idx := q.tail
    (⟨q.capacity, q.entries.set idx (some entry), q.head,
      (q.tail + 1) % q.capacity, q.size + 1⟩, some idx)

/-- Helper for the `0 <= idx < capacity and self.entries[idx]` guard pattern:
apply `f` to the entry at `idx` when it is present. -/
def LoadStoreQueue.modifyEntry (q : LoadStoreQueue) (idx : Nat)
    (f : LSQEntry → LSQEntry) : LoadStoreQueue :=
  if idx < q.capacity then
    match q.entries.get? idx with
    | some (some e) => { q with entries := q.entries.set idx (some (f e)) }
    | _ => q
  else q

/-- `LoadStoreQueue.update_address`. -/
def LoadStoreQueue.update_address (q : LoadStoreQueue) (idx : Nat) (address : Int) :
    LoadStoreQueue :=
  q.modifyEntry idx (fun e => { e with address := some address, address_valid := true })

/-- `LoadStoreQueue.update_data` (only store entries take the data). -/
def LoadStoreQueue.update_data (q : LoadStoreQueue) (idx : Nat) (data : Int) :
    LoadStoreQueue :=
  q.modifyEntry idx (fun e =>
    if e.op_type = MemOpType.STORE then { e with data := some data, data_valid := true }
    else e)

/-- `LoadStoreQueue.mark_speculative`. -/
def LoadStoreQueue.mark_speculative (q : LoadStoreQueue) (idx : Nat) : LoadStoreQueue :=
  q.modifyEntry idx (fun e => { e with speculative := true })

/-- `LoadStoreQueue.mark_completed`. -/
def LoadStoreQueue.mark_completed (q : LoadStoreQueue) (idx : Nat) : LoadStoreQueue :=
  q.modifyEntry idx (fun e => { e with completed := true })

/-- `LoadStoreQueue._addresses_overlap`: `not (end1 <= addr2 or end2 <= addr1)`. -/
def addressesOverlap (addr1 : Int) (size1 : Nat) (addr2 : Int) (size2 : Nat) : Bool :=
  !((addr1 + (size1 : Int) ≤ addr2) || (addr2 + (size2 : Int) ≤ addr1))

/-- Accumulator of `check_dependency`'s scan loop:
`(latest_conflict_idx, can_forward, forward_data)`. -/
structure DepAcc where
  latest_conflict_idx : Option Nat
  can_forward : Bool
  forward_data : Option Int
deriving DecidableEq, Repr

/-- One iteration of `check_dependency`'s `while` loop, at ring slot `idx`. -/
def depStep (entries : List (Option LSQEntry)) (load_addr : Int) (load_size : Nat)
    (acc : DepAcc) (idx : Nat) : DepAcc :=
  match entries.get? idx with
  | some (some entry) =>
    if entry.op_type = MemOpType.STORE ∨ entry.op_type = MemOpType.ATOMIC then
      if entry.address_valid then
        let store_addr := entry.address.getD 0
        let store_size := entry.size
        if addressesOverlap store_addr store_size load_addr load_size then
          if entry.data_valid ∧ store_addr = load_addr ∧ load_size ≤ store_size then
            ⟨some idx, true, entry.data⟩
          else
            ⟨some idx, false, none⟩
        else acc
      else
        ⟨some idx, false, none⟩
    else acc
  | _ => acc

/-- The ring slots visited by `idx = head; while idx != load_idx: ...;
idx = (idx + 1) % capacity` — for `head, load_idx < capacity` these are exactly
the slots strictly between `head` and `load_idx` in ring order. -/
def scanIdxs (capacity head load_idx : Nat) : List Nat :=
  (List.range ((load_idx + capacity - head) % capacity)).map
    (fun k => (head + k) % capacity)

/-- `LoadStoreQueue.check_dependency`, returning the (unchanged) queue together
with `(has_conflict, forwarding_idx, forwarding_data)`. The loop body only
reads `self`, which the fold makes explicit by threading the queue through. -/
def LoadStoreQueue.check_dependency (q : LoadStoreQueue) (load_idx : Nat) :
    LoadStoreQueue × (Bool × Option Nat × Option Int) :=
  match q.entries.get? load_idx with
  | some (some load_entry) =>
    if load_entry.address_valid then
      let load_addr := load_entry.address.getD 0
      let load_size := load_entry.size
      let st := (scanIdxs q.capacity q.head load_idx).foldl
        (fun (s : LoadStoreQueue × DepAcc) idx =>
          (s.1, depStep s.1.entries load_addr load_size s.2 idx))
        (q, ⟨none, false, none⟩)
      let acc := st.2
      (st.1, (acc.latest_conflict_idx.isSome,
        (if acc.can_forward then acc.latest_conflict_idx else none),
        acc.forward_data))
    else (q, (false, none, none))
  | _ => (q, (false, none, none))

/-- `LoadStoreQueue.commit_head`. -/
def LoadStoreQueue.commit_head (q : LoadStoreQueue) :
    LoadStoreQueue × Option LSQEntry :=
  if q.is_empty then (q, none)
  else
    match q.entries.get? q.head with
    | some (some entry) =>
      let entry' := { entry with committed := true }
      (⟨q.capacity, q.entries.set q.head none, (q.head + 1) % q.capacity,
        q.tail, q.size - 1⟩, some entry')
    | _ =>
      (⟨q.capacity, q.entries.set q.head none, (q.head + 1) % q.capacity,
        q.tail, q.size - 1⟩, none)

/-- Inner `while idx != self.tail` loop of `LoadStoreQueue.squash_from`: clear
entries (decrementing `size` for each one present) until `tail` is reached.
`fuel` bounds the walk; `capacity` steps always suffice when the pointers are
in range. -/
def lsqClearToTail (entries : List (Option LSQEntry)) (size idx tail capacity fuel : Nat) :
    List (Option LSQEntry) × Nat × Nat :=
  match fuel with
  | 0 => (entries, size, idx)
  | fuel' + 1 =>
    if idx = tail then (entries, size, idx)
    else
      let (entries', size') :=
        match entries.get? idx with
        | some (some _) => (entries.set idx none, size - 1)
        | _ => (entries, size)
      lsqClearToTail entries' size' ((idx + 1) % capacity) tail capacity fuel'

/-- Outer `for _ in range(self.size)` search of `LoadStoreQueue.squash_from`. -/
def lsqSquashLoop (q : LoadStoreQueue) (seq_num idx : Nat) : Nat → LoadStoreQueue
  | 0 => q
  | steps + 1 =>
    match q.entries.get? idx with
    | some (some entry) =>
      if seq_num ≤ entry.seq_num then
        let (entries', size', idx') :=
          lsqClearToTail q.entries q.size idx q.tail q.capacity (q.capacity + 1)
        ⟨q.capacity, entries', q.head, idx', size'⟩
      else lsqSquashLoop q seq_num ((idx + 1) % q.capacity) steps
    | _ => lsqSquashLoop q seq_num ((idx + 1) % q.capacity) steps

/-- `LoadStoreQueue.squash_from`. (Note the source sets `self.tail = idx` after
the inner loop has walked `idx` back to the old `tail`, so `tail` is in fact
unchanged; the cleared slots become holes.) -/
def LoadStoreQueue.squash_from (q : LoadStoreQueue) (seq_num : Nat) : LoadStoreQueue :=
  lsqSquashLoop q seq_num q.head q.size

/-- Ascending insertion into the free-set pool, mirroring `set.add` for small
ints (no duplicate is created when the element is already present). -/
def freeInsert : List Nat → Nat → List Nat
  | [], x => [x]
  | y :: ys, x =>
    if x < y then x :: y :: ys
    else if x = y then y :: ys
    else y :: freeInsert ys x

/-- The store-set predictor (`predictor.StoreSetPredictor`). `ssit` maps SSIT
indices to store-set ids, `lfst` maps store-set ids to sequence numbers,
`confidence` is the per-PC saturating counter table (absent key = default 2). -/
structure StoreSetPredictor where
  ssit_size : Nat
  max_store_sets : Nat
  ssit : List (Nat × Nat)
  lfst : List (Nat × Nat)
  confidence : List (Nat × Nat)
  free_store_sets : List Nat
  predictions : Nat
  correct_predictions : Nat
  violations : Nat
deriving DecidableEq, Repr

/-- `StoreSetPredictor.__init__` (defaults: `ssit_size=256`, `max_store_sets=64`). -/
def StoreSetPredictor.init (ssitSize maxSets : Nat) : StoreSetPredictor :=
  ⟨ssitSize, maxSets, [], [], [], List.range maxSets, 0, 0, 0⟩

/-- `StoreSetPredictor._get_ssit_index`: `(pc >> 2) % self.ssit_size`. -/
def StoreSetPredictor.ssitIndex (P : StoreSetPredictor) (pc : Nat) : Nat :=
  (pc >>> 2) % P.ssit_size

/-- Confidence lookup; `defaultdict(lambda: 2)` yields 2 for an absent PC. -/
def StoreSetPredictor.conf (P : StoreSetPredictor) (pc : Nat) : Nat :=
  (alGet? P.confidence pc).getD 2

/-- `StoreSetPredictor.predict_load`, returning the updated predictor and
`(can_speculate, wait_for_seq_num)`. -/
def StoreSetPredictor.predict_load (P : StoreSetPredictor) (load_pc : Nat) :
    StoreSetPredictor × (Bool × Option Nat) :=
  let P1 := { P with predictions := P.predictions + 1 }
  match alGet? P.ssit (P.ssitIndex load_pc) with
  | none => (P1, (true, none))
  | some store_set_id =>
    if 2 ≤ P.conf load_pc then (P1, (true, none))
    else
      match alGet? P.lfst store_set_id with
      | some last_store_seq => (P1, (false, some last_store_seq))
      | none => (P1, (true, none))

/-- `StoreSetPredictor.register_store`. -/
def StoreSetPredictor.register_store (P : StoreSetPredictor) (store_pc seq_num : Nat) :
    StoreSetPredictor :=
  match alGet? P.ssit (P.ssitIndex store_pc) with
  | some store_set_id => { P with lfst := alSet P.lfst store_set_id seq_num }
  | none => P

/-- `StoreSetPredictor.clear_store`. -/
def StoreSetPredictor.clear_store (P : StoreSetPredictor) (store_pc : Nat) :
    StoreSetPredictor :=
  match alGet? P.ssit (P.ssitIndex store_pc) with
  | some store_set_id =>
    if (alGet? P.lfst store_set_id).isSome then
      { P with lfst := alDel P.lfst store_set_id }
    else P
  | none => P

/-- `StoreSetPredictor._allocate_store_set`. -/
def StoreSetPredictor.allocate_store_set (P : StoreSetPredictor) :
    StoreSetPredictor × Option Nat :=
  match P.free_store_sets with
  | set_id :: rest => ({ P with free_store_sets := rest }, some set_id)
  | [] =>
    match (List.range P.max_store_sets).find?
        (fun set_id => (alGet? P.lfst set_id).isNone) with
    | some set_id =>
      ({ P with ssit := P.ssit.filter (fun kv => !(kv.2 == set_id)) }, some set_id)
    | none => (P, none)

/-- The final confidence decrement of `report_violation`. -/
def StoreSetPredictor.confDecrement (P : StoreSetPredictor) (load_pc : Nat) :
    StoreSetPredictor :=
  if 0 < P.conf load_pc then
    { P with confidence := alSet P.confidence load_pc (P.conf load_pc - 1) }
  else P

/-- `StoreSetPredictor.report_violation`. -/
def StoreSetPredictor.report_violation (P : StoreSetPredictor) (load_pc store_pc : Nat) :
    StoreSetPredictor :=
  let P0 := { P with violations := P.violations + 1 }
  let load_idx := P.ssitIndex load_pc
  let store_idx := P.ssitIndex store_pc
  let P1 :=
    match alGet? P0.ssit load_idx, alGet? P0.ssit store_idx with
    | none, none =>
      let (Pa, newSet) := P0.allocate_store_set
      match newSet with
      | some new_set_id =>
        { Pa with ssit := alSet (alSet Pa.ssit load_idx new_set_id) store_idx new_set_id }
      | none => Pa
    | none, some store_set => { P0 with ssit := alSet P0.ssit load_idx store_set }
    | some load_set, none => { P0 with ssit := alSet P0.ssit store_idx load_set }
    | some load_set, some store_set =>
      if load_set ≠ store_set then
        { P0 with
          ssit := P0.ssit.map
            (fun (kv : Nat × Nat) => if kv.2 == store_set then (kv.1, load_set) else kv),
          free_store_sets := freeInsert P0.free_store_sets store_set }
      else P0
  P1.confDecrement load_pc

/-- `StoreSetPredictor.report_correct_speculation`. -/
def StoreSetPredictor.report_correct_speculation (P : StoreSetPredictor) (load_pc : Nat) :
    StoreSetPredictor :=
  let P1 := { P with correct_predictions := P.correct_predictions + 1 }
  if P.conf load_pc < 3 then
    { P1 with confidence := alSet P1.confidence load_pc (P.conf load_pc + 1) }
  else P1

/-- The predictor's public operations, used to define which predictor states
are reachable (claim C8 quantifies over these). -/
inductive PredStep : StoreSetPredictor → StoreSetPredictor → Prop where
  | predict (P : StoreSetPredictor) (pc : Nat) : PredStep P (P.predict_load pc).1
  | register (P : StoreSetPredictor) (pc seq : Nat) : PredStep P (P.register_store pc seq)
  | clear (P : StoreSetPredictor) (pc : Nat) : PredStep P (P.clear_store pc)
  | violation (P : StoreSetPredictor) (lpc spc : Nat) : PredStep P (P.report_violation lpc spc)
  | correct (P : StoreSetPredictor) (pc : Nat) : PredStep P (P.report_correct_speculation pc)

/-- Predictor states reachable from a freshly constructed predictor. -/
def PredReachable (ssitSize maxSets : Nat) (P : StoreSetPredictor) : Prop :=
  Relation.ReflTransGen PredStep (StoreSetPredictor.init ssitSize maxSets) P

/-- Atomic read-modify-write operation (`synchronization.AtomicOperation`). -/
structure AtomicOperation where
  op_type : String
  address : Int
  seq_num : Nat
  old_value : Option Int := none
  new_value : Option Int := none
  expected_value : Option Int := none
  lock_acquired : Bool := false
  completed : Bool := false
  success : Bool := false
deriving DecidableEq, Repr

/-- `AtomicOperation.__init__`. -/
def AtomicOperation.new (op_type : String) (address : Int) (seq_num : Nat) :
    AtomicOperation :=
  { op_type := op_type, address := address, seq_num := seq_num }

/-- `AtomicOperation.execute(memory_value, write_value, expected)`, returning
the updated operation and `(success, result_value)`. -/
def AtomicOperation.execute (A : AtomicOperation) (memory_value write_value : Int)
    (expected : Option Int) : AtomicOperation × (Bool × Int) :=
  let A0 := { A with old_value := some memory_value }
  if A.op_type = "SWAP" then
    ({ A0 with new_value := some write_value, success := true }, (true, memory_value))
  else if A.op_type = "CAS" then
    match expected with
    | none => (A0, (false, memory_value))
    | some e =>
      let A1 := { A0 with expected_value := some e }
      if memory_value = e then
        ({ A1 with new_value := some write_value, success := true }, (true, memory_value))
      else
        ({ A1 with success := false }, (false, memory_value))
  else if A.op_type = "FADD" then
    ({ A0 with new_value := some (memory_value + write_value), success := true },
      (true, memory_value))
  else (A0, (false, memory_value))

/-- Instruction kinds (`pipeline.InstructionType`). -/
inductive InstructionType where
  | LOAD
  | STORE
  | ALU
  | BRANCH
  | FENCE
deriving DecidableEq, Repr

/-- In-flight instruction (`pipeline.Instruction`), including its mutable
execution state. -/
structure Instruction where
  pc : Nat
  instr_type : InstructionType
  dst_reg : Option Nat
  src_regs : List Nat
  immediate : Int
  seq_num : Option Nat := none
  lsq_idx : Option Nat := none
  address : Option Int := none
  data : Option Int := none
  issued : Bool := false
  executed : Bool := false
  completed : Bool := false
  committed : Bool := false
  speculative : Bool := false
deriving DecidableEq, Repr

/-- `Instruction.__init__` (a freshly fetched instruction). -/
def Instruction.new (pc : Nat) (instr_type : InstructionType) (dst_reg : Option Nat)
    (src_regs : List Nat) (immediate : Int) : Instruction :=
  { pc := pc, instr_type := instr_type, dst_reg := dst_reg, src_regs := src_regs,
    immediate := immediate }

/-- Reorder buffer ring (`pipeline.ReorderBuffer`). -/
structure ReorderBuffer where
  capacity : Nat
  entries : List (Option Instruction)
  head : Nat
  tail : Nat
  size : Nat
deriving DecidableEq, Repr

/-- `ReorderBuffer.__init__`. -/
def ReorderBuffer.init (capacity : Nat) : ReorderBuffer :=
  ⟨capacity, List.replicate capacity none, 0, 0, 0⟩

/-- `ReorderBuffer.is_full`. -/
def ReorderBuffer.is_full (r : ReorderBuffer) : Bool :=
  r.capacity ≤ r.size

/-- `ReorderBuffer.is_empty`. -/
def ReorderBuffer.is_empty (r : ReorderBuffer) : Bool :=
  r.size == 0

/-- `ReorderBuffer.allocate`. -/
def ReorderBuffer.allocate (r : ReorderBuffer) (instr : Instruction) :
    ReorderBuffer × Option Nat :=
  if r.is_full then (r, none)
  else
    (⟨r.capacity, r.entries.set r.tail (some instr), r.head,
      (r.tail + 1) % r.capacity, r.size + 1⟩, some r.tail)

/-- `ReorderBuffer.commit_head` (unlike the LSQ's `commit_head`, the slot is
freed only when the head instruction is present and completed). -/
def ReorderBuffer.commit_head (r : ReorderBuffer) :
    ReorderBuffer × Option Instruction :=
  if r.is_empty then (r, none)
  else
    match r.entries.get? r.head with
    | some (some instr) =>
      if instr.completed then
        (⟨r.capacity, r.entries.set r.head none, (r.head + 1) % r.capacity,
          r.tail, r.size - 1⟩, some { instr with committed := true })
      else (r, none)
    | _ => (r, none)

/-- Inner clearing loop of `ReorderBuffer.squash_from` (decrements `size` for
each slot still holding an instruction, then clears it). -/
def robClearToTail (entries : List (Option Instruction)) (size idx tail capacity fuel : Nat) :
    List (Option Instruction) × Nat × Nat :=
  match fuel with
  | 0 => (entries, size, idx)
  | fuel' + 1 =>
    if idx = tail then (entries, size, idx)
    else
      let (entries', size') :=
        match entries.get? idx with
        | some (some _) => (entries.set idx none, size - 1)
        | _ => (entries, size)
      robClearToTail entries' size' ((idx + 1) % capacity) tail capacity fuel'

/-- Outer search loop of `ReorderBuffer.squash_from`. -/
def robSquashLoop (r : ReorderBuffer) (seq_num idx : Nat) : Nat → ReorderBuffer
  | 0 => r
  | steps + 1 =>
    match r.entries.get? idx with
    | some (some instr) =>
      if seq_num ≤ instr.seq_num.getD 0 then
        let (entries', size', idx') :=
          robClearToTail r.entries r.size idx r.tail r.capacity (r.capacity + 1)
        ⟨r.capacity, entries', r.head, idx', size'⟩
      else robSquashLoop r seq_num ((idx + 1) % r.capacity) steps
    | _ => robSquashLoop r seq_num ((idx + 1) % r.capacity) steps

/-- `ReorderBuffer.squash_from`. -/
def ReorderBuffer.squash_from (r : ReorderBuffer) (seq_num : Nat) : ReorderBuffer :=
  robSquashLoop r seq_num r.head r.size

/-- The pipeline (`pipeline.Pipeline`): ROB, LSQ, predictor, register file,
memory map, sequencing state and statistics counters. -/
structure Pipeline where
  rob : ReorderBuffer
  lsq : LoadStoreQueue
  predictor : StoreSetPredictor
  registers : List Int
  memory : Memory
  next_seq_num : Nat
  cycle : Nat
  pc : Nat
  instructions_committed : Nat
  loads_executed : Nat
  stores_executed : Nat
  speculation_violations : Nat
  forwarding_events : Nat
deriving DecidableEq, Repr

/-- `Pipeline.__init__(rob_size, lsq_size)`. -/
def Pipeline.init (rob_size lsq_size : Nat) : Pipeline :=
  { rob := ReorderBuffer.init rob_size, lsq := LoadStoreQueue.init lsq_size,
    predictor := StoreSetPredictor.init 256 64,
    registers := List.replicate 32 0, memory := [], next_seq_num := 0, cycle := 0,
    pc := 0, instructions_committed := 0, loads_executed := 0, stores_executed := 0,
    speculation_violations := 0, forwarding_events := 0 }

/-- Register-file read `self.registers[r]` (register indices are 0..31 in every
use; out-of-range reads, which raise in Python, are totalized to 0). -/
def regGet (regs : List Int) (r : Nat) : Int :=
  (regs.get? r).getD 0

/-- `Pipeline.issue_instruction`. The Python method mutates the shared
`Instruction` object after placing it in the ROB; the value embedding stores
the fully updated instruction in the allocated slot instead. -/
def Pipeline.issue_instruction (p : Pipeline) (instr : Instruction) :
    Pipeline × Bool :=
  if p.rob.is_full then (p, false)
  else
    let (rob1, robIdx) := p.rob.allocate instr
    match robIdx with
    | none => ({ p with rob := rob1 }, false)
    | some idx =>
      let seq := p.next_seq_num
      let instr1 := { instr with seq_num := some seq }
      let p1 := { p with next_seq_num := p.next_seq_num + 1 }
      if instr.instr_type = InstructionType.LOAD ∨
          instr.instr_type = InstructionType.STORE then
        let op_type := if instr.instr_type = InstructionType.LOAD then MemOpType.LOAD
          else MemOpType.STORE
        let (lsq1, lsqIdx) := p1.lsq.allocate seq instr.pc op_type 4
        match lsqIdx with
        | none =>
          -- LSQ full: the instruction (with its sequence number but
          -- `issued=False`) is left sitting in its ROB slot.
          ({ p1 with rob := { rob1 with entries := rob1.entries.set idx (some instr1) } },
            false)
        | some li =>
          let instr2 := { instr1 with lsq_idx := some li, issued := true }
          let pred1 := if instr.instr_type = InstructionType.STORE then
              p1.predictor.register_store instr.pc seq
            else p1.predictor
          ({ p1 with
              rob := { rob1 with entries := rob1.entries.set idx (some instr2) },
              lsq := lsq1, predictor := pred1 }, true)
      else
        let instr2 := { instr1 with issued := true }
        ({ p1 with rob := { rob1 with entries := rob1.entries.set idx (some instr2) } },
          true)

/-- Address computation of `Pipeline._execute_load`:
`registers[src_regs[0]] if src_regs else 0` plus the immediate. -/
def loadAddress (regs : List Int) (i : Instruction) : Int :=
  (match i.src_regs with
  | [] => 0
  | r :: _ => regGet regs r) + i.immediate

/-- `Pipeline._execute_load`, acting on the instruction held in ROB slot
`idx` (Python mutates the object the ROB references; the embedding writes the
updated instruction back into its slot). -/
def Pipeline.execute_load (p : Pipeline) (idx : Nat) (i : Instruction) :
    Pipeline × Bool :=
  let addr := loadAddress p.registers i
  let i1 := { i with address := some addr }
  let lsq1 := match i.lsq_idx with
    | some li => p.lsq.update_address li addr
    | none => p.lsq
  let (lsq2, dep) := lsq1.check_dependency (i.lsq_idx.getD 0)
  let has_dep := dep.1
  let fwd_data := dep.2.2
  match fwd_data with
  | some d =>
    let i2 := { i1 with data := some d, executed := true, completed := true }
    let regs1 := match i.dst_reg with
      | some r => p.registers.set r d
      | none => p.registers
    ({ p with
        rob := { p.rob with entries := p.rob.entries.set idx (some i2) }
        lsq := lsq2
        registers := regs1
        forwarding_events := p.forwarding_events + 1
        loads_executed := p.loads_executed + 1 }, true)
  | none =>
    let (pred1, pr) := p.predictor.predict_load i.pc
    let can_speculate := pr.1
    if !can_speculate || has_dep then
      ({ p with
          rob := { p.rob with entries := p.rob.entries.set idx (some i1) }
          lsq := lsq2
          predictor := pred1 }, false)
    else
      let d := memGet p.memory addr
      let i2 := { i1 with
        data := some d
        speculative := true
        executed := true
        completed := true }
      let regs1 := match i.dst_reg with
        | some r => p.registers.set r d
        | none => p.registers
      let lsq3 := match i.lsq_idx with
        | some li => (lsq2.mark_speculative li).mark_completed li
        | none => lsq2
      ({ p with
          rob := { p.rob with entries := p.rob.entries.set idx (some i2) }
          lsq := lsq3
          predictor := pred1
          registers := regs1
          loads_executed := p.loads_executed + 1 }, true)

/-- `Pipeline._execute_store`, acting on the instruction in ROB slot `idx`. -/
def Pipeline.execute_store (p : Pipeline) (idx : Nat) (i : Instruction) :
    Pipeline × Bool :=
  let base := match i.src_regs with
    | [] => 0
    | r :: _ => regGet p.registers r
  let addr := base + i.immediate
  let data_reg := match i.src_regs with
    | _ :: r2 :: _ => r2
    | _ => 0
  let data := regGet p.registers data_reg
  let i2 := { i with
    address := some addr
    data := some data
    executed := true
    completed := true }
  let lsq1 := match i.lsq_idx with
    | some li => (((p.lsq.update_address li addr).update_data li data).mark_completed li)
    | none => p.lsq
  ({ p with
      rob := { p.rob with entries := p.rob.entries.set idx (some i2) }
      lsq := lsq1
      stores_executed := p.stores_executed + 1 }, true)

/-- `Pipeline.execute_instruction`, addressed by ROB slot: Python callers hold
a reference to the `Instruction` object that the ROB slot aliases, so
executing "an instruction" is executing the instruction in its ROB slot. -/
def Pipeline.execute_at (p : Pipeline) (idx : Nat) : Pipeline × Bool :=
  match p.rob.entries.get? idx with
  | some (some i) =>
    if !i.issued || i.executed then (p, false)
    else
      match i.instr_type with
      | InstructionType.ALU =>
        let result := (i.src_regs.foldl (fun s r => s + regGet p.registers r) 0) +
          i.immediate
        let regs1 := match i.dst_reg with
          | some r => p.registers.set r result
          | none => p.registers
        let i2 := { i with executed := true, completed := true }
        ({ p with
            rob := { p.rob with entries := p.rob.entries.set idx (some i2) }
            registers := regs1 }, true)
      | InstructionType.LOAD => p.execute_load idx i
      | InstructionType.STORE => p.execute_store idx i
      | _ => (p, false)
  | _ => (p, false)

/-- `Pipeline._validate_load` (returns `True` on a detected violation). -/
def Pipeline.validate_load (p : Pipeline) (i : Instruction) : Bool :=
  match i.lsq_idx with
  | none => false
  | some li =>
    let (_, dep) := p.lsq.check_dependency li
    match dep.2.2 with
    | some fwd_data => decide (i.data ≠ some fwd_data)
    | none => false

/-- `Pipeline._recover_from_violation`. -/
def Pipeline.recover_from_violation (p : Pipeline) (i : Instruction) : Pipeline :=
  let p1 := match i.lsq_idx with
    | some li =>
      let (_, dep) := p.lsq.check_dependency li
      match dep.1, dep.2.1 with
      | true, some fwd_idx =>
        match p.lsq.entries.get? fwd_idx with
        | some (some store_entry) =>
          { p with predictor := p.predictor.report_violation i.pc store_entry.pc }
        | _ => p
      | _, _ => p
    | none => p
  { p1 with
    rob := p1.rob.squash_from (i.seq_num.getD 0)
    lsq := p1.lsq.squash_from (i.seq_num.getD 0)
    pc := i.pc }

/-- `Pipeline.commit_instruction`. -/
def Pipeline.commit_instruction (p : Pipeline) : Pipeline × Option Instruction :=
  let (rob1, res) := p.rob.commit_head
  match res with
  | none => ({ p with rob := rob1 }, none)
  | some i =>
    let p1 := { p with rob := rob1 }
    if i.instr_type = InstructionType.LOAD ∧ i.speculative then
      if p1.validate_load i then
        let p2 := { p1 with speculation_violations := p1.speculation_violations + 1 }
        (p2.recover_from_violation i, none)
      else
        let p2 := { p1 with predictor := p1.predictor.report_correct_speculation i.pc }
        ({ p2 with instructions_committed := p2.instructions_committed + 1 }, some i)
    else
      let p2 := if i.instr_type = InstructionType.STORE then
          { p1 with
            memory := match i.address, i.data with
              | some a, some d => memSet p1.memory a d
              | _, _ => p1.memory,
            predictor := p1.predictor.clear_store i.pc }
        else p1
      ({ p2 with instructions_committed := p2.instructions_committed + 1 }, some i)

/-- `Pipeline.cycle_step(instruction_stream)`: bump the cycle counter, run the
commit stage, then (the execute stage is absent from the source) try to issue
the head of the instruction stream. Returns the new pipeline and the remaining
stream. -/
def Pipeline.cycle_step (p : Pipeline) (stream : List Instruction) :
    Pipeline × List Instruction :=
  let p1 := { p with cycle := p.cycle + 1 }
  let p2 := (p1.commit_instruction).1
  match stream with
  | [] => (p2, stream)
  | instr :: rest =>
    if p2.rob.is_full then (p2, stream)
    else
      let (p3, ok) := p2.issue_instruction instr
      if ok then (p3, rest) else (p3, stream)

/-- A freshly constructed instruction, exactly as `Instruction.__init__` leaves
it: no execution state yet. Drivers feed only such instructions to the
pipeline. -/
def Instruction.Fresh (i : Instruction) : Prop :=
  i.seq_num = none ∧ i.lsq_idx = none ∧ i.address = none ∧ i.data = none ∧
  i.issued = false ∧ i.executed = false ∧ i.completed = false ∧
  i.committed = false ∧ i.speculative = false

/-- The pipeline's public operations (spec section 6: `issue`, the per-stage
methods that drivers invoke, and `tick`). Python drivers hold references to the
`Instruction` objects they issued; executing one of those objects is the
`exec` step on its ROB slot (an object no longer in the ROB fails the
`issued and not executed` guard and is a no-op). -/
inductive PipeStep : Pipeline → Pipeline → Prop where
  | issue (p : Pipeline) (i : Instruction) (h : i.Fresh) :
      PipeStep p (p.issue_instruction i).1
  | exec (p : Pipeline) (idx : Nat) : PipeStep p (p.execute_at idx).1
  | commit (p : Pipeline) : PipeStep p (p.commit_instruction).1
  | tick (p : Pipeline) (stream : List Instruction) (h : ∀ i ∈ stream, i.Fresh) :
      PipeStep p (p.cycle_step stream).1

/-- Pipeline states reachable from `Pipeline(rob_size, lsq_size)` through the
public operations. -/
def PipeReachable (robSize lsqSize : Nat) (p : Pipeline) : Prop :=
  Relation.ReflTransGen PipeStep (Pipeline.init robSize lsqSize) p

/-- Modelled from the spec: the candidate stores for a committed load's
architectural value — every earlier (smaller sequence number) store or atomic
whose byte range overlaps the load's. Every pipeline memory access is 4 bytes
wide. The pipeline never frees LSQ entries, so the queue holds every earlier
store of the program. -/
def archCandidates (q : LoadStoreQueue) (loadSeq : Nat) (a : Int) : List LSQEntry :=
  (q.entries.filterMap id).filter (fun e =>
    decide (e.seq_num < loadSeq) &&
      (e.op_type == MemOpType.STORE || e.op_type == MemOpType.ATOMIC) &&
      e.address_valid && addressesOverlap (e.address.getD 0) e.size a 4)

/-- One comparison step of the newest-store selection: keep the entry with the
greater sequence number (ties keep the incumbent). -/
def newestStep (best : Option LSQEntry) (e : LSQEntry) : Option LSQEntry :=
  match best with
  | none => some e
  | some b => if b.seq_num < e.seq_num then some e else some b

/-- The candidate with the greatest sequence number (the newest). -/
def newestBySeq (l : List LSQEntry) : Option LSQEntry :=
  l.foldl newestStep none

/-- Modelled from the spec: the architectural value of a committed load — the
data of the newest earlier store overlapping the load's byte range at commit
time, or the memory model's value at the load's address if no such store
exists. -/
def archValue (p : Pipeline) (i : Instruction) : Int :=
  let a := i.address.getD 0
  match newestBySeq (archCandidates p.lsq (i.seq_num.getD 0) a) with
  | some e => e.data.getD 0
  | none => memGet p.memory a

/-- Iterated `cycle_step`, used for driving concrete scenarios. -/
def tickN : Pipeline → List Instruction → Nat → Pipeline × List Instruction
  | p, s, 0 => (p, s)
  | p, s, n + 1 =>
    let (p', s') := p.cycle_step s
    tickN p' s' n

/-! ## Shared lemmas -/

/-- The scan loop of `check_dependency` threads the queue through unchanged. -/
theorem depFold_fst (load_addr : Int) (load_size : Nat) (l : List Nat)
    (q : LoadStoreQueue) (acc : DepAcc) :
    ((l.foldl
      (fun (s : LoadStoreQueue × DepAcc) idx =>
        (s.1, depStep s.1.entries load_addr load_size s.2 idx))
      (q, acc))).1 = q := by
  induction l generalizing acc with
  | nil => rfl
  | cons a t ih => exact ih _

/-- The scan loop's accumulator equals a fold of `depStep` over the fixed
entry list. -/
theorem depFold_snd (load_addr : Int) (load_size : Nat) (l : List Nat)
    (q : LoadStoreQueue) (acc : DepAcc) :
    ((l.foldl
      (fun (s : LoadStoreQueue × DepAcc) idx =>
        (s.1, depStep s.1.entries load_addr load_size s.2 idx))
      (q, acc))).2 =
      l.foldl (depStep q.entries load_addr load_size) acc := by
  induction l generalizing acc with
  | nil => rfl
  | cons a t ih => exact ih _

/-! ## C10 — check_dependency is read-only -/

/-- C10: `check_dependency` is read-only: for every LSQ state and every index,
it leaves the queue (all entry fields and the head, tail and size pointers)
unchanged, so the commit-time re-validation of a speculative load cannot
perturb LSQ state. -/
theorem C10_check_dependency_readonly (q : LoadStoreQueue) (load_idx : Nat) :
    (q.check_dependency load_idx).1 = q := by
  unfold LoadStoreQueue.check_dependency
  cases h : q.entries.get? load_idx with
  | none => rfl
  | some o =>
    cases o with
    | none => rfl
    | some load_entry =>
      by_cases hv : load_entry.address_valid
      · simp only [hv, if_true]
        exact depFold_fst _ _ _ _ _
      · simp [hv]

/-! ## C9 — CAS semantics -/

/-- C9: a CAS atomic's `execute(v, w, expected=e)` succeeds iff `e` is provided
and `v = e`; on success the new value is `w`, on failure no new value is
installed, and the returned value is `v` in both cases. -/
theorem C9_cas_execute (A : AtomicOperation) (v w : Int) (e : Option Int)
    (hA : A.op_type = "CAS") :
    ((A.execute v w e).2.1 = true ↔ ∃ ev, e = some ev ∧ v = ev) ∧
    (A.execute v w e).2.2 = v ∧
    ((A.execute v w e).2.1 = true → (A.execute v w e).1.new_value = some w) ∧
    ((A.execute v w e).2.1 = false → (A.execute v w e).1.new_value = A.new_value) ∧
    (A.execute v w (some v)).2 = (true, v) ∧
    (∀ v' : Int, v' ≠ v → (A.execute v w (some v')).2 = (false, v)) := by
  unfold AtomicOperation.execute
  rw [hA]
  refine ⟨?_, ?_, ?_, ?_, ?_, ?_⟩
  · cases e with
    | none => simp
    | some ev => by_cases hv : v = ev <;> simp [hv]
  · cases e with
    | none => simp
    | some ev => by_cases hv : v = ev <;> simp [hv]
  · cases e with
    | none => simp
    | some ev => by_cases hv : v = ev <;> simp [hv]
  · cases e with
    | none => simp
    | some ev => by_cases hv : v = ev <;> simp [hv]
  · simp
  · intro v' hne
    simp [Ne.symm hne]

/-- Witness for C9 at a concrete CAS operation. -/
theorem C9_cas_execute_witness :
    ((AtomicOperation.new "CAS" 0x1000 20).execute 5 10 (some 5)).2 = (true, 5) :=
  (C9_cas_execute (AtomicOperation.new "CAS" 0x1000 20) 5 10 (some 5) rfl).2.2.2.2.1

/-! ## C5 — stores write memory exactly at commit -/

/-- C5: a store's value reaches the memory model only through
`commit_instruction`: issuing and executing never change memory; a commit that
retires nothing (including the violation-recovery path, which is where a
squashed store disappears) leaves memory unchanged; retiring a non-store
leaves memory unchanged; and retiring a store writes exactly the store's data
at its address. -/
theorem C5_store_memory_write_at_commit :
    (∀ (p : Pipeline) (i : Instruction), (p.issue_instruction i).1.memory = p.memory) ∧
    (∀ (p : Pipeline) (idx : Nat), (p.execute_at idx).1.memory = p.memory) ∧
    (∀ p : Pipeline, (p.commit_instruction).2 = none →
      (p.commit_instruction).1.memory = p.memory) ∧
    (∀ (p : Pipeline) (i : Instruction), (p.commit_instruction).2 = some i →
      i.instr_type ≠ InstructionType.STORE → (p.commit_instruction).1.memory = p.memory) ∧
    (∀ (p : Pipeline) (i : Instruction) (a d : Int), (p.commit_instruction).2 = some i →
      i.instr_type = InstructionType.STORE → i.address = some a → i.data = some d →
      (p.commit_instruction).1.memory = memSet p.memory a d) := by
  refine ⟨?_, ?_, ?_, ?_, ?_⟩
  · intro p i
    unfold Pipeline.issue_instruction
    dsimp only
    repeat' (first | rfl | split)
    all_goals first | rfl | simp_all
  · intro p idx
    unfold Pipeline.execute_at Pipeline.execute_load Pipeline.execute_store
    dsimp only
    repeat' (first | rfl | split)
    all_goals first | rfl | simp_all
  · intro p
    unfold Pipeline.commit_instruction Pipeline.recover_from_violation
    dsimp only
    repeat' split
    all_goals intro h
    all_goals dsimp only at h
    all_goals try simp at h
    all_goals rfl
  · intro p i
    unfold Pipeline.commit_instruction
    dsimp only
    repeat' split
    all_goals intro h hne
    all_goals dsimp only at h
    all_goals try simp at h
    all_goals first | rfl | (subst h; simp_all)
  · intro p i a d
    unfold Pipeline.commit_instruction
    dsimp only
    repeat' split
    all_goals intro h hst ha hd
    all_goals dsimp only at h
    all_goals try simp at h
    all_goals (subst h; simp_all)

/-- Witness for C5's hypothesis-bearing conjuncts: a concrete store commit
writes its value, a concrete empty commit leaves memory unchanged. -/
theorem C5_store_memory_write_at_commit_witness :
    (((((Pipeline.init 4 4).issue_instruction
        (Instruction.new 0x100 InstructionType.STORE none [1, 2] 8)).1.execute_at
        0).1.commit_instruction).1.memory =
      memSet ((((Pipeline.init 4 4).issue_instruction
        (Instruction.new 0x100 InstructionType.STORE none [1, 2] 8)).1.execute_at
        0).1.memory) 8 0) ∧
    ((Pipeline.init 4 4).commit_instruction).1.memory = (Pipeline.init 4 4).memory := by
  constructor
  · exact C5_store_memory_write_at_commit.2.2.2.2 _ _ 8 0 (by rfl) (by rfl) (by rfl) (by rfl)
  · exact C5_store_memory_write_at_commit.2.2.1 _ (by rfl)

/-! ## Association-list lemmas -/

theorem alGet?_alSet_self {α : Type} (l : List (Nat × α)) (k : Nat) (v : α) :
    alGet? (alSet l k v) k = some v := by
  induction l with
  | nil => simp [alSet, alGet?]
  | cons kv t ih =>
    by_cases h : kv.1 = k <;> simp [alSet, alGet?, h, ih]

theorem alGet?_alSet_ne {α : Type} (l : List (Nat × α)) (k k' : Nat) (v : α)
    (h : k' ≠ k) : alGet? (alSet l k v) k' = alGet? l k' := by
  induction l with
  | nil => simp [alSet, alGet?, Ne.symm h]
  | cons kv t ih =>
    by_cases hh : kv.1 = k
    · simp [alSet, alGet?, hh, Ne.symm h]
    · simp [alSet, alGet?, hh, ih]

theorem alGet?_eq_none_of_forall {α : Type} (l : List (Nat × α)) (k : Nat)
    (h : ∀ kv ∈ l, kv.1 ≠ k) : alGet? l k = none := by
  induction l with
  | nil => rfl
  | cons kv t ih =>
    simp only [alGet?, if_neg (h kv (by simp))]
    exact ih (fun kv2 h2 => h kv2 (by simp [h2]))

theorem alGet?_alDel_self {α : Type} (l : List (Nat × α)) (k : Nat)
    (huniq : l.Pairwise (fun a b => a.1 ≠ b.1)) :
    alGet? (alDel l k) k = none := by
  induction l with
  | nil => rfl
  | cons kv t ih =>
    rcases List.pairwise_cons.mp huniq with ⟨hhead, htail⟩
    by_cases hh : kv.1 = k
    · simp only [alDel, if_pos hh]
      exact alGet?_eq_none_of_forall t k (fun kv2 h2 => hh ▸ Ne.symm (hhead kv2 h2))
    · simp [alDel, alGet?, hh, ih htail]

theorem alGet?_alDel_ne {α : Type} (l : List (Nat × α)) (k k' : Nat)
    (h : k' ≠ k) : alGet? (alDel l k) k' = alGet? l k' := by
  induction l with
  | nil => rfl
  | cons kv t ih =>
    by_cases hh : kv.1 = k
    · subst hh
      simp [alDel, alGet?, Ne.symm h]
    · simp [alDel, alGet?, hh, ih]

theorem alDel_alSet_of_absent {α : Type} (l : List (Nat × α)) (k : Nat) (v : α)
    (h : alGet? l k = none) : alDel (alSet l k v) k = l := by
  induction l with
  | nil => simp [alSet, alDel]
  | cons kv t ih =>
    by_cases hh : kv.1 = k
    · simp [alGet?, hh] at h
    · simp only [alGet?, if_neg hh] at h
      simp [alSet, alDel, hh, ih h]

theorem mem_alSet {α : Type} (l : List (Nat × α)) (k : Nat) (v : α) (kv : Nat × α)
    (h : kv ∈ alSet l k v) : kv = (k, v) ∨ kv ∈ l := by
  induction l with
  | nil => simpa [alSet] using h
  | cons kv0 t ih =>
    by_cases hh : kv0.1 = k
    · simp only [alSet, if_pos hh, List.mem_cons] at h
      rcases h with h | h
      · exact Or.inl h
      · exact Or.inr (by simp [h])
    · simp only [alSet, if_neg hh, List.mem_cons] at h
      rcases h with h | h
      · exact Or.inr (by simp [h])
      · rcases ih h with h2 | h2
        · exact Or.inl h2
        · exact Or.inr (by simp [h2])

theorem alSet_pairwise {α : Type} (l : List (Nat × α)) (k : Nat) (v : α)
    (huniq : l.Pairwise (fun a b => a.1 ≠ b.1)) :
    (alSet l k v).Pairwise (fun a b => a.1 ≠ b.1) := by
  induction l with
  | nil => simp [alSet]
  | cons kv0 t ih =>
    rcases List.pairwise_cons.mp huniq with ⟨hhead, htail⟩
    by_cases hh : kv0.1 = k
    · simp only [alSet, if_pos hh]
      exact List.pairwise_cons.mpr ⟨fun kv2 h2 => hh ▸ hhead kv2 h2, htail⟩
    · simp only [alSet, if_neg hh]
      refine List.pairwise_cons.mpr ⟨?_, ih htail⟩
      intro kv2 h2
      rcases mem_alSet t k v kv2 h2 with h3 | h3
      · rw [h3]
        exact hh
      · exact hhead kv2 h3

theorem alDel_sublist {α : Type} (l : List (Nat × α)) (k : Nat) :
    (alDel l k).Sublist l := by
  induction l with
  | nil => exact List.Sublist.refl _
  | cons kv t ih =>
    by_cases hh : kv.1 = k
    · simp only [alDel, if_pos hh]
      exact List.sublist_cons_of_sublist kv (List.Sublist.refl t)
    · simp only [alDel, if_neg hh]
      exact List.Sublist.cons₂ kv ih

theorem alDel_pairwise {α : Type} (l : List (Nat × α)) (k : Nat)
    (huniq : l.Pairwise (fun a b => a.1 ≠ b.1)) :
    (alDel l k).Pairwise (fun a b => a.1 ≠ b.1) :=
  huniq.sublist (alDel_sublist l k)

theorem memGet_memSet_ne (m : Memory) (a b v : Int) (h : b ≠ a) :
    memGet (memSet m a v) b = memGet m b := by
  induction m with
  | nil => simp [memSet, memGet, Ne.symm h]
  | cons kv t ih =>
    by_cases hh : kv.1 = a
    · simp [memSet, memGet, hh, Ne.symm h]
    · simp [memSet, memGet, hh, ih]

/-! ## Concrete scenarios -/

/-- A store whose address is still unknown, followed by a load ready to
execute (spec scenario 3's opening). -/
def stallScenario : Pipeline :=
  (((Pipeline.init 4 4).issue_instruction
      (Instruction.new 0x300 InstructionType.STORE none [1, 2] 0)).1.issue_instruction
    (Instruction.new 0x304 InstructionType.LOAD (some 3) [] 0x1000)).1

/-- A store issued and executed (address 8, data 0), ready to commit. -/
def storeCommitScenario : Pipeline :=
  (((Pipeline.init 4 4).issue_instruction
      (Instruction.new 0x100 InstructionType.STORE none [1, 2] 8)).1.execute_at 0).1

/-- Six `cycle_step` calls on a stream holding one ready ALU instruction. -/
def tickScenario : Pipeline × List Instruction :=
  tickN (Pipeline.init 4 4) [Instruction.new 0x10 InstructionType.ALU (some 1) [] 5] 6

/-- Predictor state after `report_violation(0x304, 0x300)` and
`register_store(0x300, 1)` (spec scenario 3's learning phase). -/
def predictorAfterViolation : StoreSetPredictor :=
  ((StoreSetPredictor.init 256 64).report_violation 0x304 0x300).register_store 0x300 1

/-- Predictor state with an LFST entry (seq 7) already present for set 0. -/
def predictorWithPendingStore : StoreSetPredictor :=
  ((StoreSetPredictor.init 256 64).report_violation 0x304 0x300).register_store 0x300 7

/-- Predictor state in which a set-merge left a dangling LFST entry: two
store sets are created by violations, set 1 gets an in-flight store, and a
third violation merges set 1 into set 0. -/
def predictorAfterMerge : StoreSetPredictor :=
  (((((StoreSetPredictor.init 256 64).report_violation 0x304 0x300).report_violation
      0x404 0x400).register_store 0x400 5).report_violation 0x304 0x400)

/-! ## C2 — cycle_step does not process the execute stage -/

/-- C2: `cycle_step` increments the cycle counter and runs commit and issue,
but contains no execute processing: a ready ALU instruction issued on the
first tick is still unexecuted (hence uncommitted) five ticks later, though
the claimed commit/execute/issue-per-tick behavior would have completed and
retired it. -/
theorem C2_cycle_step_never_executes :
    tickScenario.1.cycle = 6 ∧
    tickScenario.2 = [] ∧
    tickScenario.1.instructions_committed = 0 ∧
    (tickScenario.1.rob.entries.get? 0).map
      (Option.map (fun i => (i.issued, i.executed, i.completed))) =
      some (some (true, false, false)) := by
  refine ⟨by decide, by decide, by decide, by decide⟩

/-! ## C3 — a load cannot speculate past an unresolved-address store -/

/-- C3: with an earlier store whose address is unknown, the predictor
approving speculation and no resolved conflict (and nothing to forward), the
claim says the load executes speculatively; the code instead returns `False`
from the execute attempt and leaves the load incomplete, because
`_execute_load` stalls on `has_dep`, which an unresolved-address store alone
sets. -/
theorem C3_load_stalls_on_unresolved_store :
    (stallScenario.predictor.predict_load 0x304).2 = (true, none) ∧
    (stallScenario.lsq.entries.get? 0).map
      (Option.map (fun e => (e.op_type, e.address_valid))) =
      some (some (MemOpType.STORE, false)) ∧
    ((stallScenario.lsq.update_address 1 0x1000).check_dependency 1).2 =
      (true, none, none) ∧
    (stallScenario.execute_at 1).2 = false ∧
    ((stallScenario.execute_at 1).1.rob.entries.get? 1).map
      (Option.map (fun i => (i.executed, i.completed, i.speculative))) =
      some (some (false, false, false)) := by
  refine ⟨by decide, by decide, by decide, by decide, by decide⟩

/-! ## C6 — the LSQ entry is not freed at commit -/

/-- C6: after `commit_instruction` retires a memory operation, its LSQ entry
is still allocated: the committed store's entry (sequence number 0) remains in
the queue and the occupancy is unchanged at 1, contradicting the claimed
free-on-commit (the source's "free LSQ entry" block is `pass`). -/
theorem C6_lsq_entry_survives_commit :
    ((storeCommitScenario.commit_instruction).2).map
      (fun i => (i.instr_type, i.seq_num)) =
      some (InstructionType.STORE, some 0) ∧
    (storeCommitScenario.commit_instruction).1.lsq.size = 1 ∧
    storeCommitScenario.lsq.size = 1 ∧
    ((storeCommitScenario.commit_instruction).1.lsq.entries.get? 0).map
      (Option.map (fun e => e.seq_num)) = some (some 0) := by
  refine ⟨by decide, by decide, by decide, by decide⟩

/-! ## C4 — predict_load's confidence short-circuit -/

/-- C4 counterexample: PC 0x704's SSIT index (193) maps to store set 0 and the
LFST holds seq 1 for set 0, yet `predict_load(0x704)` returns `(True, None)` —
the default confidence 2 short-circuits the LFST wait that the claim
describes. -/
theorem C4_counterexample_confidence_overrides :
    alGet? predictorAfterViolation.ssit
      (predictorAfterViolation.ssitIndex 0x704) = some 0 ∧
    alGet? predictorAfterViolation.lfst 0 = some 1 ∧
    (predictorAfterViolation.predict_load 0x704).2 = (true, none) := by
  refine ⟨by decide, by decide, by decide⟩

/-- C4 (amended): when additionally the load PC's confidence counter is below
2, a load whose SSIT entry maps to a set with an in-flight store in the LFST
gets `(False, that store's sequence number)`. -/
theorem C4_predict_load_waits (P : StoreSetPredictor) (load_pc sid seq : Nat)
    (hs : alGet? P.ssit (P.ssitIndex load_pc) = some sid)
    (hc : P.conf load_pc < 2)
    (hl : alGet? P.lfst sid = some seq) :
    (P.predict_load load_pc).2 = (false, some seq) := by
  unfold StoreSetPredictor.predict_load
  rw [hs]
  dsimp only
  rw [if_neg (by omega), hl]

/-- Witness for C4's amended theorem: after the violation report the load PC
0x304 has confidence 1, and prediction waits for store seq 1. -/
theorem C4_predict_load_waits_witness :
    (predictorAfterViolation.predict_load 0x304).2 = (false, some 1) :=
  C4_predict_load_waits predictorAfterViolation 0x304 0 1 (by decide) (by decide)
    (by decide)

/-! ## C7 — register_store then clear_store -/

/-- C7 counterexample: with `lfst = {0: 7}` already holding an in-flight store
for PC 0x300's set, `register_store(0x300, 9)` followed by
`clear_store(0x300)` deletes the set's LFST entry outright, so the LFST ends
empty rather than restored to `{0: 7}`. -/
theorem C7_counterexample_lfst_clobbered :
    predictorWithPendingStore.lfst = [(0, 7)] ∧
    ((predictorWithPendingStore.register_store 0x300 9).clear_store 0x300).lfst = [] ∧
    ((predictorWithPendingStore.register_store 0x300 9).clear_store 0x300).lfst ≠
      predictorWithPendingStore.lfst := by
  refine ⟨by decide, by decide, by decide⟩

/-- C7 (amended): `register_store(pc, seq)` followed by `clear_store(pc)`
leaves the LFST unchanged provided the PC's store set (when it has one) has no
LFST entry beforehand — in particular whenever the PC is not mapped in the
SSIT at all. -/
theorem C7_register_clear_roundtrip (P : StoreSetPredictor) (pc seq : Nat)
    (h : ∀ sid, alGet? P.ssit (P.ssitIndex pc) = some sid →
      alGet? P.lfst sid = none) :
    ((P.register_store pc seq).clear_store pc).lfst = P.lfst := by
  unfold StoreSetPredictor.register_store StoreSetPredictor.clear_store
  cases hs : alGet? P.ssit (P.ssitIndex pc) with
  | none =>
    dsimp only
    rw [hs]
  | some sid =>
    unfold StoreSetPredictor.ssitIndex at hs ⊢
    dsimp only
    rw [hs]
    dsimp only
    have habs := h sid (by unfold StoreSetPredictor.ssitIndex; exact hs)
    rw [alGet?_alSet_self P.lfst sid seq]
    dsimp only [Option.isSome]
    rw [if_pos rfl]
    exact alDel_alSet_of_absent P.lfst sid seq habs

/-- Witness for C7's amended theorem at a fresh predictor (PC unmapped). -/
theorem C7_register_clear_roundtrip_witness :
    (((StoreSetPredictor.init 256 64).register_store 0x300 9).clear_store 0x300).lfst
      = (StoreSetPredictor.init 256 64).lfst :=
  C7_register_clear_roundtrip (StoreSetPredictor.init 256 64) 0x300 9
    (fun sid hs => by simp [StoreSetPredictor.init, alGet?] at hs)

/-! ## C8 — LFST ids and SSIT mappings -/

theorem freeInsert_mem (l : List Nat) (y x : Nat) :
    x ∈ freeInsert l y ↔ x = y ∨ x ∈ l := by
  induction l with
  | nil => simp [freeInsert]
  | cons z zs ih =>
    unfold freeInsert
    by_cases h1 : y < z
    · simp [h1]
    · rw [if_neg h1]
      by_cases h2 : y = z
      · subst h2
        rw [if_pos rfl]
        simp only [List.mem_cons]
        tauto
      · rw [if_neg h2]
        simp [ih]
        tauto

theorem alGet?_mapReplace (l : List (Nat × Nat)) (oldv newv k : Nat) :
    alGet? (l.map (fun (kv : Nat × Nat) =>
        if kv.2 == oldv then (kv.1, newv) else kv)) k =
      (alGet? l k).map (fun v => if v == oldv then newv else v) := by
  induction l with
  | nil => rfl
  | cons kv t ih =>
    simp only [List.map_cons]
    by_cases hk : kv.1 = k
    · by_cases hv : (kv.2 == oldv) = true
      · rw [if_pos hv]
        simp only [alGet?, if_pos hk]
        have hv2 : kv.2 = oldv := by simpa using hv
        simp [hv2]
      · rw [if_neg hv]
        simp only [alGet?, if_pos hk]
        have hv2 : ¬kv.2 = oldv := by simpa using hv
        simp [hv2]
    · by_cases hv : (kv.2 == oldv) = true
      · rw [if_pos hv]
        simp only [alGet?, if_neg hk]
        exact ih
      · rw [if_neg hv]
        simp only [alGet?, if_neg hk]
        exact ih

theorem alGet?_filterValNe (l : List (Nat × Nat)) (e k v : Nat)
    (h : alGet? l k = some v) (hne : v ≠ e) :
    alGet? (l.filter (fun (kv : Nat × Nat) => !(kv.2 == e))) k = some v := by
  induction l with
  | nil => cases h
  | cons kv t ih =>
    by_cases hk : kv.1 = k
    · simp only [alGet?, if_pos hk] at h
      injection h with h
      subst h
      have hb : (kv.2 == e) = false := beq_eq_false_iff_ne.mpr hne
      simp [List.filter, hb, alGet?, hk]
    · simp only [alGet?, if_neg hk] at h
      by_cases hb : (kv.2 == e) = true
      · simp [List.filter, hb]
        exact ih h
      · simp only [Bool.not_eq_true] at hb
        simp [List.filter, hb, alGet?, hk]
        exact ih h

/-- The weakened LFST/SSIT coupling (C8 amended) together with the key
uniqueness of the LFST dict. -/
def LfstSsitInv (P : StoreSetPredictor) : Prop :=
  (∀ id seq, alGet? P.lfst id = some seq → id ∉ P.free_store_sets →
    ∃ k, alGet? P.ssit k = some id) ∧
  P.lfst.Pairwise (fun a b => a.1 ≠ b.1)

theorem lfstSsitInv_confDec (P : StoreSetPredictor) (pc : Nat)
    (h : LfstSsitInv P) : LfstSsitInv (P.confDecrement pc) := by
  unfold StoreSetPredictor.confDecrement
  split
  · exact h
  · exact h

theorem lfstSsitInv_step (P P' : StoreSetPredictor) (hstep : PredStep P P')
    (h : LfstSsitInv P) : LfstSsitInv P' := by
  cases hstep with
  | predict pc =>
    unfold StoreSetPredictor.predict_load
    dsimp only
    repeat' split
    all_goals exact h
  | register pc seq =>
    unfold StoreSetPredictor.register_store
    cases hs : alGet? P.ssit (P.ssitIndex pc) with
    | none => exact h
    | some sid =>
      dsimp only
      refine ⟨?_, alSet_pairwise P.lfst sid seq h.2⟩
      intro id s hid hfree
      by_cases he : id = sid
      · exact ⟨P.ssitIndex pc, he ▸ hs⟩
      · rw [alGet?_alSet_ne P.lfst sid id seq he] at hid
        exact h.1 id s hid hfree
  | clear pc =>
    unfold StoreSetPredictor.clear_store
    cases hs : alGet? P.ssit (P.ssitIndex pc) with
    | none => exact h
    | some sid =>
      dsimp only
      split
      · refine ⟨?_, alDel_pairwise P.lfst sid h.2⟩
        intro id s hid hfree
        by_cases he : id = sid
        · subst he
          rw [alGet?_alDel_self P.lfst id h.2] at hid
          cases hid
        · rw [alGet?_alDel_ne P.lfst sid id he] at hid
          exact h.1 id s hid hfree
      · exact h
  | correct pc =>
    unfold StoreSetPredictor.report_correct_speculation
    dsimp only
    split
    · exact h
    · exact h
  | violation lpc spc =>
    unfold StoreSetPredictor.report_violation StoreSetPredictor.allocate_store_set
      StoreSetPredictor.ssitIndex
    dsimp only
    apply lfstSsitInv_confDec
    cases h1 : alGet? P.ssit (lpc >>> 2 % P.ssit_size) with
    | none =>
      cases h2 : alGet? P.ssit (spc >>> 2 % P.ssit_size) with
      | none =>
        dsimp only
        cases hf : P.free_store_sets with
        | cons newId rest =>
          dsimp only
          refine ⟨?_, h.2⟩
          intro id s hid hfree
          by_cases he : id = newId
          · subst he
            exact ⟨spc >>> 2 % P.ssit_size, alGet?_alSet_self _ _ _⟩
          · have hfree0 : id ∉ P.free_store_sets := by
              rw [hf]
              intro hmem
              rcases List.mem_cons.mp hmem with hx | hx
              · exact he hx
              · exact hfree hx
            rcases h.1 id s hid hfree0 with ⟨k, hk⟩
            have hkl : k ≠ lpc >>> 2 % P.ssit_size := fun hx => by
              rw [hx, h1] at hk; cases hk
            have hks : k ≠ spc >>> 2 % P.ssit_size := fun hx => by
              rw [hx, h2] at hk; cases hk
            refine ⟨k, ?_⟩
            rw [alGet?_alSet_ne _ _ _ _ hks, alGet?_alSet_ne _ _ _ _ hkl]
            exact hk
        | nil =>
          dsimp only
          cases hfind : (List.range P.max_store_sets).find?
              (fun set_id => (alGet? P.lfst set_id).isNone) with
          | some evicted =>
            dsimp only
            refine ⟨?_, h.2⟩
            intro id s hid hfree
            have hev : alGet? P.lfst evicted = none := by
              have := List.find?_some hfind
              simpa [Option.isNone_iff_eq_none] using this
            have hne : id ≠ evicted := fun hx => by
              rw [hx, hev] at hid; cases hid
            have hfree0 : id ∉ P.free_store_sets := by
              rw [hf]; simp
            rcases h.1 id s hid hfree0 with ⟨k, hk⟩
            have hkl : k ≠ lpc >>> 2 % P.ssit_size := fun hx => by
              rw [hx, h1] at hk; cases hk
            have hks : k ≠ spc >>> 2 % P.ssit_size := fun hx => by
              rw [hx, h2] at hk; cases hk
            refine ⟨k, ?_⟩
            rw [alGet?_alSet_ne _ _ _ _ hks, alGet?_alSet_ne _ _ _ _ hkl]
            exact alGet?_filterValNe P.ssit evicted k id hk hne
          | none =>
            dsimp only
            exact ⟨fun id s hid hfree => h.1 id s hid (by rw [hf]; simp), h.2⟩
      | some store_set =>
        dsimp only
        refine ⟨?_, h.2⟩
        intro id s hid hfree
        rcases h.1 id s hid hfree with ⟨k, hk⟩
        have hkl : k ≠ lpc >>> 2 % P.ssit_size := fun hx => by
          rw [hx, h1] at hk; cases hk
        exact ⟨k, by rw [alGet?_alSet_ne _ _ _ _ hkl]; exact hk⟩
    | some load_set =>
      cases h2 : alGet? P.ssit (spc >>> 2 % P.ssit_size) with
      | none =>
        dsimp only
        refine ⟨?_, h.2⟩
        intro id s hid hfree
        rcases h.1 id s hid hfree with ⟨k, hk⟩
        have hks : k ≠ spc >>> 2 % P.ssit_size := fun hx => by
          rw [hx, h2] at hk; cases hk
        exact ⟨k, by rw [alGet?_alSet_ne _ _ _ _ hks]; exact hk⟩
      | some store_set =>
        dsimp only
        split
        · refine ⟨?_, h.2⟩
          intro id s hid hfree
          have hne : id ≠ store_set := fun hx => by
            apply hfree
            rw [hx]
            exact (freeInsert_mem P.free_store_sets store_set store_set).mpr
              (Or.inl rfl)
          have hfree0 : id ∉ P.free_store_sets := fun hx =>
            hfree ((freeInsert_mem P.free_store_sets store_set id).mpr (Or.inr hx))
          rcases h.1 id s hid hfree0 with ⟨k, hk⟩
          refine ⟨k, ?_⟩
          rw [alGet?_mapReplace P.ssit store_set load_set k, hk]
          have hb : (id == store_set) = false := beq_eq_false_iff_ne.mpr hne
          simp [hb]
          exact fun hx => absurd hx hne
        · exact h

/-- C8 counterexample: after two violations create store sets 0 and 1, a store
registers in set 1, and a third violation merges set 1 into set 0, the LFST
still holds `{1: 5}` while no SSIT index maps to set 1 — the merge left a
dangling LFST entry. The state is reachable through the public operations. -/
theorem C8_counterexample_dangling_lfst :
    PredReachable 256 64 predictorAfterMerge ∧
    alGet? predictorAfterMerge.lfst 1 = some 5 ∧
    predictorAfterMerge.ssit.all (fun kv => decide (kv.2 ≠ 1)) = true := by
  refine ⟨?_, by decide, by decide⟩
  exact Relation.ReflTransGen.tail
    (Relation.ReflTransGen.tail
      (Relation.ReflTransGen.tail
        (Relation.ReflTransGen.tail Relation.ReflTransGen.refl
          (PredStep.violation _ 0x304 0x300))
        (PredStep.violation _ 0x404 0x400))
      (PredStep.register _ 0x400 5))
    (PredStep.violation _ 0x304 0x400)

/-- C8 (amended): in every reachable predictor state, every store-set id in
the LFST that is not in the free pool has at least one SSIT index mapped to
it. (The merge in `report_violation` puts the vacated id back into the free
pool without clearing its LFST entry, so ids in the pool are exempt.) -/
theorem C8_lfst_ids_have_ssit_mapping (ssz msets : Nat) (P : StoreSetPredictor)
    (h : PredReachable ssz msets P) :
    ∀ id seq, alGet? P.lfst id = some seq → id ∉ P.free_store_sets →
      ∃ k, alGet? P.ssit k = some id := by
  have hinv : LfstSsitInv P := by
    induction h with
    | refl => exact ⟨fun id seq hid => (nomatch hid), List.Pairwise.nil⟩
    | tail hr hstep ih => exact lfstSsitInv_step _ _ hstep ih
  exact hinv.1

/-- Witness for C8's amended theorem: in the post-violation predictor, set 0
is in the LFST, outside the free pool, and index 193 maps to it. -/
theorem C8_lfst_ids_have_ssit_mapping_witness :
    ∃ k, alGet? predictorAfterViolation.ssit k = some 0 :=
  C8_lfst_ids_have_ssit_mapping 256 64 predictorAfterViolation
    (Relation.ReflTransGen.tail
      (Relation.ReflTransGen.tail Relation.ReflTransGen.refl
        (PredStep.violation _ 0x304 0x300))
      (PredStep.register _ 0x300 1))
    0 1 (by decide) (by decide)

/-! ## C1 infrastructure: ring distance and dependency-scan characterization -/

/-- Distance from `h` to `j` walking forward around a ring of size `c`. -/
def ringDist (c h j : Nat) : Nat :=
  if h ≤ j then j - h else j + c - h

theorem ringDist_self (c h : Nat) : ringDist c h h = 0 := by
  simp [ringDist]

theorem ringDist_inj (c h j1 j2 : Nat) (hh : h < c) (h1 : j1 < c) (h2 : j2 < c)
    (he : ringDist c h j1 = ringDist c h j2) : j1 = j2 := by
  unfold ringDist at he
  split at he <;> split at he <;> omega

theorem ringDist_tail (c h s : Nat) (hh : h < c) (hs : s < c) :
    ringDist c h ((h + s) % c) = s := by
  rcases Nat.lt_or_ge (h + s) c with hc | hc
  · rw [Nat.mod_eq_of_lt hc]
    unfold ringDist
    split <;> omega
  · have hm : (h + s) % c = h + s - c := by
      rw [Nat.mod_eq_sub_mod hc, Nat.mod_eq_of_lt (by omega)]
    rw [hm]
    unfold ringDist
    split <;> omega

theorem ringDist_head_succ (c h j : Nat) (hh : h < c) (hj : j < c) (hne : j ≠ h) :
    ringDist c ((h + 1) % c) j + 1 = ringDist c h j := by
  rcases Nat.lt_or_ge (h + 1) c with hc | hc
  · rw [Nat.mod_eq_of_lt hc]
    unfold ringDist
    split <;> split <;> omega
  · have hm : (h + 1) % c = 0 := by
      have : h + 1 = c := by omega
      rw [this, Nat.mod_self]
    rw [hm]
    unfold ringDist
    split <;> split <;> omega

theorem ringDist_zero_head (c h j : Nat) (hh : h < c) (hj : j < c)
    (h0 : ringDist c h j = 0) : j = h := by
  unfold ringDist at h0
  split at h0 <;> omega

/-- With `head = 0` and `load_idx < capacity`, the scan visits exactly the
slots `0, 1, ..., load_idx - 1`. -/
theorem scanIdxs_head0 (capacity load_idx : Nat) (h : load_idx < capacity) :
    scanIdxs capacity 0 load_idx = List.range load_idx := by
  unfold scanIdxs
  have h1 : (load_idx + capacity - 0) % capacity = load_idx := by
    have : load_idx + capacity - 0 = load_idx + capacity := by omega
    rw [this, Nat.add_mod_right, Nat.mod_eq_of_lt h]
  rw [h1]
  have h2 : ∀ k ∈ List.range load_idx, (0 + k) % capacity = k := by
    intro k hk
    rw [List.mem_range] at hk
    rw [Nat.zero_add, Nat.mod_eq_of_lt (by omega)]
  conv_rhs => rw [← List.map_id (List.range load_idx)]
  exact List.map_congr_left h2

/-- Slot `j` holds nothing the dependency scan can conflict with: any
store/atomic entry there has a resolved address that does not overlap the
4-byte window at `a`. -/
def depClean (entries : List (Option LSQEntry)) (a : Int) (j : Nat) : Prop :=
  ∀ e, entries.get? j = some (some e) →
    (e.op_type = MemOpType.STORE ∨ e.op_type = MemOpType.ATOMIC) →
    e.address_valid = true ∧ addressesOverlap (e.address.getD 0) e.size a 4 = false

theorem depStep_clean (entries : List (Option LSQEntry)) (a : Int)
    (acc : DepAcc) (j : Nat) (h : depClean entries a j) :
    depStep entries a 4 acc j = acc := by
  cases hj : entries.get? j with
  | none => simp only [depStep, hj]
  | some o =>
    cases o with
    | none => simp only [depStep, hj]
    | some e =>
      simp only [depStep, hj]
      by_cases hop : e.op_type = MemOpType.STORE ∨ e.op_type = MemOpType.ATOMIC
      · rcases h e hj hop with ⟨hv, hov⟩
        rw [if_pos hop, if_pos hv]
        simp only [hov]
        rfl
      · rw [if_neg hop]

/-- A fully clean prefix scans to the empty accumulator. -/
theorem depScan_of_clean (entries : List (Option LSQEntry)) (a : Int) (n : Nat)
    (h : ∀ q, q < n → depClean entries a q) :
    (List.range n).foldl (depStep entries a 4) ⟨none, false, none⟩ =
      (⟨none, false, none⟩ : DepAcc) := by
  induction n with
  | zero => rfl
  | succ m ih =>
    rw [List.range_succ, List.foldl_append]
    rw [ih (fun q hq => h q (by omega))]
    exact depStep_clean entries a _ m (h m (by omega))

/-- One scan step that reports no conflict so far: the accumulator already had
none and the slot is clean. -/
theorem depStep_latest_none (entries : List (Option LSQEntry)) (a : Int)
    (acc : DepAcc) (j : Nat)
    (h : (depStep entries a 4 acc j).latest_conflict_idx = none) :
    acc.latest_conflict_idx = none ∧ depClean entries a j := by
  cases hj : entries.get? j with
  | none =>
    simp only [depStep, hj] at h
    exact ⟨h, fun e he => by rw [hj] at he; cases he⟩
  | some o =>
    cases o with
    | none =>
      simp only [depStep, hj] at h
      exact ⟨h, fun e he => by rw [hj] at he; cases he⟩
    | some e =>
      simp only [depStep, hj] at h
      by_cases hop : e.op_type = MemOpType.STORE ∨ e.op_type = MemOpType.ATOMIC
      · rw [if_pos hop] at h
        by_cases hv : e.address_valid = true
        · rw [if_pos hv] at h
          by_cases hov : addressesOverlap (e.address.getD 0) e.size a 4 = true
          · simp only [hov, if_true] at h
            split at h <;> cases h
          · rw [Bool.not_eq_true] at hov
            simp only [hov, Bool.false_eq_true, if_false] at h
            refine ⟨h, ?_⟩
            intro e2 he2 hop2
            rw [hj] at he2
            injection he2 with he2a
            injection he2a with he2b
            subst he2b
            exact ⟨hv, hov⟩
        · rw [if_neg hv] at h
          cases h
      · rw [if_neg hop] at h
        refine ⟨h, ?_⟩
        intro e2 he2 hop2
        rw [hj] at he2
        injection he2 with he2a
        injection he2a with he2b
        subst he2b
        exact absurd hop2 hop

/-- If the scan reports no conflict, every scanned slot was clean. -/
theorem depScan_noconf (entries : List (Option LSQEntry)) (a : Int) (n : Nat)
    (acc : DepAcc)
    (h : ((List.range n).foldl (depStep entries a 4) acc).latest_conflict_idx = none) :
    acc.latest_conflict_idx = none ∧ ∀ q, q < n → depClean entries a q := by
  induction n generalizing acc with
  | zero =>
    refine ⟨h, ?_⟩
    intro q hq
    omega
  | succ m ih =>
    rw [List.range_succ, List.foldl_append] at h
    dsimp only [List.foldl] at h
    have hsplit := depStep_latest_none entries a _ m h
    have hrec := ih acc hsplit.1
    refine ⟨hrec.1, ?_⟩
    intro q hq
    rcases Nat.lt_or_ge q m with h1 | h1
    · exact hrec.2 q h1
    · have hqm : q = m := by omega
      subst hqm
      exact hsplit.2

/-- The facts a forwarding source satisfies: a store/atomic entry with
resolved address equal to the load's, data ready, and size covering it. -/
def FwdSource (entries : List (Option LSQEntry)) (a : Int) (f : Nat) : Prop :=
  ∃ ef, entries.get? f = some (some ef) ∧
    (ef.op_type = MemOpType.STORE ∨ ef.op_type = MemOpType.ATOMIC) ∧
    ef.address_valid = true ∧ ef.data_valid = true ∧
    ef.address.getD 0 = a ∧ 4 ≤ ef.size

theorem depStep_fwd (entries : List (Option LSQEntry)) (a : Int)
    (acc : DepAcc) (j : Nat) (d : Int)
    (h : (depStep entries a 4 acc j).forward_data = some d) :
    (FwdSource entries a j ∧
      ∃ ef, entries.get? j = some (some ef) ∧ ef.data = some d) ∨
    (acc.forward_data = some d ∧ depClean entries a j) := by
  cases hj : entries.get? j with
  | none =>
    simp only [depStep, hj] at h
    exact Or.inr ⟨h, fun e he => by rw [hj] at he; cases he⟩
  | some o =>
    cases o with
    | none =>
      simp only [depStep, hj] at h
      exact Or.inr ⟨h, fun e he => by rw [hj] at he; cases he⟩
    | some e =>
      simp only [depStep, hj] at h
      by_cases hop : e.op_type = MemOpType.STORE ∨ e.op_type = MemOpType.ATOMIC
      · rw [if_pos hop] at h
        by_cases hv : e.address_valid = true
        · rw [if_pos hv] at h
          by_cases hov : addressesOverlap (e.address.getD 0) e.size a 4 = true
          · simp only [hov, if_true] at h
            by_cases hinner : e.data_valid = true ∧ e.address.getD 0 = a ∧ 4 ≤ e.size
            · rw [if_pos hinner] at h
              dsimp only at h
              exact Or.inl ⟨⟨e, hj, hop, hv, hinner.1, hinner.2.1, hinner.2.2⟩,
                e, rfl, h⟩
            · rw [if_neg hinner] at h
              cases h
          · rw [Bool.not_eq_true] at hov
            simp only [hov, Bool.false_eq_true, if_false] at h
            refine Or.inr ⟨h, ?_⟩
            intro e2 he2 hop2
            rw [hj] at he2
            injection he2 with he2a
            injection he2a with he2b
            subst he2b
            exact ⟨hv, hov⟩
        · rw [if_neg hv] at h
          cases h
      · rw [if_neg hop] at h
        refine Or.inr ⟨h, ?_⟩
        intro e2 he2 hop2
        rw [hj] at he2
        injection he2 with he2a
        injection he2a with he2b
        subst he2b
        exact absurd hop2 hop

/-- Scan-level forwarding characterization: a forwarded value comes from a
forwarding source, and every scanned slot after that source is clean. -/
theorem depScan_fwd (entries : List (Option LSQEntry)) (a : Int) (n : Nat)
    (acc : DepAcc) (d : Int)
    (h : ((List.range n).foldl (depStep entries a 4) acc).forward_data = some d) :
    (∃ f, f < n ∧ FwdSource entries a f ∧
      (∃ ef, entries.get? f = some (some ef) ∧ ef.data = some d) ∧
      ∀ q, f < q → q < n → depClean entries a q) ∨
    (acc.forward_data = some d ∧ ∀ q, q < n → depClean entries a q) := by
  induction n generalizing acc with
  | zero =>
    exact Or.inr ⟨h, fun q hq => by omega⟩
  | succ m ih =>
    rw [List.range_succ, List.foldl_append] at h
    dsimp only [List.foldl] at h
    rcases depStep_fwd entries a _ m d h with ⟨hsrc, hdat⟩ | ⟨haccm, hcleanm⟩
    · exact Or.inl ⟨m, by omega, hsrc, hdat, fun q h1 h2 => by omega⟩
    · rcases ih acc haccm with ⟨f, hf, hsrc, hdat, hclean⟩ | ⟨hacc0, hcleans⟩
      · refine Or.inl ⟨f, by omega, hsrc, hdat, ?_⟩
        intro q h1 h2
        rcases Nat.lt_or_ge q m with h3 | h3
        · exact hclean q h1 h3
        · have hqm : q = m := by omega
          subst hqm
          exact hcleanm
      · refine Or.inr ⟨hacc0, ?_⟩
        intro q hq
        rcases Nat.lt_or_ge q m with h3 | h3
        · exact hcleans q h3
        · have hqm : q = m := by omega
          subst hqm
          exact hcleanm

/-- Unfolding `check_dependency` in the `head = 0` states the pipeline
produces: the result is the scan over slots `0..load_idx-1`. -/
theorem check_dependency_eq (q : LoadStoreQueue) (li : Nat) (le : LSQEntry)
    (hhead : q.head = 0) (hli : li < q.capacity)
    (hle : q.entries.get? li = some (some le)) (hv : le.address_valid = true) :
    (q.check_dependency li).2 =
      (let acc := (List.range li).foldl
        (depStep q.entries (le.address.getD 0) le.size) ⟨none, false, none⟩
      (acc.latest_conflict_idx.isSome,
        (if acc.can_forward then acc.latest_conflict_idx else none),
        acc.forward_data)) := by
  simp only [LoadStoreQueue.check_dependency, hle]
  rw [if_pos hv]
  dsimp only
  rw [hhead, scanIdxs_head0 q.capacity li hli]
  rw [depFold_snd]

/-- A clean prefix makes `check_dependency` report nothing at all. -/
theorem check_dependency_of_clean (q : LoadStoreQueue) (li : Nat) (le : LSQEntry)
    (hhead : q.head = 0) (hli : li < q.capacity)
    (hle : q.entries.get? li = some (some le)) (hv : le.address_valid = true)
    (hsz : le.size = 4)
    (hclean : ∀ qq, qq < li → depClean q.entries (le.address.getD 0) qq) :
    (q.check_dependency li).2 = (false, none, none) := by
  rw [check_dependency_eq q li le hhead hli hle hv]
  dsimp only
  rw [hsz, depScan_of_clean q.entries (le.address.getD 0) li hclean]
  rfl

/-- A conflict-free `check_dependency` verdict means every earlier slot is
clean. -/
theorem check_dependency_noconf (q : LoadStoreQueue) (li : Nat) (le : LSQEntry)
    (hhead : q.head = 0) (hli : li < q.capacity)
    (hle : q.entries.get? li = some (some le)) (hv : le.address_valid = true)
    (hsz : le.size = 4)
    (h : (q.check_dependency li).2.1 = false) :
    ∀ qq, qq < li → depClean q.entries (le.address.getD 0) qq := by
  rw [check_dependency_eq q li le hhead hli hle hv] at h
  dsimp only at h
  rw [hsz] at h
  have hnone : ((List.range li).foldl (depStep q.entries (le.address.getD 0) 4)
      ⟨none, false, none⟩).latest_conflict_idx = none := by
    revert h
    cases ((List.range li).foldl (depStep q.entries (le.address.getD 0) 4)
        ⟨none, false, none⟩).latest_conflict_idx <;> simp
  exact (depScan_noconf q.entries (le.address.getD 0) li _ hnone).2

/-- A forwarded `check_dependency` verdict comes from a forwarding source with
a clean tail after it. -/
theorem check_dependency_fwd (q : LoadStoreQueue) (li : Nat) (le : LSQEntry)
    (d : Int) (hhead : q.head = 0) (hli : li < q.capacity)
    (hle : q.entries.get? li = some (some le)) (hv : le.address_valid = true)
    (hsz : le.size = 4)
    (h : (q.check_dependency li).2.2.2 = some d) :
    ∃ f, f < li ∧ FwdSource q.entries (le.address.getD 0) f ∧
      (∃ ef, q.entries.get? f = some (some ef) ∧ ef.data = some d) ∧
      ∀ qq, f < qq → qq < li → depClean q.entries (le.address.getD 0) qq := by
  rw [check_dependency_eq q li le hhead hli hle hv] at h
  dsimp only at h
  rw [hsz] at h
  rcases depScan_fwd q.entries (le.address.getD 0) li _ d h with
    ⟨f, hf, hsrc, hdat, hclean⟩ | ⟨hacc, _⟩
  · exact ⟨f, hf, hsrc, hdat, hclean⟩
  · cases hacc

/-! ## C1 infrastructure: entry access and overlap lemmas -/

theorem modifyEntry_fields (q : LoadStoreQueue) (idx : Nat) (f : LSQEntry → LSQEntry) :
    (q.modifyEntry idx f).capacity = q.capacity ∧
    (q.modifyEntry idx f).head = q.head ∧
    (q.modifyEntry idx f).tail = q.tail ∧
    (q.modifyEntry idx f).size = q.size ∧
    (q.modifyEntry idx f).entries.length = q.entries.length := by
  unfold LoadStoreQueue.modifyEntry
  repeat' split
  all_goals simp

theorem modifyEntry_get_ne (q : LoadStoreQueue) (idx : Nat) (f : LSQEntry → LSQEntry)
    (j : Nat) (h : idx ≠ j) :
    (q.modifyEntry idx f).entries.get? j = q.entries.get? j := by
  unfold LoadStoreQueue.modifyEntry
  repeat' split
  all_goals first | rfl | exact List.get?_set_ne _ _ h

theorem modifyEntry_get_self (q : LoadStoreQueue) (idx : Nat) (f : LSQEntry → LSQEntry)
    (e : LSQEntry) (hlen : q.entries.length = q.capacity)
    (he : q.entries.get? idx = some (some e)) :
    (q.modifyEntry idx f).entries.get? idx = some (some (f e)) := by
  have hidx : idx < q.entries.length := by
    by_contra hc
    rw [List.get?_eq_none.mpr (by omega)] at he
    cases he
  unfold LoadStoreQueue.modifyEntry
  rw [if_pos (by omega), he]
  dsimp only
  rw [List.get?_set_eq_of_lt _ (by simpa using hidx)]

theorem addressesOverlap_refl4 (a : Int) : addressesOverlap a 4 a 4 = true := by
  unfold addressesOverlap
  simp <;> omega

theorem addressesOverlap_false_ne (a b : Int) (sa : Nat) (hsa : sa = 4)
    (h : addressesOverlap a sa b 4 = false) : a ≠ b := by
  subst hsa
  unfold addressesOverlap at h
  simp at h
  omega

/-! ## C1 invariant -/

/-- Well-formedness of the pipeline's LSQ: `head` is pinned at 0 (the pipeline
never calls `lsq.commit_head`), the ring is a plain prefix of length `size`,
entry sequence numbers strictly increase with position and stay below the
next sequence number, and every entry is a 4-byte load or store whose resolved
address is present. -/
structure LsqInv (L : LoadStoreQueue) (nextSeq : Nat) : Prop where
  len : L.entries.length = L.capacity
  head0 : L.head = 0
  sizeLe : L.size ≤ L.capacity
  tailEq : L.tail = L.size % L.capacity
  dom : ∀ j, (∃ e, L.entries.get? j = some (some e)) ↔ j < L.size
  seqMono : ∀ j1 j2 e1 e2, L.entries.get? j1 = some (some e1) →
    L.entries.get? j2 = some (some e2) → j1 < j2 → e1.seq_num < e2.seq_num
  seqLt : ∀ j e, L.entries.get? j = some (some e) → e.seq_num < nextSeq
  wf : ∀ j e, L.entries.get? j = some (some e) →
    e.size = 4 ∧ e.op_type ≠ MemOpType.ATOMIC ∧
    (e.address_valid = true → ∃ a, e.address = some a)

/-- Well-formedness of the ROB ring: occupied slots are exactly those within
`size` ring-steps of `head`, and sequence numbers strictly increase with ring
distance. -/
structure RobInv (R : ReorderBuffer) (nextSeq : Nat) : Prop where
  len : R.entries.length = R.capacity
  headLt : R.capacity ≠ 0 → R.head < R.capacity
  sizeLe : R.size ≤ R.capacity
  tailEq : R.tail = (R.head + R.size) % R.capacity
  dom : ∀ j, (∃ i, R.entries.get? j = some (some i)) ↔
    (j < R.capacity ∧ ringDist R.capacity R.head j < R.size)
  seqSome : ∀ j i, R.entries.get? j = some (some i) →
    ∃ s, i.seq_num = some s ∧ s < nextSeq
  seqMono : ∀ j1 j2 i1 i2, R.entries.get? j1 = some (some i1) →
    R.entries.get? j2 = some (some i2) →
    ringDist R.capacity R.head j1 < ringDist R.capacity R.head j2 →
    i1.seq_num.getD 0 < i2.seq_num.getD 0

/-- Basic facts about any instruction resident in the ROB. -/
def InstrFlags (i : Instruction) : Prop :=
  i.committed = false ∧ (i.completed = true → i.executed = true) ∧
  (i.executed = true → i.issued = true) ∧
  (i.speculative = true → i.instr_type = InstructionType.LOAD) ∧
  (i.speculative = true → i.executed = true)

/-- Link between an issued memory instruction and its LSQ entry. -/
def MemLink (L : LoadStoreQueue) (i : Instruction) : Prop :=
  i.issued = true →
  (i.instr_type = InstructionType.LOAD ∨ i.instr_type = InstructionType.STORE) →
  ∃ li e, i.lsq_idx = some li ∧ li < L.size ∧
    L.entries.get? li = some (some e) ∧
    e.seq_num = i.seq_num.getD 0 ∧
    (i.instr_type = InstructionType.LOAD → e.op_type = MemOpType.LOAD) ∧
    (i.instr_type = InstructionType.STORE → e.op_type = MemOpType.STORE ∧
      (i.executed = true → e.address_valid = true ∧ e.address = i.address ∧
        e.data_valid = true ∧ e.data = i.data) ∧
      (i.executed = false → e.address_valid = false))

/-- A completed speculative load read memory at its address, the value still
stands, and no earlier slot conflicts with it. -/
def SpecLoadInv (L : LoadStoreQueue) (mem : Memory) (i : Instruction) : Prop :=
  i.instr_type = InstructionType.LOAD → i.speculative = true → i.completed = true →
  ∃ a li e, i.address = some a ∧ i.lsq_idx = some li ∧ li < L.size ∧
    L.entries.get? li = some (some e) ∧ e.address_valid = true ∧
    e.address = some a ∧
    i.data = some (memGet mem a) ∧
    ∀ q, q < li → depClean L.entries a q

/-- A completed non-speculative load took its value from a forwarding source,
and every slot strictly between that source and the load is clean. -/
def FwdLoadInv (L : LoadStoreQueue) (i : Instruction) : Prop :=
  i.instr_type = InstructionType.LOAD → i.speculative = false → i.completed = true →
  ∃ a li d f, i.address = some a ∧ i.lsq_idx = some li ∧ li < L.size ∧
    f < li ∧ FwdSource L.entries a f ∧
    (∃ ef, L.entries.get? f = some (some ef) ∧ ef.data = some d) ∧
    i.data = some d ∧
    ∀ q, f < q → q < li → depClean L.entries a q

/-- The pipeline invariant for claim C1, preserved by every public step. -/
structure Inv (p : Pipeline) : Prop where
  lsq : LsqInv p.lsq p.next_seq_num
  rob : RobInv p.rob p.next_seq_num
  flags : ∀ j i, p.rob.entries.get? j = some (some i) → InstrFlags i
  link : ∀ j i, p.rob.entries.get? j = some (some i) → MemLink p.lsq i
  spec : ∀ j i, p.rob.entries.get? j = some (some i) → SpecLoadInv p.lsq p.memory i
  fwd : ∀ j i, p.rob.entries.get? j = some (some i) → FwdLoadInv p.lsq i

/-! ## C1 infrastructure: preservation helpers -/

theorem ringDist_succ_head (c h : Nat) (hh : h < c) :
    ringDist c ((h + 1) % c) h = c - 1 := by
  rcases Nat.lt_or_ge (h + 1) c with hc | hc
  · rw [Nat.mod_eq_of_lt hc]
    unfold ringDist
    split <;> omega
  · have hm : (h + 1) % c = 0 := by
      have he : h + 1 = c := by omega
      rw [he, Nat.mod_self]
    rw [hm]
    unfold ringDist
    split <;> omega

theorem get?_set_cases {α : Type} (l : List α) (idx j : Nat) (a x : α)
    (h : (l.set idx a).get? j = some x) :
    (j = idx ∧ x = a ∧ idx < l.length) ∨ (j ≠ idx ∧ l.get? j = some x) := by
  by_cases he : j = idx
  · subst he
    have hlt : j < l.length := by
      have := List.get?_eq_some.mp h
      rcases this with ⟨hb, _⟩
      simpa using hb
    rw [List.get?_set_eq_of_lt _ hlt] at h
    injection h with h2
    exact Or.inl ⟨rfl, h2.symm, hlt⟩
  · rw [List.get?_set_ne _ _ (fun hx => he hx.symm)] at h
    exact Or.inr ⟨he, h⟩

theorem modifyEntry_entries (q : LoadStoreQueue) (idx : Nat) (f : LSQEntry → LSQEntry) :
    ((q.modifyEntry idx f).entries = q.entries ∧
      (¬ idx < q.capacity ∨ ∀ e, q.entries.get? idx ≠ some (some e))) ∨
    ∃ e, q.entries.get? idx = some (some e) ∧ idx < q.capacity ∧
      (q.modifyEntry idx f).entries = q.entries.set idx (some (f e)) := by
  unfold LoadStoreQueue.modifyEntry
  by_cases hc : idx < q.capacity
  · rw [if_pos hc]
    cases hget : q.entries.get? idx with
    | none => exact Or.inl ⟨rfl, Or.inr (fun e he => by cases he)⟩
    | some o =>
      cases o with
      | none => exact Or.inl ⟨rfl, Or.inr (fun e he => by cases he)⟩
      | some e => exact Or.inr ⟨e, rfl, hc, rfl⟩
  · rw [if_neg hc]
    exact Or.inl ⟨rfl, Or.inl hc⟩

theorem modifyEntry_get_cases (q : LoadStoreQueue) (idx : Nat)
    (f : LSQEntry → LSQEntry) (j : Nat) (e' : LSQEntry)
    (hlen : q.entries.length = q.capacity)
    (h : (q.modifyEntry idx f).entries.get? j = some (some e')) :
    (j = idx ∧ ∃ e, q.entries.get? idx = some (some e) ∧ e' = f e) ∨
    (j ≠ idx ∧ q.entries.get? j = some (some e')) := by
  rcases modifyEntry_entries q idx f with ⟨hE, hwhy⟩ | ⟨e, hget, hc, hE⟩
  · rw [hE] at h
    by_cases he : j = idx
    · subst he
      rcases hwhy with hw | hw
      · exfalso
        apply hw
        have := List.get?_eq_some.mp h
        rcases this with ⟨hb, _⟩
        omega
      · exact absurd h (hw e')
    · exact Or.inr ⟨he, h⟩
  · rw [hE] at h
    rcases get?_set_cases _ _ _ _ _ h with ⟨he, hx, _⟩ | ⟨he, hx⟩
    · injection hx with hx2
      exact Or.inl ⟨he, e, hget, hx2⟩
    · exact Or.inr ⟨he, hx⟩

theorem RobInv_update (R : ReorderBuffer) (nextSeq : Nat) (hinv : RobInv R nextSeq)
    (idx : Nat) (i i2 : Instruction) (hget : R.entries.get? idx = some (some i))
    (hseq : i2.seq_num = i.seq_num) :
    RobInv { R with entries := R.entries.set idx (some i2) } nextSeq := by
  have hlen : (R.entries.set idx (some i2)).length = R.entries.length :=
    List.length_set R.entries idx (some i2)
  have hidx : idx < R.entries.length := by
    rcases List.get?_eq_some.mp hget with ⟨hb, _⟩
    simpa using hb
  refine ⟨by simpa using hinv.len, hinv.headLt, hinv.sizeLe, hinv.tailEq, ?_, ?_, ?_⟩
  · intro j
    constructor
    · intro ⟨ix, hix⟩
      rcases get?_set_cases _ _ _ _ _ hix with ⟨he, _, _⟩ | ⟨he, hx⟩
      · subst he
        exact (hinv.dom j).mp ⟨i, hget⟩
      · exact (hinv.dom j).mp ⟨ix, hx⟩
    · intro hj
      rcases (hinv.dom j).mpr hj with ⟨ix, hix⟩
      by_cases he : j = idx
      · subst he
        exact ⟨i2, by rw [List.get?_set_eq_of_lt _ hidx]⟩
      · exact ⟨ix, by rw [List.get?_set_ne _ _ (fun hx => he hx.symm)]; exact hix⟩
  · intro j ix hix
    rcases get?_set_cases _ _ _ _ _ hix with ⟨he, hx, _⟩ | ⟨he, hx⟩
    · subst he
      injection hx with hx2
      subst hx2
      rcases hinv.seqSome j i hget with ⟨s, hs1, hs2⟩
      exact ⟨s, by rw [hseq]; exact hs1, hs2⟩
    · exact hinv.seqSome j ix hx
  · intro j1 j2 i1' i2' h1 h2 hd
    rcases get?_set_cases _ _ _ _ _ h1 with ⟨he1, hx1, _⟩ | ⟨he1, hx1⟩ <;>
      rcases get?_set_cases _ _ _ _ _ h2 with ⟨he2, hx2, _⟩ | ⟨he2, hx2⟩
    · subst he1; subst he2
      exact absurd hd (by simp)
    · subst he1
      injection hx1 with hx1b
      subst hx1b
      have := hinv.seqMono _ j2 i i2' hget hx2 hd
      rw [hseq]
      exact this
    · subst he2
      injection hx2 with hx2b
      subst hx2b
      have := hinv.seqMono j1 _ i1' i hx1 hget hd
      rw [hseq]
      exact this
    · exact hinv.seqMono j1 j2 i1' i2' hx1 hx2 hd

theorem RobInv_pop (R : ReorderBuffer) (nextSeq : Nat) (hinv : RobInv R nextSeq)
    (i0 : Instruction) (hget : R.entries.get? R.head = some (some i0))
    (hne : R.is_empty = false) :
    RobInv ⟨R.capacity, R.entries.set R.head none, (R.head + 1) % R.capacity,
      R.tail, R.size - 1⟩ nextSeq := by
  have hcap : 0 < R.capacity := by
    rcases List.get?_eq_some.mp hget with ⟨hb, _⟩
    have := hinv.len
    omega
  have hhead : R.head < R.capacity := hinv.headLt (by omega)
  have hsz : R.size ≠ 0 := by
    unfold ReorderBuffer.is_empty at hne
    simpa using hne
  refine ⟨?_, ?_, ?_, ?_, ?_, ?_, ?_⟩
  · simpa using hinv.len
  · intro _
    exact Nat.mod_lt _ hcap
  · dsimp only
    have := hinv.sizeLe
    omega
  · dsimp only
    rw [hinv.tailEq, Nat.mod_add_mod]
    congr 1
    omega
  · intro j
    dsimp only
    constructor
    · intro ⟨ix, hix⟩
      rcases get?_set_cases _ _ _ _ _ hix with ⟨_, hx, _⟩ | ⟨he, hx⟩
      · cases hx
      · have hdom := (hinv.dom j).mp ⟨ix, hx⟩
        have hd1 : 1 ≤ ringDist R.capacity R.head j := by
          by_contra hc
          have h0 : ringDist R.capacity R.head j = 0 := by omega
          exact he (ringDist_zero_head _ _ _ hhead hdom.1 h0)
        have hstep := ringDist_head_succ R.capacity R.head j hhead hdom.1 (fun hx2 => by
          subst hx2
          exact he rfl)
        refine ⟨hdom.1, ?_⟩
        omega
    · intro ⟨hj, hd⟩
      by_cases he : j = R.head
      · subst he
        rw [ringDist_succ_head _ _ hhead] at hd
        have := hinv.sizeLe
        omega
      · have hstep := ringDist_head_succ R.capacity R.head j hhead hj he
        have hdom := (hinv.dom j).mpr ⟨hj, by omega⟩
        rcases hdom with ⟨ix, hix⟩
        exact ⟨ix, by rw [List.get?_set_ne _ _ (fun hx => he hx.symm)]; exact hix⟩
  · intro j ix hix
    dsimp only at hix
    rcases get?_set_cases _ _ _ _ _ hix with ⟨_, hx, _⟩ | ⟨_, hx⟩
    · cases hx
    · exact hinv.seqSome j ix hx
  · intro j1 j2 i1' i2' h1 h2 hd
    dsimp only at h1 h2 hd
    rcases get?_set_cases _ _ _ _ _ h1 with ⟨_, hx1, _⟩ | ⟨he1, hx1⟩
    · cases hx1
    rcases get?_set_cases _ _ _ _ _ h2 with ⟨_, hx2, _⟩ | ⟨he2, hx2⟩
    · cases hx2
    have hj1 : j1 < R.capacity := ((hinv.dom j1).mp ⟨i1', hx1⟩).1
    have hj2 : j2 < R.capacity := ((hinv.dom j2).mp ⟨i2', hx2⟩).1
    have hs1 := ringDist_head_succ R.capacity R.head j1 hhead hj1 (fun hx => he1 hx)
    have hs2 := ringDist_head_succ R.capacity R.head j2 hhead hj2 (fun hx => he2 hx)
    exact hinv.seqMono j1 j2 i1' i2' hx1 hx2 (by omega)

theorem commit_head_cases (R : ReorderBuffer) :
    ((R.commit_head).2 = none ∧ (R.commit_head).1 = R) ∨
    (∃ i, R.entries.get? R.head = some (some i) ∧ i.completed = true ∧
      R.is_empty = false ∧
      (R.commit_head).2 = some { i with committed := true } ∧
      (R.commit_head).1 = ⟨R.capacity, R.entries.set R.head none,
        (R.head + 1) % R.capacity, R.tail, R.size - 1⟩) := by
  by_cases hemp : R.is_empty = true
  · left
    refine ⟨?_, ?_⟩ <;> (simp only [ReorderBuffer.commit_head, if_pos hemp])
  · cases hget : R.entries.get? R.head with
    | none =>
      left
      refine ⟨?_, ?_⟩ <;>
        (simp only [ReorderBuffer.commit_head, if_neg hemp, hget])
    | some o =>
      cases o with
      | none =>
        left
        refine ⟨?_, ?_⟩ <;>
          (simp only [ReorderBuffer.commit_head, if_neg hemp, hget])
      | some i =>
        by_cases hcomp : i.completed = true
        · right
          refine ⟨i, rfl, hcomp, by simpa using hemp, ?_, ?_⟩ <;>
            (simp only [ReorderBuffer.commit_head, if_neg hemp, hget, if_pos hcomp])
        · left
          refine ⟨?_, ?_⟩ <;>
            (simp only [ReorderBuffer.commit_head, if_neg hemp, hget, if_neg hcomp])

theorem LsqInv_modify (L : LoadStoreQueue) (nextSeq : Nat) (hinv : LsqInv L nextSeq)
    (idx : Nat) (f : LSQEntry → LSQEntry)
    (hseq : ∀ e, (f e).seq_num = e.seq_num)
    (hsize : ∀ e, (f e).size = e.size)
    (hop : ∀ e, (f e).op_type = e.op_type)
    (hwf : ∀ e, (e.address_valid = true → ∃ a, e.address = some a) →
      ((f e).address_valid = true → ∃ a, (f e).address = some a)) :
    LsqInv (L.modifyEntry idx f) nextSeq := by
  have hfields := modifyEntry_fields L idx f
  refine ⟨?_, ?_, ?_, ?_, ?_, ?_, ?_, ?_⟩
  · rw [hfields.2.2.2.2, hfields.1, hinv.len]
  · rw [hfields.2.1, hinv.head0]
  · rw [hfields.2.2.2.1, hfields.1]
    exact hinv.sizeLe
  · rw [hfields.2.2.1, hfields.2.2.2.1, hfields.1]
    exact hinv.tailEq
  · intro j
    rw [hfields.2.2.2.1]
    constructor
    · intro ⟨e', he'⟩
      rcases modifyEntry_get_cases L idx f j e' hinv.len he' with
        ⟨he, e, hget, _⟩ | ⟨_, hget⟩
      · subst he
        exact (hinv.dom j).mp ⟨e, hget⟩
      · exact (hinv.dom j).mp ⟨e', hget⟩
    · intro hj
      rcases (hinv.dom j).mpr hj with ⟨e, hget⟩
      by_cases he : j = idx
      · subst he
        exact ⟨f e, modifyEntry_get_self L j f e hinv.len hget⟩
      · exact ⟨e, by rw [modifyEntry_get_ne L idx f j (fun hx => he hx.symm)]; exact hget⟩
  · intro j1 j2 e1 e2 h1 h2 hlt
    rcases modifyEntry_get_cases L idx f j1 e1 hinv.len h1 with
      ⟨he1, e1o, hg1, hf1⟩ | ⟨_, hg1⟩ <;>
      rcases modifyEntry_get_cases L idx f j2 e2 hinv.len h2 with
        ⟨he2, e2o, hg2, hf2⟩ | ⟨_, hg2⟩
    · subst he1
      subst hf1
      exact absurd hlt (by omega)
    · subst he1
      subst hf1
      rw [hseq]
      exact hinv.seqMono _ j2 e1o e2 hg1 hg2 hlt
    · subst he2
      subst hf2
      rw [hseq]
      exact hinv.seqMono j1 _ e1 e2o hg1 hg2 hlt
    · exact hinv.seqMono j1 j2 e1 e2 hg1 hg2 hlt
  · intro j e' he'
    rcases modifyEntry_get_cases L idx f j e' hinv.len he' with
      ⟨_, e, hget, hf⟩ | ⟨_, hget⟩
    · subst hf
      rw [hseq]
      exact hinv.seqLt _ e hget
    · exact hinv.seqLt j e' hget
  · intro j e' he'
    rcases modifyEntry_get_cases L idx f j e' hinv.len he' with
      ⟨_, e, hget, hf⟩ | ⟨_, hget⟩
    · subst hf
      rcases hinv.wf _ e hget with ⟨hw1, hw2, hw3⟩
      exact ⟨by rw [hsize]; exact hw1, by rw [hop]; exact hw2, hwf e hw3⟩
    · exact hinv.wf j e' hget

theorem LsqInv_alloc (L : LoadStoreQueue) (nextSeq : Nat) (hinv : LsqInv L nextSeq)
    (seq pc : Nat) (op : MemOpType) (hop : op ≠ MemOpType.ATOMIC)
    (hseq : seq = nextSeq) (hfull : L.is_full = false) :
    LsqInv ⟨L.capacity, L.entries.set L.tail
        (some { seq_num := seq, pc := pc, op_type := op, size := 4 }),
      L.head, (L.tail + 1) % L.capacity, L.size + 1⟩ (nextSeq + 1) := by
  have hszcap : L.size < L.capacity := by
    unfold LoadStoreQueue.is_full at hfull
    simpa using hfull
  have htail : L.tail = L.size := by
    rw [hinv.tailEq, Nat.mod_eq_of_lt hszcap]
  refine ⟨?_, ?_, ?_, ?_, ?_, ?_, ?_, ?_⟩
  · dsimp only
    rw [List.length_set, hinv.len]
  · dsimp only
    exact hinv.head0
  · dsimp only
    omega
  · dsimp only
    rw [htail]
  · intro j
    dsimp only
    constructor
    · intro ⟨e', he'⟩
      rcases get?_set_cases _ _ _ _ _ he' with ⟨he, _, _⟩ | ⟨_, hget⟩
      · omega
      · have := (hinv.dom j).mp ⟨e', hget⟩
        omega
    · intro hj
      by_cases he : j = L.tail
      · subst he
        refine ⟨_, List.get?_set_eq_of_lt _ ?_⟩
        rw [hinv.len]
        omega
      · have hjs : j < L.size := by omega
        rcases (hinv.dom j).mpr hjs with ⟨e, hget⟩
        exact ⟨e, by rw [List.get?_set_ne _ _ (fun hx => he hx.symm)]; exact hget⟩
  · intro j1 j2 e1 e2 h1 h2 hlt
    dsimp only at h1 h2
    rcases get?_set_cases _ _ _ _ _ h1 with ⟨he1, hx1, _⟩ | ⟨he1, hx1⟩ <;>
      rcases get?_set_cases _ _ _ _ _ h2 with ⟨he2, hx2, _⟩ | ⟨he2, hx2⟩
    · omega
    · subst he1
      have := (hinv.dom j2).mp ⟨e2, hx2⟩
      omega
    · subst he2
      injection hx2 with hx2b
      subst hx2b
      have := hinv.seqLt j1 e1 hx1
      dsimp only
      omega
    · exact hinv.seqMono j1 j2 e1 e2 hx1 hx2 hlt
  · intro j e he
    dsimp only at he
    rcases get?_set_cases _ _ _ _ _ he with ⟨_, hx, _⟩ | ⟨_, hx⟩
    · injection hx with hxb
      subst hxb
      dsimp only
      omega
    · have := hinv.seqLt j e hx
      omega
  · intro j e he
    dsimp only at he
    rcases get?_set_cases _ _ _ _ _ he with ⟨_, hx, _⟩ | ⟨_, hx⟩
    · injection hx with hxb
      subst hxb
      refine ⟨rfl, hop, ?_⟩
      intro hv
      cases hv
    · exact hinv.wf j e hx

theorem replicate_none_get {α : Type} (n j : Nat) (x : α)
    (h : (List.replicate n (none : Option α)).get? j = some (some x)) : False := by
  rcases List.get?_eq_some.mp h with ⟨hb, hx⟩
  rw [List.get_replicate] at hx
  cases hx

theorem Inv_init (robSize lsqSize : Nat) : Inv (Pipeline.init robSize lsqSize) := by
  refine ⟨?_, ?_, ?_, ?_, ?_, ?_⟩
  · refine ⟨by simp [Pipeline.init, LoadStoreQueue.init], rfl, Nat.zero_le _,
      (Nat.zero_mod _).symm, ?_, ?_, ?_, ?_⟩
    · intro j
      constructor
      · intro ⟨e, he⟩
        exact absurd he (fun h => replicate_none_get _ _ _ h)
      · intro hj
        exact absurd hj (Nat.not_lt_zero j)
    · intro j1 j2 e1 e2 h1 h2 _
      exact absurd h1 (fun h => replicate_none_get _ _ _ h)
    · intro j e h
      exact absurd h (fun h2 => replicate_none_get _ _ _ h2)
    · intro j e h
      exact absurd h (fun h2 => replicate_none_get _ _ _ h2)
  · refine ⟨by simp [Pipeline.init, ReorderBuffer.init], ?_, Nat.zero_le _,
      (Nat.zero_mod _).symm, ?_, ?_, ?_⟩
    · intro h
      exact Nat.pos_of_ne_zero h
    · intro j
      constructor
      · intro ⟨i, hi⟩
        exact absurd hi (fun h => replicate_none_get _ _ _ h)
      · intro ⟨_, hd⟩
        exact absurd hd (Nat.not_lt_zero _)
    · intro j i h
      exact absurd h (fun h2 => replicate_none_get _ _ _ h2)
    · intro j1 j2 i1 i2 h1 h2 _
      exact absurd h1 (fun h => replicate_none_get _ _ _ h)
  · intro j i h
    exact absurd h (fun h2 => replicate_none_get _ _ _ h2)
  · intro j i h
    exact absurd h (fun h2 => replicate_none_get _ _ _ h2)
  · intro j i h
    exact absurd h (fun h2 => replicate_none_get _ _ _ h2)
  · intro j i h
    exact absurd h (fun h2 => replicate_none_get _ _ _ h2)

theorem LsqInv_mono (L : LoadStoreQueue) (n m : Nat) (h : LsqInv L n) (hnm : n ≤ m) :
    LsqInv L m :=
  ⟨h.len, h.head0, h.sizeLe, h.tailEq, h.dom, h.seqMono,
    fun j e he => lt_of_lt_of_le (h.seqLt j e he) hnm, h.wf⟩

theorem RobInv_mono (R : ReorderBuffer) (n m : Nat) (h : RobInv R n) (hnm : n ≤ m) :
    RobInv R m :=
  ⟨h.len, h.headLt, h.sizeLe, h.tailEq, h.dom,
    fun j i hi => by
      rcases h.seqSome j i hi with ⟨s, hs1, hs2⟩
      exact ⟨s, hs1, lt_of_lt_of_le hs2 hnm⟩, h.seqMono⟩

theorem rob_allocate_not_full (R : ReorderBuffer) (i : Instruction)
    (hfull : R.is_full = false) :
    R.allocate i = (⟨R.capacity, R.entries.set R.tail (some i), R.head,
      (R.tail + 1) % R.capacity, R.size + 1⟩, some R.tail) := by
  unfold ReorderBuffer.allocate
  rw [if_neg (by rw [hfull]; exact Bool.false_ne_true)]

theorem lsq_allocate_cases (L : LoadStoreQueue) (seq pc : Nat) (op : MemOpType)
    (sz : Nat) :
    (L.is_full = true ∧ L.allocate seq pc op sz = (L, none)) ∨
    (L.is_full = false ∧ L.allocate seq pc op sz =
      (⟨L.capacity, L.entries.set L.tail
          (some { seq_num := seq, pc := pc, op_type := op, size := sz }),
        L.head, (L.tail + 1) % L.capacity, L.size + 1⟩, some L.tail)) := by
  by_cases hfull : L.is_full = true
  · left
    refine ⟨hfull, ?_⟩
    unfold LoadStoreQueue.allocate
    rw [if_pos hfull]
  · right
    refine ⟨by simpa using hfull, ?_⟩
    unfold LoadStoreQueue.allocate
    rw [if_neg hfull]

theorem RobInv_alloc (R : ReorderBuffer) (nextSeq : Nat) (hinv : RobInv R nextSeq)
    (i2 : Instruction) (hfull : R.is_full = false) (hseq : i2.seq_num = some nextSeq) :
    RobInv ⟨R.capacity, R.entries.set R.tail (some i2), R.head,
      (R.tail + 1) % R.capacity, R.size + 1⟩ (nextSeq + 1) := by
  have hszcap : R.size < R.capacity := by
    unfold ReorderBuffer.is_full at hfull
    simpa using hfull
  have hcap : 0 < R.capacity := by omega
  have hhead : R.head < R.capacity := hinv.headLt (by omega)
  have hdt : ringDist R.capacity R.head R.tail = R.size := by
    rw [hinv.tailEq]
    exact ringDist_tail _ _ _ hhead hszcap
  have htcap : R.tail < R.capacity := by
    rw [hinv.tailEq]
    exact Nat.mod_lt _ hcap
  refine ⟨?_, ?_, ?_, ?_, ?_, ?_, ?_⟩
  · dsimp only
    rw [List.length_set, hinv.len]
  · intro _
    exact hhead
  · dsimp only
    omega
  · dsimp only
    rw [hinv.tailEq, Nat.mod_add_mod, Nat.add_assoc]
  · intro j
    dsimp only
    constructor
    · intro ⟨i', hi'⟩
      rcases get?_set_cases _ _ _ _ _ hi' with ⟨he, _, _⟩ | ⟨he, hget⟩
      · subst he
        exact ⟨htcap, by omega⟩
      · have := (hinv.dom j).mp ⟨i', hget⟩
        exact ⟨this.1, by omega⟩
    · intro ⟨hj, hd⟩
      by_cases he : j = R.tail
      · subst he
        exact ⟨i2, List.get?_set_eq_of_lt _ (by rw [hinv.len]; exact htcap)⟩
      · have hds : ringDist R.capacity R.head j < R.size := by
          rcases Nat.lt_or_ge (ringDist R.capacity R.head j) R.size with hx | hx
          · exact hx
          · exfalso
            have : ringDist R.capacity R.head j = R.size := by omega
            exact he (ringDist_inj _ _ _ _ hhead hj htcap (by rw [this, hdt]))
        rcases (hinv.dom j).mpr ⟨hj, hds⟩ with ⟨i', hget⟩
        exact ⟨i', by rw [List.get?_set_ne _ _ (fun hx => he hx.symm)]; exact hget⟩
  · intro j i' hi'
    dsimp only at hi'
    rcases get?_set_cases _ _ _ _ _ hi' with ⟨_, hx, _⟩ | ⟨_, hx⟩
    · injection hx with hxb
      subst hxb
      exact ⟨nextSeq, hseq, by omega⟩
    · rcases hinv.seqSome j i' hx with ⟨s, hs1, hs2⟩
      exact ⟨s, hs1, by omega⟩
  · intro j1 j2 i1' i2' h1 h2 hd
    dsimp only at h1 h2 hd
    rcases get?_set_cases _ _ _ _ _ h1 with ⟨he1, hx1, _⟩ | ⟨he1, hx1⟩ <;>
      rcases get?_set_cases _ _ _ _ _ h2 with ⟨he2, hx2, _⟩ | ⟨he2, hx2⟩
    · subst he1
      subst he2
      omega
    · exfalso
      subst he1
      have hj2 : j2 < R.capacity := ((hinv.dom j2).mp ⟨i2', hx2⟩).1
      have hd2 : ringDist R.capacity R.head j2 < R.size :=
        ((hinv.dom j2).mp ⟨i2', hx2⟩).2
      rw [hdt] at hd
      omega
    · subst he2
      injection hx2 with hx2b
      subst hx2b
      have hd1 : ringDist R.capacity R.head j1 < R.size :=
        ((hinv.dom j1).mp ⟨i1', hx1⟩).2
      rcases hinv.seqSome j1 i1' hx1 with ⟨s, hs1, hs2⟩
      rw [hseq, hs1]
      dsimp only [Option.getD]
      omega
    · exact hinv.seqMono j1 j2 i1' i2' hx1 hx2 hd

theorem Inv_issue (p : Pipeline) (i : Instruction) (hfresh : i.Fresh) (hinv : Inv p) :
    Inv (p.issue_instruction i).1 := by
  obtain ⟨hseqn, hlsqi, haddr, hdata, hiss, hexe, hcmp, hcomm, hspc⟩ := hfresh
  by_cases hfull : p.rob.is_full = true
  · simp only [Pipeline.issue_instruction, if_pos hfull]
    exact hinv
  · replace hfull : p.rob.is_full = false := by
      cases h2 : p.rob.is_full
      · rfl
      · exact absurd h2 hfull
    have hnfull : ¬ p.rob.is_full = true := by
      rw [hfull]
      exact Bool.false_ne_true
    simp only [Pipeline.issue_instruction, if_neg hnfull,
      rob_allocate_not_full p.rob i hfull]
    by_cases hmem : i.instr_type = InstructionType.LOAD ∨
        i.instr_type = InstructionType.STORE
    · rw [if_pos hmem]
      rcases lsq_allocate_cases p.lsq p.next_seq_num i.pc
          (if i.instr_type = InstructionType.LOAD then MemOpType.LOAD
            else MemOpType.STORE) 4 with ⟨hlf, hla⟩ | ⟨hlf, hla⟩
      · rw [hla]
        dsimp only
        -- LSQ full: the instruction sits in the ROB with issued = false
        refine ⟨LsqInv_mono _ _ _ hinv.lsq (Nat.le_succ _), ?_, ?_, ?_, ?_, ?_⟩
        · rw [List.set_set]
          refine RobInv_alloc p.rob p.next_seq_num hinv.rob _ hfull ?_
          rfl
        · intro j i' hi'
          dsimp only at hi'
          rw [List.set_set] at hi'
          rcases get?_set_cases _ _ _ _ _ hi' with ⟨_, hx, _⟩ | ⟨_, hx⟩
          · injection hx with hxb
            subst hxb
            refine ⟨hcomm, ?_, ?_, ?_, ?_⟩ <;> intro h <;> simp [hcmp, hexe, hspc] at h
          · exact hinv.flags j i' hx
        · intro j i' hi'
          dsimp only at hi'
          rw [List.set_set] at hi'
          rcases get?_set_cases _ _ _ _ _ hi' with ⟨_, hx, _⟩ | ⟨_, hx⟩
          · injection hx with hxb
            subst hxb
            intro hiss2
            simp [hiss] at hiss2
          · exact hinv.link j i' hx
        · intro j i' hi'
          dsimp only at hi'
          rw [List.set_set] at hi'
          rcases get?_set_cases _ _ _ _ _ hi' with ⟨_, hx, _⟩ | ⟨_, hx⟩
          · injection hx with hxb
            subst hxb
            intro _ _ hc
            simp [hcmp] at hc
          · exact hinv.spec j i' hx
        · intro j i' hi'
          dsimp only at hi'
          rw [List.set_set] at hi'
          rcases get?_set_cases _ _ _ _ _ hi' with ⟨_, hx, _⟩ | ⟨_, hx⟩
          · injection hx with hxb
            subst hxb
            intro _ _ hc
            simp [hcmp] at hc
          · exact hinv.fwd j i' hx
      · rw [hla]
        dsimp only
        have hopA : (if i.instr_type = InstructionType.LOAD then MemOpType.LOAD
            else MemOpType.STORE) ≠ MemOpType.ATOMIC := by
          split <;> intro h <;> cases h
        have hlsq' := LsqInv_alloc p.lsq p.next_seq_num hinv.lsq p.next_seq_num i.pc
          _ hopA rfl hlf
        have hszcap : p.lsq.size < p.lsq.capacity := by
          unfold LoadStoreQueue.is_full at hlf
          simpa using hlf
        have htail : p.lsq.tail = p.lsq.size := by
          rw [hinv.lsq.tailEq, Nat.mod_eq_of_lt hszcap]
        have htlen : p.lsq.tail < p.lsq.entries.length := by
          rw [hinv.lsq.len]
          omega
        refine ⟨hlsq', ?_, ?_, ?_, ?_, ?_⟩
        · rw [List.set_set]
          refine RobInv_alloc p.rob p.next_seq_num hinv.rob _ hfull ?_
          rfl
        · intro j i' hi'
          dsimp only at hi'
          rw [List.set_set] at hi'
          rcases get?_set_cases _ _ _ _ _ hi' with ⟨_, hx, _⟩ | ⟨_, hx⟩
          · injection hx with hxb
            subst hxb
            refine ⟨hcomm, ?_, ?_, ?_, ?_⟩ <;> intro h <;> simp [hcmp, hexe, hspc] at h
          · exact hinv.flags j i' hx
        · intro j i' hi'
          dsimp only at hi'
          rw [List.set_set] at hi'
          rcases get?_set_cases _ _ _ _ _ hi' with ⟨_, hx, _⟩ | ⟨_, hx⟩
          · injection hx with hxb
            subst hxb
            intro _ _
            refine ⟨p.lsq.tail,
              { seq_num := p.next_seq_num, pc := i.pc,
                op_type := if i.instr_type = InstructionType.LOAD then MemOpType.LOAD
                  else MemOpType.STORE, size := 4 },
              rfl, ?_, ?_, rfl, ?_, ?_⟩
            · dsimp only
              omega
            · dsimp only
              exact List.get?_set_eq_of_lt _ htlen
            · intro hL
              dsimp only at hL ⊢
              rw [if_pos hL]
            · intro hS
              dsimp only at hS ⊢
              have hnl : ¬ i.instr_type = InstructionType.LOAD := by
                rw [hS]
                intro h2
                cases h2
              refine ⟨by rw [if_neg hnl], ?_, fun _ => rfl⟩
              intro hex
              simp [hexe] at hex
          · intro hiss2 hmem2
            rcases hinv.link j i' hx hiss2 hmem2 with ⟨li, e, h1, h2, h3, h4, h5, h6⟩
            have hne : p.lsq.tail ≠ li := by omega
            refine ⟨li, e, h1, ?_, ?_, h4, h5, h6⟩
            · dsimp only
              omega
            · dsimp only
              rw [List.get?_set_ne _ _ hne]
              exact h3
        · intro j i' hi'
          dsimp only at hi'
          rw [List.set_set] at hi'
          rcases get?_set_cases _ _ _ _ _ hi' with ⟨_, hx, _⟩ | ⟨_, hx⟩
          · injection hx with hxb
            subst hxb
            intro _ _ hc
            simp [hcmp] at hc
          · intro hL hsp hcp
            rcases hinv.spec j i' hx hL hsp hcp with
              ⟨a, li, e, ha, hli, hlis, hget, hav, hae, hdat, hcln⟩
            have hne : p.lsq.tail ≠ li := by omega
            refine ⟨a, li, e, ha, hli, ?_, ?_, hav, hae, hdat, ?_⟩
            · dsimp only
              omega
            · dsimp only
              rw [List.get?_set_ne _ _ hne]
              exact hget
            · intro q hq e2 he2 hop2
              have hqne : p.lsq.tail ≠ q := by omega
              dsimp only at he2
              rw [List.get?_set_ne _ _ hqne] at he2
              exact hcln q hq e2 he2 hop2
        · intro j i' hi'
          dsimp only at hi'
          rw [List.set_set] at hi'
          rcases get?_set_cases _ _ _ _ _ hi' with ⟨_, hx, _⟩ | ⟨_, hx⟩
          · injection hx with hxb
            subst hxb
            intro _ _ hc
            simp [hcmp] at hc
          · intro hL hsp hcp
            rcases hinv.fwd j i' hx hL hsp hcp with
              ⟨a, li, d, f, ha, hli, hlis, hflt, hfs, hef, hdat, hcln⟩
            have hneli : p.lsq.tail ≠ li := by omega
            have hnef : p.lsq.tail ≠ f := by omega
            refine ⟨a, li, d, f, ha, hli, ?_, hflt, ?_, ?_, hdat, ?_⟩
            · dsimp only
              omega
            · rcases hfs with ⟨ef, hef2, hrest⟩
              exact ⟨ef, by dsimp only; rw [List.get?_set_ne _ _ hnef]; exact hef2, hrest⟩
            · rcases hef with ⟨ef, hef1, hef2⟩
              exact ⟨ef, by dsimp only; rw [List.get?_set_ne _ _ hnef]; exact hef1, hef2⟩
            · intro q hq1 hq2 e2 he2 hop2
              have hqne : p.lsq.tail ≠ q := by omega
              dsimp only at he2
              rw [List.get?_set_ne _ _ hqne] at he2
              exact hcln q hq1 hq2 e2 he2 hop2
    · rw [if_neg hmem]
      dsimp only
      refine ⟨LsqInv_mono _ _ _ hinv.lsq (Nat.le_succ _), ?_, ?_, ?_, ?_, ?_⟩
      · rw [List.set_set]
        refine RobInv_alloc p.rob p.next_seq_num hinv.rob _ hfull ?_
        rfl
      · intro j i' hi'
        dsimp only at hi'
        rw [List.set_set] at hi'
        rcases get?_set_cases _ _ _ _ _ hi' with ⟨_, hx, _⟩ | ⟨_, hx⟩
        · injection hx with hxb
          subst hxb
          refine ⟨hcomm, ?_, ?_, ?_, ?_⟩ <;> intro h <;> simp [hcmp, hexe, hspc] at h
        · exact hinv.flags j i' hx
      · intro j i' hi'
        dsimp only at hi'
        rw [List.set_set] at hi'
        rcases get?_set_cases _ _ _ _ _ hi' with ⟨_, hx, _⟩ | ⟨_, hx⟩
        · injection hx with hxb
          subst hxb
          intro _ hmem2
          dsimp only at hmem2
          exact absurd hmem2 hmem
        · exact hinv.link j i' hx
      · intro j i' hi'
        dsimp only at hi'
        rw [List.set_set] at hi'
        rcases get?_set_cases _ _ _ _ _ hi' with ⟨_, hx, _⟩ | ⟨_, hx⟩
        · injection hx with hxb
          subst hxb
          intro _ _ hc
          simp [hcmp] at hc
        · exact hinv.spec j i' hx
      · intro j i' hi'
        dsimp only at hi'
        rw [List.set_set] at hi'
        rcases get?_set_cases _ _ _ _ _ hi' with ⟨_, hx, _⟩ | ⟨_, hx⟩
        · injection hx with hxb
          subst hxb
          intro _ _ hc
          simp [hcmp] at hc
        · exact hinv.fwd j i' hx

/-- The scan of `check_dependency` threads the queue through unchanged (shared
form of the read-only fact, used by the step-preservation lemmas). -/
theorem check_dependency_fst (q : LoadStoreQueue) (load_idx : Nat) :
    (q.check_dependency load_idx).1 = q := by
  unfold LoadStoreQueue.check_dependency
  cases h : q.entries.get? load_idx with
  | none => rfl
  | some o =>
    cases o with
    | none => rfl
    | some load_entry =>
      by_cases hv : load_entry.address_valid
      · simp only [hv, if_true]
        exact depFold_fst _ _ _ _ _
      · simp [hv]

/-- Distinct occupied ROB slots hold instructions with distinct sequence
numbers. -/
theorem rob_distinct_seq (R : ReorderBuffer) (nextSeq : Nat) (hinv : RobInv R nextSeq)
    (j1 j2 : Nat) (i1 i2 : Instruction)
    (h1 : R.entries.get? j1 = some (some i1)) (h2 : R.entries.get? j2 = some (some i2))
    (hne : j1 ≠ j2) : i1.seq_num.getD 0 ≠ i2.seq_num.getD 0 := by
  have hd1 := (hinv.dom j1).mp ⟨i1, h1⟩
  have hd2 := (hinv.dom j2).mp ⟨i2, h2⟩
  have hcap : 0 < R.capacity := by omega
  have hh : R.head < R.capacity := hinv.headLt (by omega)
  have hdd : ringDist R.capacity R.head j1 ≠ ringDist R.capacity R.head j2 := by
    intro hx
    exact hne (ringDist_inj _ _ _ _ hh hd1.1 hd2.1 hx)
  rcases Nat.lt_or_ge (ringDist R.capacity R.head j1) (ringDist R.capacity R.head j2)
    with hlt | hge
  · exact Nat.ne_of_lt (hinv.seqMono j1 j2 i1 i2 h1 h2 hlt)
  · have hlt2 : ringDist R.capacity R.head j2 < ringDist R.capacity R.head j1 := by
      omega
    exact (Nat.ne_of_lt (hinv.seqMono j2 j1 i2 i1 h2 h1 hlt2)).symm

/-- Two distinct occupied ROB slots holding issued memory instructions never
share an LSQ slot: the LSQ entry records one sequence number. -/
theorem rob_lsq_idx_inj (p : Pipeline) (hinv : Inv p) (j1 j2 li : Nat)
    (i1 i2 : Instruction)
    (h1 : p.rob.entries.get? j1 = some (some i1))
    (h2 : p.rob.entries.get? j2 = some (some i2))
    (hne : j1 ≠ j2)
    (hiss1 : i1.issued = true)
    (hm1 : i1.instr_type = InstructionType.LOAD ∨ i1.instr_type = InstructionType.STORE)
    (hl1 : i1.lsq_idx = some li)
    (hiss2 : i2.issued = true)
    (hm2 : i2.instr_type = InstructionType.LOAD ∨ i2.instr_type = InstructionType.STORE)
    (hl2 : i2.lsq_idx = some li) : False := by
  rcases hinv.link j1 i1 h1 hiss1 hm1 with ⟨la, ea, hla, _, hga, hsa, _, _⟩
  rcases hinv.link j2 i2 h2 hiss2 hm2 with ⟨lb, eb, hlb, _, hgb, hsb, _, _⟩
  rw [hl1] at hla
  rw [hl2] at hlb
  injection hla with hla2
  injection hlb with hlb2
  subst hla2
  subst hlb2
  rw [hga] at hgb
  injection hgb with hgb2
  injection hgb2 with hgb3
  subst hgb3
  exact rob_distinct_seq p.rob p.next_seq_num hinv.rob j1 j2 i1 i2 h1 h2 hne
    (by rw [← hsa, ← hsb])

/-- `modifyEntry` away from `q` preserves cleanliness at `q`. -/
theorem depClean_modify_ne (L : LoadStoreQueue) (li : Nat) (f : LSQEntry → LSQEntry)
    (a : Int) (q : Nat) (hne : li ≠ q) (hcl : depClean L.entries a q) :
    depClean (L.modifyEntry li f).entries a q := by
  intro e2 he2 hop2
  rw [modifyEntry_get_ne L li f q hne] at he2
  exact hcl e2 he2 hop2

/-- Modifying a slot that holds a load entry (with an op-preserving function)
keeps every slot clean that was clean. -/
theorem depClean_modify_load (L : LoadStoreQueue) (li : Nat) (f : LSQEntry → LSQEntry)
    (hlen : L.entries.length = L.capacity)
    (hopf : ∀ e2, (f e2).op_type = e2.op_type)
    (e : LSQEntry) (hle : L.entries.get? li = some (some e))
    (hopL : e.op_type = MemOpType.LOAD)
    (a : Int) (q : Nat) (hcl : depClean L.entries a q) :
    depClean (L.modifyEntry li f).entries a q := by
  intro e2 he2 hop2
  rcases modifyEntry_get_cases L li f q e2 hlen he2 with ⟨he, e0, hg0, hfe⟩ | ⟨_, hg⟩
  · subst he
    rw [hle] at hg0
    injection hg0 with hg0a
    injection hg0a with hg0b
    subst hg0b
    subst hfe
    rw [hopf, hopL] at hop2
    rcases hop2 with h3 | h3 <;> cases h3
  · exact hcl e2 hg hop2

/-- Modifying only status flags (op, address fields and size untouched)
preserves cleanliness at every slot. -/
theorem depClean_modify_flags (L : LoadStoreQueue) (li : Nat) (f : LSQEntry → LSQEntry)
    (hlen : L.entries.length = L.capacity)
    (hopf : ∀ e2, (f e2).op_type = e2.op_type)
    (havf : ∀ e2, (f e2).address_valid = e2.address_valid)
    (haf : ∀ e2, (f e2).address = e2.address)
    (hsf : ∀ e2, (f e2).size = e2.size)
    (a : Int) (q : Nat) (hcl : depClean L.entries a q) :
    depClean (L.modifyEntry li f).entries a q := by
  intro e2 he2 hop2
  rcases modifyEntry_get_cases L li f q e2 hlen he2 with ⟨he, e0, hg0, hfe⟩ | ⟨_, hg⟩
  · subst he
    subst hfe
    rw [hopf] at hop2
    rcases hcl e0 hg0 hop2 with ⟨hv, hov⟩
    exact ⟨by rw [havf]; exact hv, by rw [haf, hsf]; exact hov⟩
  · exact hcl e2 hg hop2

/-- `modifyEntry` away from `g` preserves a forwarding source at `g`. -/
theorem fwdSource_modify_ne (L : LoadStoreQueue) (li : Nat) (f : LSQEntry → LSQEntry)
    (a : Int) (g : Nat) (hne : li ≠ g) (hf : FwdSource L.entries a g) :
    FwdSource (L.modifyEntry li f).entries a g := by
  rcases hf with ⟨ef, hef, hrest⟩
  exact ⟨ef, by rw [modifyEntry_get_ne L li f g hne]; exact hef, hrest⟩

/-- Modifying a slot that holds a load entry (op preserved) cannot disturb a
forwarding source. -/
theorem fwdSource_modify_load (L : LoadStoreQueue) (li : Nat) (f : LSQEntry → LSQEntry)
    (hlen : L.entries.length = L.capacity)
    (hopf : ∀ e2, (f e2).op_type = e2.op_type)
    (e : LSQEntry) (hle : L.entries.get? li = some (some e))
    (hopL : e.op_type = MemOpType.LOAD)
    (a : Int) (g : Nat) (hf : FwdSource L.entries a g) :
    FwdSource (L.modifyEntry li f).entries a g := by
  by_cases hne : li = g
  · subst hne
    rcases hf with ⟨ef, hef, hop, _⟩
    rw [hle] at hef
    injection hef with hefa
    injection hefa with hefb
    subst hefb
    rw [hopL] at hop
    rcases hop with h3 | h3 <;> cases h3
  · exact fwdSource_modify_ne L li f a g hne hf

/-- Modifying only status flags preserves a forwarding source and its data. -/
theorem fwdSource_modify_flags (L : LoadStoreQueue) (li : Nat) (f : LSQEntry → LSQEntry)
    (hlen : L.entries.length = L.capacity)
    (hopf : ∀ e2, (f e2).op_type = e2.op_type)
    (havf : ∀ e2, (f e2).address_valid = e2.address_valid)
    (haf : ∀ e2, (f e2).address = e2.address)
    (hsf : ∀ e2, (f e2).size = e2.size)
    (hdvf : ∀ e2, (f e2).data_valid = e2.data_valid)
    (hdf : ∀ e2, (f e2).data = e2.data)
    (a : Int) (g : Nat) (d : Int)
    (hf : FwdSource L.entries a g)
    (hd : ∃ ef, L.entries.get? g = some (some ef) ∧ ef.data = some d) :
    FwdSource (L.modifyEntry li f).entries a g ∧
      ∃ ef, (L.modifyEntry li f).entries.get? g = some (some ef) ∧
        ef.data = some d := by
  by_cases hne : li = g
  · subst hne
    rcases hf with ⟨ef, hef, hop, hav, hdv, hada, hsz⟩
    rcases hd with ⟨ef2, hef2, hdat⟩
    rw [hef] at hef2
    injection hef2 with hefa
    injection hefa with hefb
    subst hefb
    have hget := modifyEntry_get_self L li f ef hlen hef
    refine ⟨⟨f ef, hget, by rw [hopf]; exact hop, by rw [havf]; exact hav,
      by rw [hdvf]; exact hdv, by rw [haf]; exact hada, by rw [hsf]; exact hsz⟩,
      f ef, hget, by rw [hdf]; exact hdat⟩
  · rcases hd with ⟨ef2, hef2, hdat⟩
    exact ⟨fwdSource_modify_ne L li f a g hne hf,
      ef2, by rw [modifyEntry_get_ne L li f g hne]; exact hef2, hdat⟩

/-- Completing an ALU instruction in its ROB slot (registers may change
arbitrarily; the invariant does not mention them). -/
theorem Inv_exec_alu (p : Pipeline) (idx : Nat) (i : Instruction) (regs : List Int)
    (hinv : Inv p) (hg : p.rob.entries.get? idx = some (some i))
    (hiss : i.issued = true)
    (htype : i.instr_type = InstructionType.ALU) :
    Inv { p with
      rob := { p.rob with
        entries :=
          p.rob.entries.set idx (some { i with executed := true, completed := true }) }
      registers := regs } := by
  have hflags := hinv.flags idx i hg
  refine ⟨hinv.lsq, ?_, ?_, ?_, ?_, ?_⟩
  · exact RobInv_update p.rob p.next_seq_num hinv.rob idx i _ hg rfl
  · intro j i' hi'
    dsimp only at hi'
    rcases get?_set_cases _ _ _ _ _ hi' with ⟨_, hx, _⟩ | ⟨_, hx⟩
    · injection hx with hxb
      subst hxb
      exact ⟨hflags.1, fun _ => rfl, fun _ => hiss,
        fun h => hflags.2.2.2.1 h, fun _ => rfl⟩
    · exact hinv.flags j i' hx
  · intro j i' hi'
    dsimp only at hi'
    rcases get?_set_cases _ _ _ _ _ hi' with ⟨_, hx, _⟩ | ⟨_, hx⟩
    · injection hx with hxb
      subst hxb
      intro _ hm
      dsimp only at hm
      rw [htype] at hm
      rcases hm with h3 | h3 <;> cases h3
    · exact hinv.link j i' hx
  · intro j i' hi'
    dsimp only at hi'
    rcases get?_set_cases _ _ _ _ _ hi' with ⟨_, hx, _⟩ | ⟨_, hx⟩
    · injection hx with hxb
      subst hxb
      intro hL
      dsimp only at hL
      rw [htype] at hL
      cases hL
    · exact hinv.spec j i' hx
  · intro j i' hi'
    dsimp only at hi'
    rcases get?_set_cases _ _ _ _ _ hi' with ⟨_, hx, _⟩ | ⟨_, hx⟩
    · injection hx with hxb
      subst hxb
      intro hL
      dsimp only at hL
      rw [htype] at hL
      cases hL
    · exact hinv.fwd j i' hx

/-- Transfer of the per-instruction memory invariants to a queue that differs
only at slot `li`, which is not the instruction's own slot. The disjunctive
`hli` hypothesis covers the two situations that occur: the update keeps slot
`li` clean, or slot `li` holds an unresolved store (making any cleanliness
claim about it contradictory). -/
theorem oldInstr_transfer (L : LoadStoreQueue) (mem : Memory) (li : Nat)
    (L' : LoadStoreQueue)
    (hsz : L'.size = L.size)
    (hne : ∀ q, q ≠ li → L'.entries.get? q = L.entries.get? q)
    (hli : (∀ a, depClean L.entries a li → depClean L'.entries a li) ∨
      (∃ es, L.entries.get? li = some (some es) ∧
        (es.op_type = MemOpType.STORE ∨ es.op_type = MemOpType.ATOMIC) ∧
        es.address_valid = false))
    (hfsrc : ∀ a d, FwdSource L.entries a li →
      (∃ ef, L.entries.get? li = some (some ef) ∧ ef.data = some d) →
      FwdSource L'.entries a li ∧
        ∃ ef, L'.entries.get? li = some (some ef) ∧ ef.data = some d)
    (i' : Instruction) (hIF : InstrFlags i')
    (hlj : i'.issued = true →
      (i'.instr_type = InstructionType.LOAD ∨ i'.instr_type = InstructionType.STORE) →
      ∀ lj, i'.lsq_idx = some lj → lj ≠ li)
    (hMem : MemLink L i') (hSpec : SpecLoadInv L mem i') (hFwd : FwdLoadInv L i') :
    MemLink L' i' ∧ SpecLoadInv L' mem i' ∧ FwdLoadInv L' i' := by
  refine ⟨?_, ?_, ?_⟩
  · intro hiss hm
    rcases hMem hiss hm with ⟨lj, e', h1, h2, h3, h4, h5, h6⟩
    have hljne := hlj hiss hm lj h1
    exact ⟨lj, e', h1, by rw [hsz]; exact h2, by rw [hne lj hljne]; exact h3,
      h4, h5, h6⟩
  · intro hL hs hc
    have hiss : i'.issued = true := hIF.2.2.1 (hIF.2.1 hc)
    rcases hSpec hL hs hc with ⟨a, lj, e', ha, hlje, hljsz, hget, hav, hae, hdat, hcln⟩
    have hljne := hlj hiss (Or.inl hL) lj hlje
    refine ⟨a, lj, e', ha, hlje, by rw [hsz]; exact hljsz,
      by rw [hne lj hljne]; exact hget, hav, hae, hdat, ?_⟩
    intro q hq
    by_cases hqe : q = li
    · subst hqe
      rcases hli with hli1 | ⟨es, hes, hesop, hesv⟩
      · exact hli1 a (hcln q hq)
      · exfalso
        rcases hcln q hq es hes hesop with ⟨hv, _⟩
        rw [hesv] at hv
        cases hv
    · intro e2 he2 hop2
      rw [hne q hqe] at he2
      exact hcln q hq e2 he2 hop2
  · intro hL hs hc
    have hiss : i'.issued = true := hIF.2.2.1 (hIF.2.1 hc)
    rcases hFwd hL hs hc with ⟨a, lj, d, f, ha, hlje, hljsz, hflt, hfs, hfd, hdat, hcln⟩
    have hljne := hlj hiss (Or.inl hL) lj hlje
    by_cases hfe : f = li
    · subst hfe
      rcases hfsrc a d hfs hfd with ⟨hfs', hfd'⟩
      refine ⟨a, lj, d, f, ha, hlje, by rw [hsz]; exact hljsz, hflt, hfs', hfd',
        hdat, ?_⟩
      intro q h1 h2 e2 he2 hop2
      rw [hne q (by omega)] at he2
      exact hcln q h1 h2 e2 he2 hop2
    · refine ⟨a, lj, d, f, ha, hlje, by rw [hsz]; exact hljsz, hflt, ?_, ?_, hdat, ?_⟩
      · rcases hfs with ⟨ef, hef, hrest⟩
        exact ⟨ef, by rw [hne f hfe]; exact hef, hrest⟩
      · rcases hfd with ⟨ef, hef, hdat2⟩
        exact ⟨ef, by rw [hne f hfe]; exact hef, hdat2⟩
      · intro q h1 h2
        by_cases hqe : q = li
        · subst hqe
          rcases hli with hli1 | ⟨es, hes, hesop, hesv⟩
          · exact hli1 a (hcln q h1 h2)
          · exfalso
            rcases hcln q h1 h2 es hes hesop with ⟨hv, _⟩
            rw [hesv] at hv
            cases hv
        · intro e2 he2 hop2
          rw [hne q hqe] at he2
          exact hcln q h1 h2 e2 he2 hop2

/-- Executing a load in its ROB slot preserves the invariant, in all three
outcomes (forwarded, stalled, speculative memory read). -/
theorem Inv_execute_load (p : Pipeline) (idx : Nat) (i : Instruction)
    (hinv : Inv p) (hg : p.rob.entries.get? idx = some (some i))
    (hiss : i.issued = true) (hexe : i.executed = false)
    (htype : i.instr_type = InstructionType.LOAD) :
    Inv (p.execute_load idx i).1 := by
  have hflags := hinv.flags idx i hg
  have hspec0 : i.speculative = false := by
    cases hs : i.speculative
    · rfl
    · rw [hflags.2.2.2.2 hs] at hexe
      cases hexe
  have hcmp0 : i.completed = false := by
    cases hc : i.completed
    · rfl
    · rw [hflags.2.1 hc] at hexe
      cases hexe
  have hncmp : ¬ i.completed = true := by
    rw [hcmp0]
    exact Bool.false_ne_true
  have hnspec : ¬ i.speculative = true := by
    rw [hspec0]
    exact Bool.false_ne_true
  have hnS : ¬ i.instr_type = InstructionType.STORE := by
    rw [htype]
    intro h3
    cases h3
  obtain ⟨li, e, hlsqi, hliSz, hle, heseq, hopL', _⟩ :=
    hinv.link idx i hg hiss (Or.inl htype)
  have hopL : e.op_type = MemOpType.LOAD := hopL' htype
  have hlen : p.lsq.entries.length = p.lsq.capacity := hinv.lsq.len
  have hsz4 : e.size = 4 := (hinv.lsq.wf li e hle).1
  have hliCap : li < p.lsq.capacity := by
    have := hinv.lsq.sizeLe
    omega
  have hq1get : (p.lsq.update_address li (loadAddress p.registers i)).entries.get? li =
      some (some { e with address := some (loadAddress p.registers i), address_valid := true }) :=
    modifyEntry_get_self p.lsq li
      (fun e2 => { e2 with address := some (loadAddress p.registers i), address_valid := true }) e hlen hle
  have hq1fields : (p.lsq.update_address li (loadAddress p.registers i)).capacity
        = p.lsq.capacity ∧
      (p.lsq.update_address li (loadAddress p.registers i)).head = p.lsq.head ∧
      (p.lsq.update_address li (loadAddress p.registers i)).tail = p.lsq.tail ∧
      (p.lsq.update_address li (loadAddress p.registers i)).size = p.lsq.size ∧
      (p.lsq.update_address li (loadAddress p.registers i)).entries.length
        = p.lsq.entries.length :=
    modifyEntry_fields p.lsq li _
  have hq1len : (p.lsq.update_address li (loadAddress p.registers i)).entries.length =
      (p.lsq.update_address li (loadAddress p.registers i)).capacity := by
    rw [hq1fields.2.2.2.2, hq1fields.1]
    exact hlen
  have hq1head : (p.lsq.update_address li (loadAddress p.registers i)).head = 0 := by
    rw [hq1fields.2.1]
    exact hinv.lsq.head0
  have hq1capli : li <
      (p.lsq.update_address li (loadAddress p.registers i)).capacity := by
    rw [hq1fields.1]
    exact hliCap
  have hlsq1 : LsqInv (p.lsq.update_address li (loadAddress p.registers i))
      p.next_seq_num :=
    LsqInv_modify p.lsq p.next_seq_num hinv.lsq li _
      (fun _ => rfl) (fun _ => rfl) (fun _ => rfl)
      (fun _ _ => fun _ => ⟨loadAddress p.registers i, rfl⟩)
  have hne1 : ∀ q, q ≠ li →
      (p.lsq.update_address li (loadAddress p.registers i)).entries.get? q =
        p.lsq.entries.get? q :=
    fun q hq => modifyEntry_get_ne p.lsq li _ q (fun h => hq h.symm)
  have hcl1 : ∀ (a : Int) (q : Nat), depClean p.lsq.entries a q →
      depClean (p.lsq.update_address li (loadAddress p.registers i)).entries a q :=
    fun a q hcl =>
      depClean_modify_load p.lsq li
        (fun e2 => { e2 with address := some (loadAddress p.registers i), address_valid := true })
        hlen (fun _ => rfl) e hle hopL a q hcl
  have hFWDli : ∀ (a : Int), FwdSource p.lsq.entries a li → False := by
    intro a hf
    rcases hf with ⟨ef, hef, hop, _⟩
    rw [hle] at hef
    injection hef with hefa
    injection hefa with hefb
    subst hefb
    rw [hopL] at hop
    rcases hop with h3 | h3 <;> cases h3
  have hOLD : ∀ j i', j ≠ idx → p.rob.entries.get? j = some (some i') →
      MemLink (p.lsq.update_address li (loadAddress p.registers i)) i' ∧
      SpecLoadInv (p.lsq.update_address li (loadAddress p.registers i)) p.memory i' ∧
      FwdLoadInv (p.lsq.update_address li (loadAddress p.registers i)) i' := by
    intro j i' hjne hx
    exact oldInstr_transfer p.lsq p.memory li _ hq1fields.2.2.2.1 hne1
      (Or.inl (fun a => hcl1 a li))
      (fun a d2 hf _ => (hFWDli a hf).elim)
      i' (hinv.flags j i' hx)
      (fun hiss' hm' lj hlje' heq =>
        rob_lsq_idx_inj p hinv j idx li i' i hx hg hjne hiss' hm'
          (by rw [hlje', heq]) hiss (Or.inl htype) hlsqi)
      (hinv.link j i' hx) (hinv.spec j i' hx) (hinv.fwd j i' hx)
  have hq2get : ((p.lsq.update_address li
        (loadAddress p.registers i)).mark_speculative li).entries.get? li =
      some (some { e with address := some (loadAddress p.registers i), address_valid := true, speculative := true }) :=
    modifyEntry_get_self _ li _ _ hq1len hq1get
  have hq2fields : ((p.lsq.update_address li
          (loadAddress p.registers i)).mark_speculative li).capacity
        = (p.lsq.update_address li (loadAddress p.registers i)).capacity ∧
      ((p.lsq.update_address li
          (loadAddress p.registers i)).mark_speculative li).head
        = (p.lsq.update_address li (loadAddress p.registers i)).head ∧
      ((p.lsq.update_address li
          (loadAddress p.registers i)).mark_speculative li).tail
        = (p.lsq.update_address li (loadAddress p.registers i)).tail ∧
      ((p.lsq.update_address li
          (loadAddress p.registers i)).mark_speculative li).size
        = (p.lsq.update_address li (loadAddress p.registers i)).size ∧
      ((p.lsq.update_address li
          (loadAddress p.registers i)).mark_speculative li).entries.length
        = (p.lsq.update_address li (loadAddress p.registers i)).entries.length :=
    modifyEntry_fields _ li _
  have hq2len : ((p.lsq.update_address li
        (loadAddress p.registers i)).mark_speculative li).entries.length =
      ((p.lsq.update_address li
        (loadAddress p.registers i)).mark_speculative li).capacity := by
    rw [hq2fields.2.2.2.2, hq2fields.1]
    exact hq1len
  have hq3get : (((p.lsq.update_address li
        (loadAddress p.registers i)).mark_speculative li).mark_completed
          li).entries.get? li =
      some (some { e with address := some (loadAddress p.registers i), address_valid := true, speculative := true, completed := true }) :=
    modifyEntry_get_self _ li _ _ hq2len hq2get
  have hq3fields : ((((p.lsq.update_address li
          (loadAddress p.registers i)).mark_speculative li).mark_completed
            li)).capacity
        = ((p.lsq.update_address li
            (loadAddress p.registers i)).mark_speculative li).capacity ∧
      ((((p.lsq.update_address li
          (loadAddress p.registers i)).mark_speculative li).mark_completed
            li)).head
        = ((p.lsq.update_address li
            (loadAddress p.registers i)).mark_speculative li).head ∧
      ((((p.lsq.update_address li
          (loadAddress p.registers i)).mark_speculative li).mark_completed
            li)).tail
        = ((p.lsq.update_address li
            (loadAddress p.registers i)).mark_speculative li).tail ∧
      ((((p.lsq.update_address li
          (loadAddress p.registers i)).mark_speculative li).mark_completed
            li)).size
        = ((p.lsq.update_address li
            (loadAddress p.registers i)).mark_speculative li).size ∧
      ((((p.lsq.update_address li
          (loadAddress p.registers i)).mark_speculative li).mark_completed
            li)).entries.length
        = ((p.lsq.update_address li
            (loadAddress p.registers i)).mark_speculative li).entries.length :=
    modifyEntry_fields _ li _
  have hq3size : (((p.lsq.update_address li
        (loadAddress p.registers i)).mark_speculative li).mark_completed li).size
      = p.lsq.size := by
    rw [hq3fields.2.2.2.1, hq2fields.2.2.2.1, hq1fields.2.2.2.1]
  have hlsq3 : LsqInv (((p.lsq.update_address li
        (loadAddress p.registers i)).mark_speculative li).mark_completed li)
      p.next_seq_num :=
    LsqInv_modify
      ((p.lsq.update_address li (loadAddress p.registers i)).mark_speculative li)
      p.next_seq_num
      (LsqInv_modify (p.lsq.update_address li (loadAddress p.registers i))
        p.next_seq_num hlsq1 li (fun e2 => { e2 with speculative := true })
        (fun _ => rfl) (fun _ => rfl) (fun _ => rfl) (fun _ h => h))
      li (fun e2 => { e2 with completed := true })
      (fun _ => rfl) (fun _ => rfl) (fun _ => rfl) (fun _ h => h)
  have hne3 : ∀ q, q ≠ li →
      (((p.lsq.update_address li
        (loadAddress p.registers i)).mark_speculative li).mark_completed
          li).entries.get? q = p.lsq.entries.get? q := by
    intro q hq
    have h3 := modifyEntry_get_ne
      ((p.lsq.update_address li (loadAddress p.registers i)).mark_speculative li) li
      (fun e2 => { e2 with completed := true }) q (fun h => hq h.symm)
    have h2 := modifyEntry_get_ne
      (p.lsq.update_address li (loadAddress p.registers i)) li
      (fun e2 => { e2 with speculative := true }) q (fun h => hq h.symm)
    have h1 := modifyEntry_get_ne p.lsq li
      (fun e2 => { e2 with address := some (loadAddress p.registers i), address_valid := true })
      q (fun h => hq h.symm)
    exact h3.trans (h2.trans h1)
  have hcl3 : ∀ (a : Int) (q : Nat), depClean p.lsq.entries a q →
      depClean (((p.lsq.update_address li
        (loadAddress p.registers i)).mark_speculative li).mark_completed
          li).entries a q :=
    fun a q hcl =>
      depClean_modify_flags
        ((p.lsq.update_address li (loadAddress p.registers i)).mark_speculative li)
        li (fun e2 => { e2 with completed := true }) hq2len (fun _ => rfl)
        (fun _ => rfl) (fun _ => rfl) (fun _ => rfl) a q
        (depClean_modify_flags (p.lsq.update_address li (loadAddress p.registers i))
          li (fun e2 => { e2 with speculative := true }) hq1len (fun _ => rfl)
          (fun _ => rfl) (fun _ => rfl) (fun _ => rfl) a q (hcl1 a q hcl))
  have hclq13 : ∀ (a : Int) (q : Nat),
      depClean (p.lsq.update_address li (loadAddress p.registers i)).entries a q →
      depClean (((p.lsq.update_address li
        (loadAddress p.registers i)).mark_speculative li).mark_completed
          li).entries a q :=
    fun a q hcl =>
      depClean_modify_flags
        ((p.lsq.update_address li (loadAddress p.registers i)).mark_speculative li)
        li (fun e2 => { e2 with completed := true }) hq2len (fun _ => rfl)
        (fun _ => rfl) (fun _ => rfl) (fun _ => rfl) a q
        (depClean_modify_flags (p.lsq.update_address li (loadAddress p.registers i))
          li (fun e2 => { e2 with speculative := true }) hq1len (fun _ => rfl)
          (fun _ => rfl) (fun _ => rfl) (fun _ => rfl) a q hcl)
  have hOLD3 : ∀ j i', j ≠ idx → p.rob.entries.get? j = some (some i') →
      MemLink (((p.lsq.update_address li
          (loadAddress p.registers i)).mark_speculative li).mark_completed li) i' ∧
      SpecLoadInv (((p.lsq.update_address li
          (loadAddress p.registers i)).mark_speculative li).mark_completed li)
        p.memory i' ∧
      FwdLoadInv (((p.lsq.update_address li
          (loadAddress p.registers i)).mark_speculative li).mark_completed li) i' := by
    intro j i' hjne hx
    exact oldInstr_transfer p.lsq p.memory li _ hq3size hne3
      (Or.inl (fun a => hcl3 a li))
      (fun a d2 hf _ => (hFWDli a hf).elim)
      i' (hinv.flags j i' hx)
      (fun hiss' hm' lj hlje' heq =>
        rob_lsq_idx_inj p hinv j idx li i' i hx hg hjne hiss' hm'
          (by rw [hlje', heq]) hiss (Or.inl htype) hlsqi)
      (hinv.link j i' hx) (hinv.spec j i' hx) (hinv.fwd j i' hx)
  simp only [Pipeline.execute_load, hlsqi, Option.getD_some]
  rcases hE : (p.lsq.update_address li (loadAddress p.registers i)).check_dependency li
    with ⟨q2, hcf, fi, fd⟩
  have hq2eq : q2 = p.lsq.update_address li (loadAddress p.registers i) := by
    have h0 := check_dependency_fst
      (p.lsq.update_address li (loadAddress p.registers i)) li
    rw [hE] at h0
    exact h0
  subst hq2eq
  dsimp only
  cases fd with
  | some d =>
    obtain ⟨f, hflt, hfsrc2, hfdat2, hfclean⟩ := check_dependency_fwd
      (p.lsq.update_address li (loadAddress p.registers i)) li
      { e with address := some (loadAddress p.registers i), address_valid := true }
      d hq1head hq1capli hq1get rfl hsz4 (by rw [hE])
    dsimp only
    refine ⟨hlsq1, ?_, ?_, ?_, ?_, ?_⟩
    · exact RobInv_update p.rob p.next_seq_num hinv.rob idx i _ hg rfl
    · intro j i' hi'
      dsimp only at hi'
      rcases get?_set_cases _ _ _ _ _ hi' with ⟨_, hx, _⟩ | ⟨hjne, hx⟩
      · injection hx with hxb
        subst hxb
        exact ⟨hflags.1, fun _ => rfl, fun _ => hiss, fun _ => htype, fun _ => rfl⟩
      · exact hinv.flags j i' hx
    · intro j i' hi'
      dsimp only at hi'
      rcases get?_set_cases _ _ _ _ _ hi' with ⟨_, hx, _⟩ | ⟨hjne, hx⟩
      · injection hx with hxb
        subst hxb
        intro _ _
        refine ⟨li, { e with address := some (loadAddress p.registers i), address_valid := true }, rfl, ?_, hq1get, heseq, fun _ => hopL,
          fun h => absurd h hnS⟩
        rw [hq1fields.2.2.2.1]
        exact hliSz
      · exact (hOLD j i' hjne hx).1
    · intro j i' hi'
      dsimp only at hi'
      rcases get?_set_cases _ _ _ _ _ hi' with ⟨_, hx, _⟩ | ⟨hjne, hx⟩
      · injection hx with hxb
        subst hxb
        intro _ hs _
        exact absurd hs hnspec
      · exact (hOLD j i' hjne hx).2.1
    · intro j i' hi'
      dsimp only at hi'
      rcases get?_set_cases _ _ _ _ _ hi' with ⟨_, hx, _⟩ | ⟨hjne, hx⟩
      · injection hx with hxb
        subst hxb
        intro _ _ _
        refine ⟨loadAddress p.registers i, li, d, f, rfl, rfl, ?_, hflt,
          hfsrc2, hfdat2, rfl, hfclean⟩
        rw [hq1fields.2.2.2.1]
        exact hliSz
      · exact (hOLD j i' hjne hx).2.2
  | none =>
    dsimp only
    rcases hP : p.predictor.predict_load i.pc with ⟨pred1, cansp, wt⟩
    dsimp only
    by_cases hgd : (!cansp || hcf) = true
    · rw [if_pos hgd]
      refine ⟨hlsq1, ?_, ?_, ?_, ?_, ?_⟩
      · exact RobInv_update p.rob p.next_seq_num hinv.rob idx i _ hg rfl
      · intro j i' hi'
        dsimp only at hi'
        rcases get?_set_cases _ _ _ _ _ hi' with ⟨_, hx, _⟩ | ⟨hjne, hx⟩
        · injection hx with hxb
          subst hxb
          exact ⟨hflags.1, fun h => absurd h hncmp, fun _ => hiss,
            fun _ => htype, fun h => absurd h hnspec⟩
        · exact hinv.flags j i' hx
      · intro j i' hi'
        dsimp only at hi'
        rcases get?_set_cases _ _ _ _ _ hi' with ⟨_, hx, _⟩ | ⟨hjne, hx⟩
        · injection hx with hxb
          subst hxb
          intro _ _
          refine ⟨li, { e with address := some (loadAddress p.registers i), address_valid := true }, rfl, ?_, hq1get, heseq, fun _ => hopL,
            fun h => absurd h hnS⟩
          rw [hq1fields.2.2.2.1]
          exact hliSz
        · exact (hOLD j i' hjne hx).1
      · intro j i' hi'
        dsimp only at hi'
        rcases get?_set_cases _ _ _ _ _ hi' with ⟨_, hx, _⟩ | ⟨hjne, hx⟩
        · injection hx with hxb
          subst hxb
          intro _ _ hc
          exact absurd hc hncmp
        · exact (hOLD j i' hjne hx).2.1
      · intro j i' hi'
        dsimp only at hi'
        rcases get?_set_cases _ _ _ _ _ hi' with ⟨_, hx, _⟩ | ⟨hjne, hx⟩
        · injection hx with hxb
          subst hxb
          intro _ _ hc
          exact absurd hc hncmp
        · exact (hOLD j i' hjne hx).2.2
    · rw [if_neg hgd]
      have hcf0 : hcf = false := by
        cases hcf with
        | false => rfl
        | true => exact absurd (by simp) hgd
      have hnoconf := check_dependency_noconf
        (p.lsq.update_address li (loadAddress p.registers i)) li
        { e with address := some (loadAddress p.registers i), address_valid := true }
        hq1head hq1capli hq1get rfl hsz4 (by rw [hE, hcf0])
      dsimp only
      refine ⟨hlsq3, ?_, ?_, ?_, ?_, ?_⟩
      · exact RobInv_update p.rob p.next_seq_num hinv.rob idx i _ hg rfl
      · intro j i' hi'
        dsimp only at hi'
        rcases get?_set_cases _ _ _ _ _ hi' with ⟨_, hx, _⟩ | ⟨hjne, hx⟩
        · injection hx with hxb
          subst hxb
          exact ⟨hflags.1, fun _ => rfl, fun _ => hiss, fun _ => htype,
            fun _ => rfl⟩
        · exact hinv.flags j i' hx
      · intro j i' hi'
        dsimp only at hi'
        rcases get?_set_cases _ _ _ _ _ hi' with ⟨_, hx, _⟩ | ⟨hjne, hx⟩
        · injection hx with hxb
          subst hxb
          intro _ _
          refine ⟨li, { e with address := some (loadAddress p.registers i), address_valid := true, speculative := true, completed := true },
            rfl, ?_, hq3get, heseq, fun _ => hopL, fun h => absurd h hnS⟩
          rw [hq3size]
          exact hliSz
        · exact (hOLD3 j i' hjne hx).1
      · intro j i' hi'
        dsimp only at hi'
        rcases get?_set_cases _ _ _ _ _ hi' with ⟨_, hx, _⟩ | ⟨hjne, hx⟩
        · injection hx with hxb
          subst hxb
          intro _ _ _
          refine ⟨loadAddress p.registers i, li,
            { e with address := some (loadAddress p.registers i), address_valid := true, speculative := true, completed := true },
            rfl, rfl, ?_, hq3get, rfl, rfl, rfl, ?_⟩
          · rw [hq3size]
            exact hliSz
          · intro q hq
            exact hclq13 _ q (hnoconf q hq)
        · exact (hOLD3 j i' hjne hx).2.1
      · intro j i' hi'
        dsimp only at hi'
        rcases get?_set_cases _ _ _ _ _ hi' with ⟨_, hx, _⟩ | ⟨hjne, hx⟩
        · injection hx with hxb
          subst hxb
          intro _ hs _
          exact Bool.noConfusion hs
        · exact (hOLD3 j i' hjne hx).2.2

/-- Core of the store-execution preservation: executing a store writes its
resolved address and data into its LSQ entry and completes it. -/
theorem Inv_store_aux (p : Pipeline) (idx : Nat) (i : Instruction) (li : Nat)
    (addr data : Int) (e : LSQEntry)
    (hinv : Inv p) (hg : p.rob.entries.get? idx = some (some i))
    (hiss : i.issued = true) (hexe : i.executed = false)
    (htype : i.instr_type = InstructionType.STORE)
    (hlsqi : i.lsq_idx = some li)
    (hle : p.lsq.entries.get? li = some (some e))
    (heseq : e.seq_num = i.seq_num.getD 0)
    (hopS : e.op_type = MemOpType.STORE)
    (havF : e.address_valid = false)
    (hliSz : li < p.lsq.size) :
    Inv { p with
      rob := { p.rob with
        entries := p.rob.entries.set idx
          (some { i with lsq_idx := some li, address := some addr, data := some data, executed := true, completed := true }) }
      lsq := ((p.lsq.update_address li addr).update_data li data).mark_completed li
      stores_executed := p.stores_executed + 1 } := by
  have hflags := hinv.flags idx i hg
  have hspec0 : i.speculative = false := by
    cases hs : i.speculative
    · rfl
    · rw [hflags.2.2.2.2 hs] at hexe
      cases hexe
  have hnspec : ¬ i.speculative = true := by
    rw [hspec0]
    exact Bool.false_ne_true
  have hnL : ¬ i.instr_type = InstructionType.LOAD := by
    rw [htype]
    intro h3
    cases h3
  have hlen : p.lsq.entries.length = p.lsq.capacity := hinv.lsq.len
  have hliCap : li < p.lsq.capacity := by
    have := hinv.lsq.sizeLe
    omega
  have hq1get : (p.lsq.update_address li addr).entries.get? li =
      some (some { e with address := some addr, address_valid := true }) :=
    modifyEntry_get_self p.lsq li
      (fun e2 => { e2 with address := some addr, address_valid := true }) e hlen hle
  have hq1fields : (p.lsq.update_address li addr).capacity = p.lsq.capacity ∧
      (p.lsq.update_address li addr).head = p.lsq.head ∧
      (p.lsq.update_address li addr).tail = p.lsq.tail ∧
      (p.lsq.update_address li addr).size = p.lsq.size ∧
      (p.lsq.update_address li addr).entries.length = p.lsq.entries.length :=
    modifyEntry_fields p.lsq li _
  have hq1len : (p.lsq.update_address li addr).entries.length =
      (p.lsq.update_address li addr).capacity := by
    rw [hq1fields.2.2.2.2, hq1fields.1]
    exact hlen
  have hlsq1 : LsqInv (p.lsq.update_address li addr) p.next_seq_num :=
    LsqInv_modify p.lsq p.next_seq_num hinv.lsq li
      (fun e2 => { e2 with address := some addr, address_valid := true })
      (fun _ => rfl) (fun _ => rfl) (fun _ => rfl)
      (fun _ _ => fun _ => ⟨addr, rfl⟩)
  have hq2get : ((p.lsq.update_address li addr).update_data li data).entries.get? li =
      some (some { e with address := some addr, address_valid := true, data := some data, data_valid := true }) := by
    have h0 := modifyEntry_get_self (p.lsq.update_address li addr) li
      (fun e2 => if e2.op_type = MemOpType.STORE
        then { e2 with data := some data, data_valid := true } else e2)
      { e with address := some addr, address_valid := true } hq1len hq1get
    dsimp only at h0
    rw [if_pos hopS] at h0
    exact h0
  have hq2fields : ((p.lsq.update_address li addr).update_data li data).capacity
        = (p.lsq.update_address li addr).capacity ∧
      ((p.lsq.update_address li addr).update_data li data).head
        = (p.lsq.update_address li addr).head ∧
      ((p.lsq.update_address li addr).update_data li data).tail
        = (p.lsq.update_address li addr).tail ∧
      ((p.lsq.update_address li addr).update_data li data).size
        = (p.lsq.update_address li addr).size ∧
      ((p.lsq.update_address li addr).update_data li data).entries.length
        = (p.lsq.update_address li addr).entries.length :=
    modifyEntry_fields _ li _
  have hq2len : ((p.lsq.update_address li addr).update_data li data).entries.length =
      ((p.lsq.update_address li addr).update_data li data).capacity := by
    rw [hq2fields.2.2.2.2, hq2fields.1]
    exact hq1len
  have hlsq2 : LsqInv ((p.lsq.update_address li addr).update_data li data)
      p.next_seq_num :=
    LsqInv_modify (p.lsq.update_address li addr) p.next_seq_num hlsq1 li
      (fun e2 => if e2.op_type = MemOpType.STORE
        then { e2 with data := some data, data_valid := true } else e2)
      (fun e2 => by dsimp only; split <;> rfl)
      (fun e2 => by dsimp only; split <;> rfl)
      (fun e2 => by dsimp only; split <;> rfl)
      (fun e2 h => by dsimp only; split
                      · exact h
                      · exact h)
  have hq3get : (((p.lsq.update_address li addr).update_data li
        data).mark_completed li).entries.get? li =
      some (some { e with address := some addr, address_valid := true, data := some data, data_valid := true, completed := true }) :=
    modifyEntry_get_self _ li _ _ hq2len hq2get
  have hq3fields : ((((p.lsq.update_address li addr).update_data li
          data).mark_completed li)).capacity
        = ((p.lsq.update_address li addr).update_data li data).capacity ∧
      ((((p.lsq.update_address li addr).update_data li
          data).mark_completed li)).head
        = ((p.lsq.update_address li addr).update_data li data).head ∧
      ((((p.lsq.update_address li addr).update_data li
          data).mark_completed li)).tail
        = ((p.lsq.update_address li addr).update_data li data).tail ∧
      ((((p.lsq.update_address li addr).update_data li
          data).mark_completed li)).size
        = ((p.lsq.update_address li addr).update_data li data).size ∧
      ((((p.lsq.update_address li addr).update_data li
          data).mark_completed li)).entries.length
        = ((p.lsq.update_address li addr).update_data li data).entries.length :=
    modifyEntry_fields _ li _
  have hq3size : (((p.lsq.update_address li addr).update_data li
        data).mark_completed li).size = p.lsq.size := by
    rw [hq3fields.2.2.2.1, hq2fields.2.2.2.1, hq1fields.2.2.2.1]
  have hlsq3 : LsqInv (((p.lsq.update_address li addr).update_data li
        data).mark_completed li) p.next_seq_num :=
    LsqInv_modify ((p.lsq.update_address li addr).update_data li data)
      p.next_seq_num hlsq2 li (fun e2 => { e2 with completed := true })
      (fun _ => rfl) (fun _ => rfl) (fun _ => rfl) (fun _ h => h)
  have hne3 : ∀ q, q ≠ li →
      ((((p.lsq.update_address li addr).update_data li
        data).mark_completed li)).entries.get? q = p.lsq.entries.get? q := by
    intro q hq
    have h3 := modifyEntry_get_ne ((p.lsq.update_address li addr).update_data li data)
      li (fun e2 => { e2 with completed := true }) q (fun h => hq h.symm)
    have h2 := modifyEntry_get_ne (p.lsq.update_address li addr) li
      (fun e2 => if e2.op_type = MemOpType.STORE
        then { e2 with data := some data, data_valid := true } else e2)
      q (fun h => hq h.symm)
    have h1 := modifyEntry_get_ne p.lsq li
      (fun e2 => { e2 with address := some addr, address_valid := true })
      q (fun h => hq h.symm)
    exact h3.trans (h2.trans h1)
  have hOLD : ∀ j i', j ≠ idx → p.rob.entries.get? j = some (some i') →
      MemLink (((p.lsq.update_address li addr).update_data li
        data).mark_completed li) i' ∧
      SpecLoadInv (((p.lsq.update_address li addr).update_data li
        data).mark_completed li) p.memory i' ∧
      FwdLoadInv (((p.lsq.update_address li addr).update_data li
        data).mark_completed li) i' := by
    intro j i' hjne hx
    exact oldInstr_transfer p.lsq p.memory li _ hq3size hne3
      (Or.inr ⟨e, hle, Or.inl hopS, havF⟩)
      (fun a d2 hf _ => by
        exfalso
        rcases hf with ⟨ef, hef, _, hav, _⟩
        rw [hle] at hef
        injection hef with hefa
        injection hefa with hefb
        subst hefb
        rw [havF] at hav
        cases hav)
      i' (hinv.flags j i' hx)
      (fun hiss' hm' lj hlje' heq =>
        rob_lsq_idx_inj p hinv j idx li i' i hx hg hjne hiss' hm'
          (by rw [hlje', heq]) hiss (Or.inr htype) hlsqi)
      (hinv.link j i' hx) (hinv.spec j i' hx) (hinv.fwd j i' hx)
  refine ⟨hlsq3, ?_, ?_, ?_, ?_, ?_⟩
  · exact RobInv_update p.rob p.next_seq_num hinv.rob idx i _ hg rfl
  · intro j i' hi'
    dsimp only at hi'
    rcases get?_set_cases _ _ _ _ _ hi' with ⟨_, hx, _⟩ | ⟨hjne, hx⟩
    · injection hx with hxb
      subst hxb
      exact ⟨hflags.1, fun _ => rfl, fun _ => hiss,
        fun h => absurd h hnspec, fun _ => rfl⟩
    · exact hinv.flags j i' hx
  · intro j i' hi'
    dsimp only at hi'
    rcases get?_set_cases _ _ _ _ _ hi' with ⟨_, hx, _⟩ | ⟨hjne, hx⟩
    · injection hx with hxb
      subst hxb
      intro _ _
      refine ⟨li, { e with address := some addr, address_valid := true, data := some data, data_valid := true, completed := true },
        rfl, ?_, hq3get, heseq, fun h => absurd h hnL, ?_⟩
      · rw [hq3size]
        exact hliSz
      · intro _
        exact ⟨hopS, fun _ => ⟨rfl, rfl, rfl, rfl⟩, fun h => Bool.noConfusion h⟩
    · exact (hOLD j i' hjne hx).1
  · intro j i' hi'
    dsimp only at hi'
    rcases get?_set_cases _ _ _ _ _ hi' with ⟨_, hx, _⟩ | ⟨hjne, hx⟩
    · injection hx with hxb
      subst hxb
      intro hL
      dsimp only at hL
      exact absurd hL hnL
    · exact (hOLD j i' hjne hx).2.1
  · intro j i' hi'
    dsimp only at hi'
    rcases get?_set_cases _ _ _ _ _ hi' with ⟨_, hx, _⟩ | ⟨hjne, hx⟩
    · injection hx with hxb
      subst hxb
      intro hL
      dsimp only at hL
      exact absurd hL hnL
    · exact (hOLD j i' hjne hx).2.2

/-- Executing a store in its ROB slot preserves the invariant. -/
theorem Inv_execute_store (p : Pipeline) (idx : Nat) (i : Instruction)
    (hinv : Inv p) (hg : p.rob.entries.get? idx = some (some i))
    (hiss : i.issued = true) (hexe : i.executed = false)
    (htype : i.instr_type = InstructionType.STORE) :
    Inv (p.execute_store idx i).1 := by
  obtain ⟨li, e, hlsqi, hliSz, hle, heseq, _, hopS'⟩ :=
    hinv.link idx i hg hiss (Or.inr htype)
  obtain ⟨hopS, _, hunex⟩ := hopS' htype
  have havF := hunex hexe
  simp only [Pipeline.execute_store, hlsqi]
  exact Inv_store_aux p idx i li _ _ e hinv hg hiss hexe htype hlsqi hle heseq
    hopS havF hliSz

/-- Executing any ROB slot preserves the invariant. -/
theorem Inv_exec (p : Pipeline) (idx : Nat) (hinv : Inv p) :
    Inv (p.execute_at idx).1 := by
  cases hg : p.rob.entries.get? idx with
  | none =>
    simp only [Pipeline.execute_at, hg]
    exact hinv
  | some o =>
    cases o with
    | none =>
      simp only [Pipeline.execute_at, hg]
      exact hinv
    | some i =>
      simp only [Pipeline.execute_at, hg]
      by_cases hguard : (!i.issued || i.executed) = true
      · rw [if_pos hguard]
        exact hinv
      · rw [if_neg hguard]
        have hiss : i.issued = true := by
          cases h1 : i.issued
          · exfalso
            apply hguard
            rw [h1]
            rfl
          · rfl
        have hexe : i.executed = false := by
          cases h2 : i.executed
          · rfl
          · exfalso
            apply hguard
            rw [h2]
            simp
        split
        · rename_i htype
          exact Inv_exec_alu p idx i _ hinv hg hiss htype
        · rename_i htype
          exact Inv_execute_load p idx i hinv hg hiss hexe htype
        · rename_i htype
          exact Inv_execute_store p idx i hinv hg hiss hexe htype
        · exact hinv

/-- Committing (retiring the ROB head, when possible) preserves the invariant.
The violation-recovery branch is unreachable: a completed speculative load
always re-validates clean, because its prefix of the LSQ was clean when it
executed and LSQ entries never change address afterwards. -/
theorem Inv_commit (p : Pipeline) (hinv : Inv p) : Inv (p.commit_instruction).1 := by
  rcases commit_head_cases p.rob with ⟨hres, hrob⟩ | ⟨i0, hget, hcomp, hne, hres, hrob⟩
  · simp only [Pipeline.commit_instruction, hres, hrob]
    exact hinv
  · have hIF0 := hinv.flags p.rob.head i0 hget
    have hexe0 : i0.executed = true := hIF0.2.1 hcomp
    have hiss0 : i0.issued = true := hIF0.2.2.1 hexe0
    have hrobinv : RobInv ⟨p.rob.capacity, p.rob.entries.set p.rob.head none,
        (p.rob.head + 1) % p.rob.capacity, p.rob.tail, p.rob.size - 1⟩
        p.next_seq_num :=
      RobInv_pop p.rob p.next_seq_num hinv.rob i0 hget hne
    have hseq0lt : ∀ j i', j ≠ p.rob.head → p.rob.entries.get? j = some (some i') →
        i0.seq_num.getD 0 < i'.seq_num.getD 0 := by
      intro j i' hjne hx
      have hdj := (hinv.rob.dom j).mp ⟨i', hx⟩
      have hcap : 0 < p.rob.capacity := by omega
      have hh : p.rob.head < p.rob.capacity := hinv.rob.headLt (by omega)
      have hd0 : ringDist p.rob.capacity p.rob.head p.rob.head = 0 :=
        ringDist_self _ _
      have hdpos : 0 < ringDist p.rob.capacity p.rob.head j := by
        rcases Nat.eq_zero_or_pos (ringDist p.rob.capacity p.rob.head j) with h0 | h0
        · exact absurd (ringDist_zero_head _ _ _ hh hdj.1 h0) hjne
        · exact h0
      exact hinv.rob.seqMono p.rob.head j i0 i' hget hx (by omega)
    simp only [Pipeline.commit_instruction, hres, hrob]
    by_cases hLS : i0.instr_type = InstructionType.LOAD ∧ i0.speculative = true
    · rw [if_pos hLS]
      obtain ⟨a, li, e, ha, hlsqi, hliSz, hle, hav, hae, hdat, hcln⟩ :=
        hinv.spec p.rob.head i0 hget hLS.1 hLS.2 hcomp
      have hsz4 : e.size = 4 := (hinv.lsq.wf li e hle).1
      have hliCap : li < p.lsq.capacity := by
        have := hinv.lsq.sizeLe
        omega
      have hclean2 : ∀ qq, qq < li → depClean p.lsq.entries (e.address.getD 0) qq := by
        rw [hae]
        exact hcln
      have hval : (p.lsq.check_dependency li).2 = (false, none, none) :=
        check_dependency_of_clean p.lsq li e hinv.lsq.head0 hliCap hle hav hsz4 hclean2
      have hvd : ∀ (pp : Pipeline), pp.lsq = p.lsq →
          pp.validate_load { i0 with committed := true } = false := by
        intro pp hpl
        unfold Pipeline.validate_load
        dsimp only
        rw [hlsqi]
        dsimp only
        rw [hpl, hval]
      split
      · rename_i hviol
        exact absurd hviol
          (fun hcontra => Bool.false_ne_true ((hvd _ rfl).symm.trans hcontra))
      refine ⟨hinv.lsq, hrobinv, ?_, ?_, ?_, ?_⟩
      · intro j i' hi'
        dsimp only at hi'
        rcases get?_set_cases _ _ _ _ _ hi' with ⟨_, hx, _⟩ | ⟨hjne, hx⟩
        · cases hx
        · exact hinv.flags j i' hx
      · intro j i' hi'
        dsimp only at hi'
        rcases get?_set_cases _ _ _ _ _ hi' with ⟨_, hx, _⟩ | ⟨hjne, hx⟩
        · cases hx
        · exact hinv.link j i' hx
      · intro j i' hi'
        dsimp only at hi'
        rcases get?_set_cases _ _ _ _ _ hi' with ⟨_, hx, _⟩ | ⟨hjne, hx⟩
        · cases hx
        · exact hinv.spec j i' hx
      · intro j i' hi'
        dsimp only at hi'
        rcases get?_set_cases _ _ _ _ _ hi' with ⟨_, hx, _⟩ | ⟨hjne, hx⟩
        · cases hx
        · exact hinv.fwd j i' hx
    · rw [if_neg hLS]
      by_cases hST : i0.instr_type = InstructionType.STORE
      · rw [if_pos hST]
        obtain ⟨ls, es, hlsi0, hlsSz, hles, heseq0, _, hstore⟩ :=
          hinv.link p.rob.head i0 hget hiss0 (Or.inr hST)
        obtain ⟨hopS, hexcl, _⟩ := hstore hST
        obtain ⟨havS, haeqS, _, _⟩ := hexcl hexe0
        have hsz4s : es.size = 4 := (hinv.lsq.wf ls es hles).1
        cases haddr : i0.address with
        | none =>
          simp only [haddr]
          refine ⟨hinv.lsq, hrobinv, ?_, ?_, ?_, ?_⟩
          · intro j i' hi'
            dsimp only at hi'
            rcases get?_set_cases _ _ _ _ _ hi' with ⟨_, hx, _⟩ | ⟨hjne, hx⟩
            · cases hx
            · exact hinv.flags j i' hx
          · intro j i' hi'
            dsimp only at hi'
            rcases get?_set_cases _ _ _ _ _ hi' with ⟨_, hx, _⟩ | ⟨hjne, hx⟩
            · cases hx
            · exact hinv.link j i' hx
          · intro j i' hi'
            dsimp only at hi'
            rcases get?_set_cases _ _ _ _ _ hi' with ⟨_, hx, _⟩ | ⟨hjne, hx⟩
            · cases hx
            · exact hinv.spec j i' hx
          · intro j i' hi'
            dsimp only at hi'
            rcases get?_set_cases _ _ _ _ _ hi' with ⟨_, hx, _⟩ | ⟨hjne, hx⟩
            · cases hx
            · exact hinv.fwd j i' hx
        | some a =>
          cases hdata : i0.data with
          | none =>
            simp only [haddr, hdata]
            refine ⟨hinv.lsq, hrobinv, ?_, ?_, ?_, ?_⟩
            · intro j i' hi'
              dsimp only at hi'
              rcases get?_set_cases _ _ _ _ _ hi' with ⟨_, hx, _⟩ | ⟨hjne, hx⟩
              · cases hx
              · exact hinv.flags j i' hx
            · intro j i' hi'
              dsimp only at hi'
              rcases get?_set_cases _ _ _ _ _ hi' with ⟨_, hx, _⟩ | ⟨hjne, hx⟩
              · cases hx
              · exact hinv.link j i' hx
            · intro j i' hi'
              dsimp only at hi'
              rcases get?_set_cases _ _ _ _ _ hi' with ⟨_, hx, _⟩ | ⟨hjne, hx⟩
              · cases hx
              · exact hinv.spec j i' hx
            · intro j i' hi'
              dsimp only at hi'
              rcases get?_set_cases _ _ _ _ _ hi' with ⟨_, hx, _⟩ | ⟨hjne, hx⟩
              · cases hx
              · exact hinv.fwd j i' hx
          | some d =>
            simp only [haddr, hdata]
            have hesa : es.address = some a := by
              rw [haeqS, haddr]
            refine ⟨hinv.lsq, hrobinv, ?_, ?_, ?_, ?_⟩
            · intro j i' hi'
              dsimp only at hi'
              rcases get?_set_cases _ _ _ _ _ hi' with ⟨_, hx, _⟩ | ⟨hjne, hx⟩
              · cases hx
              · exact hinv.flags j i' hx
            · intro j i' hi'
              dsimp only at hi'
              rcases get?_set_cases _ _ _ _ _ hi' with ⟨_, hx, _⟩ | ⟨hjne, hx⟩
              · cases hx
              · exact hinv.link j i' hx
            · intro j i' hi'
              dsimp only at hi'
              rcases get?_set_cases _ _ _ _ _ hi' with ⟨_, hx, _⟩ | ⟨hjne, hx⟩
              · cases hx
              · intro hL hs hc
                obtain ⟨a', lj, e', ha', hlj', hljsz', hget', hav', hae', hdat', hcln'⟩ :=
                  hinv.spec j i' hx hL hs hc
                have hIF' := hinv.flags j i' hx
                have hiss' : i'.issued = true := hIF'.2.2.1 (hIF'.2.1 hc)
                obtain ⟨lj2, e2', hlj2, _, hget2', heseq2', _, _⟩ :=
                  hinv.link j i' hx hiss' (Or.inl hL)
                rw [hlj'] at hlj2
                injection hlj2 with hlj2b
                subst hlj2b
                rw [hget'] at hget2'
                injection hget2' with hg2a
                injection hg2a with hg2b
                subst hg2b
                have hseqlt : es.seq_num < e'.seq_num := by
                  rw [heseq0, heseq2']
                  exact hseq0lt j i' hjne hx
                have hlslj : ls < lj := by
                  rcases Nat.lt_trichotomy ls lj with h1 | h1 | h1
                  · exact h1
                  · exfalso
                    subst h1
                    rw [hles] at hget'
                    injection hget' with hga
                    injection hga with hgb
                    subst hgb
                    omega
                  · exfalso
                    have := hinv.lsq.seqMono lj ls e' es hget' hles h1
                    omega
                rcases hcln' ls hlslj es hles (Or.inl hopS) with ⟨_, hnov⟩
                rw [hesa, hsz4s] at hnov
                have hane : a ≠ a' :=
                  addressesOverlap_false_ne a a' 4 rfl hnov
                refine ⟨a', lj, e', ha', hlj', hljsz', hget', hav', hae', ?_, hcln'⟩
                rw [memGet_memSet_ne p.memory a a' d (Ne.symm hane)]
                exact hdat'
            · intro j i' hi'
              dsimp only at hi'
              rcases get?_set_cases _ _ _ _ _ hi' with ⟨_, hx, _⟩ | ⟨hjne, hx⟩
              · cases hx
              · exact hinv.fwd j i' hx
      · rw [if_neg hST]
        refine ⟨hinv.lsq, hrobinv, ?_, ?_, ?_, ?_⟩
        · intro j i' hi'
          dsimp only at hi'
          rcases get?_set_cases _ _ _ _ _ hi' with ⟨_, hx, _⟩ | ⟨hjne, hx⟩
          · cases hx
          · exact hinv.flags j i' hx
        · intro j i' hi'
          dsimp only at hi'
          rcases get?_set_cases _ _ _ _ _ hi' with ⟨_, hx, _⟩ | ⟨hjne, hx⟩
          · cases hx
          · exact hinv.link j i' hx
        · intro j i' hi'
          dsimp only at hi'
          rcases get?_set_cases _ _ _ _ _ hi' with ⟨_, hx, _⟩ | ⟨hjne, hx⟩
          · cases hx
          · exact hinv.spec j i' hx
        · intro j i' hi'
          dsimp only at hi'
          rcases get?_set_cases _ _ _ _ _ hi' with ⟨_, hx, _⟩ | ⟨hjne, hx⟩
          · cases hx
          · exact hinv.fwd j i' hx

/-- A full cycle (cycle bump, commit stage, optional issue) preserves the
invariant. -/
theorem Inv_tick (p : Pipeline) (stream : List Instruction)
    (hf : ∀ i ∈ stream, i.Fresh) (hinv : Inv p) : Inv (p.cycle_step stream).1 := by
  have h1 : Inv { p with cycle := p.cycle + 1 } :=
    ⟨hinv.lsq, hinv.rob, hinv.flags, hinv.link, hinv.spec, hinv.fwd⟩
  have h2 : Inv ({ p with cycle := p.cycle + 1 }.commit_instruction).1 :=
    Inv_commit _ h1
  unfold Pipeline.cycle_step
  cases stream with
  | nil => exact h2
  | cons instr rest =>
    dsimp only
    by_cases hfull :
        (({ p with cycle := p.cycle + 1 }.commit_instruction).1.rob.is_full) = true
    · rw [if_pos hfull]
      exact h2
    · rw [if_neg hfull]
      have h3 : Inv (({ p with cycle := p.cycle + 1
          }.commit_instruction).1.issue_instruction instr).1 :=
        Inv_issue _ instr (hf instr (List.mem_cons_self instr rest)) h2
      split <;> exact h3

/-- Every pipeline state reachable through the public operations satisfies the
invariant. -/
theorem Inv_reachable (robSize lsqSize : Nat) (p : Pipeline)
    (h : PipeReachable robSize lsqSize p) : Inv p := by
  induction h with
  | refl => exact Inv_init robSize lsqSize
  | tail hsteps hstep ih =>
    cases hstep with
    | issue i hfr => exact Inv_issue _ i hfr ih
    | exec idx => exact Inv_exec _ idx ih
    | commit => exact Inv_commit _ ih
    | tick stream hfr => exact Inv_tick _ stream hfr ih

theorem newestStep_some (acc : Option LSQEntry) (y : LSQEntry) :
    ∃ z, newestStep acc y = some z ∧ (z = y ∨ acc = some z) ∧
      y.seq_num ≤ z.seq_num ∧ (∀ b, acc = some b → b.seq_num ≤ z.seq_num) := by
  cases acc with
  | none =>
    exact ⟨y, rfl, Or.inl rfl, Nat.le_refl _, fun b hb => by cases hb⟩
  | some b =>
    unfold newestStep
    dsimp only
    by_cases hlt : b.seq_num < y.seq_num
    · rw [if_pos hlt]
      refine ⟨y, rfl, Or.inl rfl, Nat.le_refl _, ?_⟩
      intro b2 hb2
      injection hb2 with h2
      subst h2
      omega
    · rw [if_neg hlt]
      refine ⟨b, rfl, Or.inr rfl, by omega, ?_⟩
      intro b2 hb2
      injection hb2 with h2
      subst h2
      exact Nat.le_refl _

theorem newestFold_spec (l : List LSQEntry) (acc : Option LSQEntry) (x : LSQEntry)
    (h : l.foldl newestStep acc = some x) :
    (acc = some x ∨ x ∈ l) ∧ (∀ y ∈ l, y.seq_num ≤ x.seq_num) ∧
      (∀ b, acc = some b → b.seq_num ≤ x.seq_num) := by
  induction l generalizing acc with
  | nil =>
    refine ⟨Or.inl h, ?_, ?_⟩
    · intro y hy
      cases hy
    · intro b hb
      rw [hb] at h
      injection h with hx
      subst hx
      exact Nat.le_refl _
  | cons y t ih =>
    rw [List.foldl_cons] at h
    obtain ⟨hmem, hall, hacc⟩ := ih (newestStep acc y) h
    obtain ⟨z, hz, hzor, hyz, hbz⟩ := newestStep_some acc y
    have hzx : z.seq_num ≤ x.seq_num := hacc z hz
    refine ⟨?_, ?_, ?_⟩
    · rcases hmem with h1 | h1
      · rw [hz] at h1
        injection h1 with h1b
        subst h1b
        rcases hzor with h2 | h2
        · exact Or.inr (by rw [h2]; exact List.mem_cons_self y t)
        · exact Or.inl h2
      · exact Or.inr (List.mem_cons_of_mem y h1)
    · intro y2 hy2
      rcases List.mem_cons.mp hy2 with h2 | h2
      · subst h2
        omega
      · exact hall y2 h2
    · intro b hb
      have := hbz b hb
      omega

theorem newestFold_ne_nil (l : List LSQEntry) (acc : Option LSQEntry)
    (h : l ≠ [] ∨ ∃ b, acc = some b) : ∃ x, l.foldl newestStep acc = some x := by
  induction l generalizing acc with
  | nil =>
    rcases h with h1 | ⟨b, hb⟩
    · exact absurd rfl h1
    · exact ⟨b, by rw [List.foldl_nil]; exact hb⟩
  | cons y t ih =>
    rw [List.foldl_cons]
    obtain ⟨z, hz, _⟩ := newestStep_some acc y
    exact ih (newestStep acc y) (Or.inr ⟨z, hz⟩)

/-- If `x` is a member whose sequence number strictly dominates every other
member, the selection returns `x`. -/
theorem newestBySeq_unique_max (l : List LSQEntry) (x : LSQEntry) (hx : x ∈ l)
    (hmax : ∀ y ∈ l, y ≠ x → y.seq_num < x.seq_num) :
    newestBySeq l = some x := by
  have hne : l ≠ [] := by
    intro h
    rw [h] at hx
    cases hx
  obtain ⟨z, hz⟩ := newestFold_ne_nil l none (Or.inl hne)
  obtain ⟨hmem, hall, _⟩ := newestFold_spec l none z hz
  have hzx : z = x := by
    rcases hmem with h1 | h1
    · cases h1
    · by_contra hne2
      have h2 := hmax z h1 hne2
      have h3 := hall x hx
      omega
  rw [newestBySeq, hz, hzx]

/-- Unpacking membership in the architectural candidate list. -/
theorem archCandidates_mem (q : LoadStoreQueue) (loadSeq : Nat) (a : Int)
    (ec : LSQEntry) (h : ec ∈ archCandidates q loadSeq a) :
    (∃ n, q.entries.get? n = some (some ec)) ∧
      ec.seq_num < loadSeq ∧
      (ec.op_type = MemOpType.STORE ∨ ec.op_type = MemOpType.ATOMIC) ∧
      ec.address_valid = true ∧
      addressesOverlap (ec.address.getD 0) ec.size a 4 = true := by
  unfold archCandidates at h
  rw [List.mem_filter] at h
  obtain ⟨hmem, hpred⟩ := h
  rw [List.mem_filterMap] at hmem
  obtain ⟨o, ho, hoe⟩ := hmem
  have ho2 : o = some ec := hoe
  subst ho2
  simp only [Bool.and_eq_true, Bool.or_eq_true, decide_eq_true_eq,
    beq_iff_eq] at hpred
  obtain ⟨⟨⟨h1, h2⟩, h3⟩, h4⟩ := hpred
  exact ⟨List.mem_iff_get?.mp ho, h1, h2, h3, h4⟩

/-- Introducing membership in the architectural candidate list. -/
theorem archCandidates_intro (q : LoadStoreQueue) (loadSeq : Nat) (a : Int)
    (ec : LSQEntry) (n : Nat) (hn : q.entries.get? n = some (some ec))
    (h1 : ec.seq_num < loadSeq)
    (h2 : ec.op_type = MemOpType.STORE ∨ ec.op_type = MemOpType.ATOMIC)
    (h3 : ec.address_valid = true)
    (h4 : addressesOverlap (ec.address.getD 0) ec.size a 4 = true) :
    ec ∈ archCandidates q loadSeq a := by
  unfold archCandidates
  rw [List.mem_filter]
  constructor
  · rw [List.mem_filterMap]
    exact ⟨some ec, List.mem_iff_get?.mpr ⟨n, hn⟩, rfl⟩
  · simp only [Bool.and_eq_true, Bool.or_eq_true, decide_eq_true_eq, beq_iff_eq]
    exact ⟨⟨⟨h1, h2⟩, h3⟩, h4⟩

/-- C1: in every reachable pipeline state, every committed load's observed
value equals the architectural value — the data of the newest earlier
(smaller sequence number) store overlapping the load's 4-byte range at commit
time, or the memory model's value at the load's address if no such store
exists. The proof goes through an inductive invariant over the public
operations: completed loads either read memory with a conflict-free earlier
queue (speculative path) or took the scanned forwarding source's data
(forwarding path), and the never-freed LSQ preserves exactly the earlier
stores needed to evaluate the architectural value at commit. -/
theorem C1_committed_load_architectural (robSize lsqSize : Nat) (p : Pipeline)
    (hreach : PipeReachable robSize lsqSize p) (i : Instruction)
    (hcommit : (p.commit_instruction).2 = some i)
    (hload : i.instr_type = InstructionType.LOAD) :
    i.data = some (archValue p i) := by
  have hinv := Inv_reachable robSize lsqSize p hreach
  rcases commit_head_cases p.rob with ⟨hres, hrob⟩ | ⟨i0, hget, hcomp, hne, hres, hrob⟩
  · simp only [Pipeline.commit_instruction, hres, hrob] at hcommit
    cases hcommit
  · have hIF0 := hinv.flags p.rob.head i0 hget
    have hexe0 : i0.executed = true := hIF0.2.1 hcomp
    have hiss0 : i0.issued = true := hIF0.2.2.1 hexe0
    simp only [Pipeline.commit_instruction, hres, hrob] at hcommit
    by_cases hLS : i0.instr_type = InstructionType.LOAD ∧ i0.speculative = true
    · rw [if_pos hLS] at hcommit
      split at hcommit
      · dsimp only at hcommit
        cases hcommit
      · dsimp only at hcommit
        injection hcommit with hci
        subst hci
        obtain ⟨a, li, e, ha, hlsqi, hliSz, hle, hav, hae, hdat, hcln⟩ :=
          hinv.spec p.rob.head i0 hget hLS.1 hLS.2 hcomp
        obtain ⟨li2, e2, hlsqi2, _, hle2, heseq2, hopL', _⟩ :=
          hinv.link p.rob.head i0 hget hiss0 (Or.inl hLS.1)
        have hopL : e2.op_type = MemOpType.LOAD := hopL' hLS.1
        rw [hlsqi] at hlsqi2
        injection hlsqi2 with hli2
        subst hli2
        rw [hle] at hle2
        injection hle2 with he2a
        injection he2a with he2b
        subst he2b
        have hempty : archCandidates p.lsq (i0.seq_num.getD 0) a = [] := by
          rw [List.eq_nil_iff_forall_not_mem]
          intro ec hec
          obtain ⟨⟨n, hn⟩, hseqlt, hop, hval2, hov⟩ :=
            archCandidates_mem p.lsq (i0.seq_num.getD 0) a ec hec
          have hnsz : n < p.lsq.size := (hinv.lsq.dom n).mp ⟨ec, hn⟩
          rcases Nat.lt_trichotomy n li with h1 | h1 | h1
          · rcases hcln n h1 ec hn hop with ⟨_, hov2⟩
            rw [hov2] at hov
            cases hov
          · subst h1
            rw [hle] at hn
            injection hn with hna
            injection hna with hnb
            subst hnb
            rcases hop with h3 | h3 <;> (rw [hopL] at h3; cases h3)
          · have := hinv.lsq.seqMono li n e ec hle hn h1
            omega
        show i0.data = some (archValue p { i0 with committed := true })
        rw [hdat]
        simp only [archValue]
        rw [ha]
        simp only [Option.getD_some]
        rw [hempty]
        rfl
    · rw [if_neg hLS] at hcommit
      dsimp only at hcommit
      injection hcommit with hci
      subst hci
      have hload0 : i0.instr_type = InstructionType.LOAD := hload
      have hspec0 : i0.speculative = false := by
        cases hs : i0.speculative
        · rfl
        · exact absurd ⟨hload0, hs⟩ hLS
      obtain ⟨a, li, d, f, ha, hlsqi, hliSz, hflt, hfs, hfd, hdat, hcln⟩ :=
        hinv.fwd p.rob.head i0 hget hload0 hspec0 hcomp
      obtain ⟨li2, e2, hlsqi2, _, hle2, heseq2, hopL', _⟩ :=
        hinv.link p.rob.head i0 hget hiss0 (Or.inl hload0)
      have hopL : e2.op_type = MemOpType.LOAD := hopL' hload0
      rw [hlsqi] at hlsqi2
      injection hlsqi2 with hli2
      subst hli2
      obtain ⟨ef, hef, hefdat⟩ := hfd
      obtain ⟨ef2, hef2, hop2, hav2, hdv2, hada2, hsz2⟩ := hfs
      rw [hef] at hef2
      injection hef2 with hefa
      injection hefa with hefb
      subst hefb
      have hef_sz : ef.size = 4 := (hinv.lsq.wf f ef hef).1
      have hseq_f : ef.seq_num < i0.seq_num.getD 0 := by
        have := hinv.lsq.seqMono f li ef e2 hef hle2 hflt
        omega
      have hmemef : ef ∈ archCandidates p.lsq (i0.seq_num.getD 0) a :=
        archCandidates_intro p.lsq _ a ef f hef hseq_f hop2 hav2
          (by rw [hada2, hef_sz]; exact addressesOverlap_refl4 a)
      have hmax : ∀ y ∈ archCandidates p.lsq (i0.seq_num.getD 0) a, y ≠ ef →
          y.seq_num < ef.seq_num := by
        intro y hy hyne
        obtain ⟨⟨n, hn⟩, hseqlt, hop, hval2, hov⟩ :=
          archCandidates_mem p.lsq (i0.seq_num.getD 0) a y hy
        have hnsz : n < p.lsq.size := (hinv.lsq.dom n).mp ⟨y, hn⟩
        have hnli : n < li := by
          rcases Nat.lt_trichotomy n li with h1 | h1 | h1
          · exact h1
          · exfalso
            subst h1
            rw [hle2] at hn
            injection hn with hna
            injection hna with hnb
            subst hnb
            rcases hop with h3 | h3 <;> (rw [hopL] at h3; cases h3)
          · exfalso
            have := hinv.lsq.seqMono li n e2 y hle2 hn h1
            omega
        rcases Nat.lt_trichotomy n f with h2 | h2 | h2
        · exact hinv.lsq.seqMono n f y ef hn hef h2
        · exfalso
          subst h2
          rw [hef] at hn
          injection hn with hna
          injection hna with hnb
          exact hyne hnb.symm
        · exfalso
          rcases hcln n h2 hnli y hn hop with ⟨_, hov2⟩
          rw [hov2] at hov
          cases hov
      have hnewest := newestBySeq_unique_max _ ef hmemef hmax
      show i0.data = some (archValue p { i0 with committed := true })
      rw [hdat]
      simp only [archValue]
      rw [ha]
      simp only [Option.getD_some]
      rw [hnewest]
      dsimp only
      rw [hefdat]
      rfl

/-- Witness scenario for the committed-load claim: a single load issued into a
fresh `Pipeline(4, 4)` and then executed (it reads memory speculatively). -/
def c1Load : Instruction :=
  Instruction.new 0x104 InstructionType.LOAD (some 3) [] 0x2000

def c1Pipe0 : Pipeline := Pipeline.init 4 4

def c1Pipe1 : Pipeline := (c1Pipe0.issue_instruction c1Load).1

def c1Pipe : Pipeline := (c1Pipe1.execute_at 0).1

/-- The instruction that `c1Pipe.commit_instruction` retires. -/
def c1CommitInstr : Instruction :=
  { pc := 0x104, instr_type := InstructionType.LOAD, dst_reg := some 3,
    src_regs := [], immediate := 0x2000, seq_num := some 0, lsq_idx := some 0,
    address := some 0x2000, data := some 0, issued := true, executed := true,
    completed := true, committed := true, speculative := true }

theorem C1_committed_load_architectural_witness :
    PipeReachable 4 4 c1Pipe ∧
    (c1Pipe.commit_instruction).2 = some c1CommitInstr ∧
    c1CommitInstr.instr_type = InstructionType.LOAD ∧
    c1CommitInstr.data = some (archValue c1Pipe c1CommitInstr) := by
  have hreach : PipeReachable 4 4 c1Pipe :=
    Relation.ReflTransGen.tail
      (Relation.ReflTransGen.tail Relation.ReflTransGen.refl
        (PipeStep.issue c1Pipe0 c1Load ⟨rfl, rfl, rfl, rfl, rfl, rfl, rfl, rfl, rfl⟩))
      (PipeStep.exec c1Pipe1 0)
  have hc : (c1Pipe.commit_instruction).2 = some c1CommitInstr := by decide
  have hl : c1CommitInstr.instr_type = InstructionType.LOAD := rfl
  exact ⟨hreach, hc, hl,
    C1_committed_load_architectural 4 4 c1Pipe hreach c1CommitInstr hc hl⟩

end MemDisamb
